import Mathlib

/-!
# Kohonen self-organizing map (`som.c`): embedding and verified properties

The numeric engine of `som.c` is embedded over an arbitrary linearly ordered
field `K` with a floor function, so that every definition is computable on
`ℚ` and can be reasoned about on `ℝ`.

* `int` values are elements of `Int`.  Under the side conditions of the theorems every
  `int` expression of the functions below stays within `[-W, 2 * W)` or `[-H, 2 * H)`, far
  from the limits of a 32-bit `int` for the source's sizes.
* The arithmetic on `double` is embedded in two ways.
  - Exact arithmetic.  A `double` / `long double` value is an element of `K` and `+`, `-`,
    `*`, `/` are the field operations.  The libm functions `sqrt` and `exp` are parameters of
    the functions that call them.  This embedding is used for the schedule, for the training
    and inference loops of `main`, and for `scale_neighbors`.  In `scale_neighbors` the only
    floating-point value that enters a decision is the result of `sqrt`, applied to a sum of
    squares of two small integers (exact in binary64), in the test
    `distance < iteration_radius`; the statements on which neurons are blended are therefore
    proved for an arbitrary function `sqrt` and instantiated with the correctly rounded square
    root `sqrt_binary64 Real.sqrt`.
  - Binary64 arithmetic (`Double`, namespace `Binary64`).  The result of `search_bmu` is
    decided by comparisons of computed distances, so `distance_between_sample_and_neuron`
    and `search_bmu` are also embedded with every operation rounded as in IEEE-754 binary64:
    round to nearest, ties to even, gradual underflow, overflow to an infinity, NaN.  This is
    the arithmetic of a `double` expression compiled for x86-64 (each operation rounded to
    binary64, no fused multiply-add, `sqrt` correctly rounded).
* A heap array `double *` is a function `Nat → K` from index to value; the global
  `map` is a function from the two indices to the neuron stored there.  The
  source indexes `map` without any check, so an index outside
  `[0, MAP_WIDTH) × [0, MAP_HEIGHT)` is a memory error: the embedding makes the
  write fallible and returns `none` there.
* `MAP_WIDTH` and `MAP_HEIGHT` are compile-time constants of the source (both
  300).  The functions take them as the parameters `W` and `H`; the constants
  are kept as `MAP_WIDTH` and `MAP_HEIGHT`.
* A C `for` loop over an `int` counter is a left fold over the list of the
  counter values in ascending order.
-/

namespace Som

/-! ## Constants and macros -/

/-- Source: `#define MAP_WIDTH 300`. -/
def MAP_WIDTH : Int := 300

/-- Source: `#define MAP_HEIGHT 300`. -/
def MAP_HEIGHT : Int := 300

/-- Source: `#define INITIAL_TRAINING_ITERATIONS_PER_EPOCH 300`. -/
def INITIAL_TRAINING_ITERATIONS_PER_EPOCH : Int := 300

/-- Source: `#define TOTAL_EPOCHS 8`. -/
def TOTAL_EPOCHS : Int := 8

/-- Largest value of the C type `int` (32 bits). -/
def INT_MAX : Int := 2147483647

section Generic

variable {K : Type} [LinearOrderedField K] [FloorRing K]

/-- Source: `#define INITIAL_RADIUS 200.0L`. -/
def INITIAL_RADIUS : K := 200

/-- Source: `#define INITIAL_LEARNING_RULE 0.9L`. -/
def INITIAL_LEARNING_RULE : K := 9 / 10

/-- The constant `DBL_MAX` of `<float.h>` for IEEE-754 binary64:
`(2 - 2^(-52)) * 2^1023 = (2^53 - 1) * 2^971`. -/
def DBL_MAX : K := (2 ^ 53 - 1) * 2 ^ 971

/-- Source: `#define pow2(x) ((x) * (x))`. -/
def pow2 (x : K) : K := x * x

/-- Source: `#define max(a, b) (((a) > (b)) ? (a) : (b))`. -/
def c_max (a b : K) : K := if a > b then a else b

/-- The conversion `(int)v` of a floating value: truncation toward zero. -/
def c_trunc (v : K) : Int := if 0 ≤ v then ⌊v⌋ else ⌈v⌉

/-- The values `lo, lo+1, ..., hi-1` taken by the counter of
`for (int c = lo; c < hi; c++)`, in order. -/
def int_range (lo hi : Int) : List Int :=
  (List.range (hi - lo).toNat).map (fun (k : Nat) => lo + (k : Int))

/-! ## Data model -/

/-- Source: `struct Neuron` (`double *weights`). -/
structure Neuron (K : Type) where
  weights : Nat → K

/-- Source: `struct BMU`. -/
structure BMU where
  x_coord : Int
  y_coord : Int
deriving DecidableEq

/-- Source: `struct Coordinate`. -/
structure Coordinate (K : Type) where
  x : K
  y : K

/-- Source: `struct Sample`. -/
structure Sample (K : Type) where
  components : Nat → K
  value : K
  bmu : BMU

/-- The global `Neuron **map`: `map x y` is `map[x][y]`. -/
abbrev Grid (K : Type) := Int → Int → Neuron K

/-! ## Distance and best matching unit -/

/-- Source: `distance_between_sample_and_neuron`, in exact arithmetic (the embedding in
binary64 arithmetic is `Binary64.distance_between_sample_and_neuron`). -/
def distance_between_sample_and_neuron (sqrt : K → K) (sample : Sample K) (neuron : Neuron K)
    (total_components : Int) : K :=
  sqrt ((List.range (total_components - 1).toNat).foldl
    (fun euclidean_distance i =>
      euclidean_distance + pow2 (sample.components i - neuron.weights i)) 0)

/-- The two nested loops of `search_bmu`, on the pair `(*bmu, min_dist)`, in exact
arithmetic. -/
def search_bmu_loop (sqrt : K → K) (W H : Int) (map : Grid K) (sample : Sample K)
    (total_components : Int) (init : BMU × K) : BMU × K :=
  (int_range 0 W).foldl (fun st x =>
    (int_range 0 H).foldl (fun st y =>
      let dist := distance_between_sample_and_neuron sqrt sample (map x y) total_components
      if dist < st.2 then (⟨x, y⟩, dist) else st) st) init

/-- Source: `search_bmu`, in exact arithmetic (the embedding in binary64 arithmetic is
`Binary64.search_bmu`).  The argument `bmu` is the content of `*bmu` on entry, the result its
content on return. -/
def search_bmu (sqrt : K → K) (W H : Int) (map : Grid K) (sample : Sample K) (bmu : BMU)
    (total_components : Int) : BMU :=
  (search_bmu_loop sqrt W H map sample total_components (bmu, DBL_MAX)).1

/-! ## Neighborhood update -/

/-- Source: `get_coordinate_distance`.  The parameter `sqrt` is the function that the call of
`sqrt` computes: the exact square root, or the correctly rounded one, `sqrt_binary64`. -/
def get_coordinate_distance (sqrt : K → K) (p1 p2 : Coordinate K) : K :=
  let x_sub := p1.x - p2.x
  let y_sub := p1.y - p2.y
  sqrt (x_sub * x_sub + y_sub * y_sub)

/-- The loop of `scale_neuron_at_position` over the weights of one neuron. -/
def scale_weights (weights : Nat → K) (sample : Sample K) (scale : K)
    (total_components : Int) : Nat → K :=
  (List.range (total_components - 1).toNat).foldl (fun weights i =>
    let neuron_prescaled := weights i * (1 - scale)
    let neuron_scaled := sample.components i * scale + neuron_prescaled
    Function.update weights i neuron_scaled) weights

/-- Source: `scale_neuron_at_position`.  `&map[x][y]` with an index outside the
allocated grid is a memory error, reported as `none`. -/
def scale_neuron_at_position (W H : Int) (map : Grid K) (x y : Int) (sample : Sample K)
    (scale : K) (total_components : Int) : Option (Grid K) :=
  if 0 ≤ x ∧ x < W ∧ 0 ≤ y ∧ y < H then
    some (fun x1 y1 =>
      if x1 = x ∧ y1 = y then ⟨scale_weights (map x y).weights sample scale total_components⟩
      else map x1 y1)
  else none

/-- The coordinate wrap written inline in `scale_neighbors`:
`x_offset < 0 ? MAP_WIDTH + x_offset : (x_offset >= MAP_WIDTH ? x_offset - MAP_WIDTH : x_offset)`. -/
def wrap_coord (dim offset : Int) : Int :=
  if offset < 0 then dim + offset else (if offset ≥ dim then offset - dim else offset)

/-- Source: `scale_neighbors`. -/
def scale_neighbors (sqrt exp : K → K) (W H : Int) (map : Grid K) (bmu : BMU)
    (sample : Sample K) (iteration_radius learning_rule : K) (total_components : Int) :
    Option (Grid K) :=
  let center : Coordinate K := ⟨0, 0⟩
  let int_iteration_radius := c_trunc iteration_radius
  (int_range (-int_iteration_radius) int_iteration_radius).foldlM (fun (map : Grid K) (y : Int) =>
    (int_range (-int_iteration_radius) int_iteration_radius).foldlM (fun (map : Grid K) (x : Int) =>
      let outer : Coordinate K := ⟨(x : K), (y : K)⟩
      let distance := get_coordinate_distance sqrt outer center
      if distance < iteration_radius then
        let scale := learning_rule *
          exp (-10 * (distance * distance) / (iteration_radius * iteration_radius))
        let x_offset := x + bmu.x_coord
        let y_offset := y + bmu.y_coord
        let x_coord := wrap_coord W x_offset
        let y_coord := wrap_coord H y_offset
        scale_neuron_at_position W H map x_coord y_coord sample scale total_components
      else some map) map) map

/-- The calls `scale_neuron_at_position(x_coord, y_coord, sample, scale, ...)` that
`scale_neighbors` makes, in order, as triples `(x_coord, y_coord, scale)`: the same two
loops, the same test and the same expressions as in `scale_neighbors`. -/
def scale_neighbors_calls (sqrt exp : K → K) (W H : Int) (bmu : BMU)
    (iteration_radius learning_rule : K) : List (Int × Int × K) :=
  let center : Coordinate K := ⟨0, 0⟩
  let int_iteration_radius := c_trunc iteration_radius
  (int_range (-int_iteration_radius) int_iteration_radius).flatMap (fun (y : Int) =>
    (int_range (-int_iteration_radius) int_iteration_radius).filterMap (fun (x : Int) =>
      let outer : Coordinate K := ⟨(x : K), (y : K)⟩
      let distance := get_coordinate_distance sqrt outer center
      if distance < iteration_radius then
        let scale := learning_rule *
          exp (-10 * (distance * distance) / (iteration_radius * iteration_radius))
        let x_offset := x + bmu.x_coord
        let y_offset := y + bmu.y_coord
        let x_coord := wrap_coord W x_offset
        let y_coord := wrap_coord H y_offset
        some (x_coord, y_coord, scale)
      else none))

/-! ## Reference definition of the neighborhood update (from the specification) -/

/-- Specification, section 4.3: the integer offsets `(dx, dy)` with `dx` and `dy` ranging over
`[-floor r, floor r)` and `dx^2 + dy^2 < r^2`, `dy` outer and `dx` inner, ascending. -/
def neighborhood_offsets (r : K) : List (Int × Int) :=
  (int_range (-⌊r⌋) ⌊r⌋).flatMap (fun (dy : Int) =>
    ((int_range (-⌊r⌋) ⌊r⌋).filter
      (fun (dx : Int) => decide ((dx : K) ^ 2 + (dy : K) ^ 2 < r ^ 2))).map
      (fun (dx : Int) => (dx, dy)))

/-- Specification, section 4.3: the Gaussian scale factor `a * exp(-10 * d^2 / r^2)` of the
offset `(dx, dy)`, where `d^2 = dx^2 + dy^2`. -/
def gaussian_scale (exp : K → K) (r a : K) (o : Int × Int) : K :=
  a * exp (-10 * ((o.1 : K) ^ 2 + (o.2 : K) ^ 2) / r ^ 2)

/-- Specification, section 4.3: `weight[i] = weight[i]*(1-scale) + sample.component[i]*scale`
on the `D - 1` feature components. -/
def blend_weights (weights : Nat → K) (sample : Sample K) (scale : K) (D : Int) : Nat → K :=
  fun i => if (i : Int) < D - 1 then weights i * (1 - scale) + sample.components i * scale
    else weights i

/-- The grid in which the neuron at `(cx, cy)` is blended toward the sample with the given
scale and every other neuron is as in `grid`. -/
def blend_at (grid : Grid K) (cx cy : Int) (sample : Sample K) (scale : K) (D : Int) :
    Grid K :=
  fun x y => if x = cx ∧ y = cy then ⟨blend_weights (grid cx cy).weights sample scale D⟩
    else grid x y

/-- Specification, section 4.3: the neighborhood update, as the blends of the neurons at the
wrapped cells `((bx + dx) mod W, (by + dy) mod H)` over the offsets of `neighborhood_offsets`,
in order. -/
def scale_neighbors_reference (exp : K → K) (W H : Int) (map : Grid K) (bmu : BMU)
    (sample : Sample K) (r a : K) (D : Int) : Grid K :=
  (neighborhood_offsets r).foldl (fun grid o =>
    blend_at grid ((bmu.x_coord + o.1) % W) ((bmu.y_coord + o.2) % H) sample
      (gaussian_scale exp r a o) D) map

/-! ## Training iterations -/

/-- One iteration of the training loop of `main` on the drawn sample: `search_bmu`, then
`scale_neighbors` with the radius and learning rate of the epoch.  The state is the grid and
the local variable `bmu`. -/
def training_iteration (sqrt exp : K → K) (W H : Int) (total_components : Int)
    (st : Grid K × BMU) (step : Sample K × K × K) : Option (Grid K × BMU) :=
  let bmu := search_bmu sqrt W H st.1 step.1 st.2 total_components
  (scale_neighbors sqrt exp W H st.1 bmu step.1 step.2.1 step.2.2 total_components).map
    (fun map => (map, bmu))

/-- A finite sequence of training iterations; each step gives the sample drawn by
`pick_random_sample`, the radius and the learning rate. -/
def training_iterations (sqrt exp : K → K) (W H : Int) (total_components : Int)
    (st : Grid K × BMU) (steps : List (Sample K × K × K)) : Option (Grid K × BMU) :=
  steps.foldlM (training_iteration sqrt exp W H total_components) st

/-- Every weight of every neuron of the grid lies in `[0,1]`. -/
def weights_bounded (W H : Int) (total_components : Int) (map : Grid K) : Prop :=
  ∀ x y : Int, 0 ≤ x → x < W → 0 ≤ y → y < H →
    ∀ i : Nat, (i : Int) < total_components - 1 →
      0 ≤ (map x y).weights i ∧ (map x y).weights i ≤ 1

/-- Every component of the sample lies in `[0,1]`. -/
def components_bounded (total_components : Int) (sample : Sample K) : Prop :=
  ∀ i : Nat, (i : Int) < total_components - 1 →
    0 ≤ sample.components i ∧ sample.components i ≤ 1

/-! ## Training schedule (the head of the epoch loop of `main`) -/

/-- The variables of `main` and the globals that the epoch loop updates. -/
structure Schedule (K : Type) where
  epoch : Int
  radius : K
  learning_rule : K
  iterations_per_epoch : Int

/-- The values before the epoch loop: `epoch = 0`, `radius = INITIAL_RADIUS`,
`learning_rule = INITIAL_LEARNING_RULE`,
`iterations_per_epoch = INITIAL_TRAINING_ITERATIONS_PER_EPOCH`. -/
def schedule_init : Schedule K :=
  { epoch := 0
    radius := INITIAL_RADIUS
    learning_rule := INITIAL_LEARNING_RULE
    iterations_per_epoch := INITIAL_TRAINING_ITERATIONS_PER_EPOCH }

/-- The four assignments at the head of the body of the epoch loop of `main`. -/
def epoch_begin (exp : K → K) (s : Schedule K) : Schedule K :=
  { radius := c_max 1 (if s.epoch = 0 then INITIAL_RADIUS else s.radius - s.radius / 3)
    learning_rule := c_max (15 / 1000)
      (INITIAL_LEARNING_RULE *
        exp (-10 * ((s.epoch * s.epoch : Int) : K) / ((TOTAL_EPOCHS * TOTAL_EPOCHS : Int) : K)))
    iterations_per_epoch :=
      if s.epoch = 0 then INITIAL_TRAINING_ITERATIONS_PER_EPOCH else s.iterations_per_epoch * 2
    epoch := s.epoch + 1 }

/-- The schedule in force during the pass number `e` (counted from 0) through the
body of the epoch loop, when no stop is requested before. -/
def schedule_in_epoch (exp : K → K) (e : Nat) : Schedule K :=
  (epoch_begin exp)^[e + 1] schedule_init

/-! ## The program `main`: training loops and inference pass

The window, the textures and the mouse are not modelled: the rendering functions read the
grid and the samples and write neither.  What the control flow reads from outside is given
as input: the values of `rand()`, the key returned by `GetKeyPressed()` and the answers of
`WindowShouldClose()`. -/

/-- The run-time errors of the numeric engine. -/
inductive Fault where
  /-- The remainder `rand() % info.total_dataset_samples` with no sample, in
  `pick_random_sample`. -/
  | modulo_by_zero
  /-- The access `map[x][y]` outside the allocated grid, in `scale_neuron_at_position`. -/
  | out_of_grid
deriving DecidableEq

/-- The fields of the global `info` (`struct DatasetInfo`) that the engine reads;
`samples i` is `info.samples[i]`.  When the dataset file cannot be opened, `load_dataset`
leaves `total_components = 0` and `total_dataset_samples = 0`. -/
structure DatasetInfo (K : Type) where
  samples : Int → Sample K
  total_components : Int
  total_dataset_samples : Int

/-- What one iteration of the training loop reads from outside: the value of `rand()` in
`pick_random_sample`, the key returned by `GetKeyPressed()` in `process_key_pressed` and the
answer of `WindowShouldClose()` at the end of the iteration. -/
structure IterationInput where
  rand : Nat
  key_pressed : Int
  window_should_close : Bool

/-- Source: `initialize_som_map`.  `rands x y i` is the value of `rand()` drawn for
`map[x][y].weights[i]`; `RAND_MAX` is the constant of `<stdlib.h>`. -/
def initialize_som_map (RAND_MAX : Nat) (rands : Int → Int → Nat → Nat) : Grid K :=
  fun x y => ⟨fun i => (rands x y i : K) / (RAND_MAX : K)⟩

/-- Source: `pick_random_sample`.  `rand()` is not negative, so `%` is the Euclidean
remainder when there is at least one sample; with no sample it is a division by zero. -/
def pick_random_sample (info : DatasetInfo K) (rand : Nat) : Except Fault (Sample K) :=
  if info.total_dataset_samples = 0 then Except.error Fault.modulo_by_zero
  else Except.ok (info.samples ((rand : Int) % info.total_dataset_samples))

/-- Source: `process_key_pressed`, restricted to `*selected_component_index` and
`*training_finished`; the other branches of the `else if` chain (SPACE, V, RIGHT, LEFT, right
SHIFT) and the two blocks after it only touch the display. -/
def process_key_pressed (key_pressed : Int) (selected_component_index : Int)
    (total_components : Int) (training_finished : Bool) : Int × Bool :=
  if key_pressed = 265 ∧ selected_component_index > 0 then
    (selected_component_index - 1, training_finished)
  else if key_pressed = 264 ∧ selected_component_index < total_components - 2 then
    (selected_component_index + 1, training_finished)
  else if key_pressed ≥ 48 ∧ key_pressed ≤ 57 then
    (key_pressed - 48, training_finished)
  else if key_pressed = 257 then
    (selected_component_index, true)
  else (selected_component_index, training_finished)

/-- The variables that the iterations of the training loop of `main` update.  `steps` is
not a variable of the program: it counts the training iterations executed so far. -/
structure TrainState (K : Type) where
  map : Grid K
  bmu : BMU
  iteration : Int
  selected_component_index : Int
  training_finished : Bool
  application_finished : Bool
  steps : Nat

/-- The inner loop of `main`:
`while ((iteration < iterations_per_epoch) && !training_finished && !application_finished)`.
`inputs i` is what the iteration started with `iteration = i` reads from outside. -/
def training_loop (sqrt exp : K → K) (W H : Int) (info : DatasetInfo K) (sched : Schedule K)
    (inputs : Int → IterationInput) (st : TrainState K) : Except Fault (TrainState K) :=
  if st.iteration < sched.iterations_per_epoch ∧ st.training_finished = false ∧
      st.application_finished = false then
    match pick_random_sample info (inputs st.iteration).rand with
    | Except.error f => Except.error f
    | Except.ok sample =>
      match training_iteration sqrt exp W H info.total_components (st.map, st.bmu)
          (sample, sched.radius, sched.learning_rule) with
      | none => Except.error Fault.out_of_grid
      | some grid_bmu =>
        training_loop sqrt exp W H info sched inputs
          ⟨grid_bmu.1, grid_bmu.2, st.iteration + 1,
            (process_key_pressed (inputs st.iteration).key_pressed st.selected_component_index
              info.total_components st.training_finished).1,
            (process_key_pressed (inputs st.iteration).key_pressed st.selected_component_index
              info.total_components st.training_finished).2,
            (if (inputs st.iteration).window_should_close then true
              else st.application_finished),
            st.steps + 1⟩
  else Except.ok st
termination_by (sched.iterations_per_epoch - st.iteration).toNat
decreasing_by
  simp_wf
  omega

/-- The epoch loop of `main`:
`while ((epoch < TOTAL_EPOCHS) && !training_finished && !application_finished)`.
`inputs e i` is what iteration `i` of the pass entered with `epoch = e` reads from outside. -/
def epoch_loop (sqrt exp : K → K) (W H : Int) (info : DatasetInfo K)
    (inputs : Int → Int → IterationInput) (sched : Schedule K) (st : TrainState K) :
    Except Fault (Schedule K × TrainState K) :=
  if sched.epoch < TOTAL_EPOCHS ∧ st.training_finished = false ∧
      st.application_finished = false then
    match training_loop sqrt exp W H info (epoch_begin exp sched) (inputs sched.epoch)
        ⟨st.map, st.bmu, 0, st.selected_component_index, st.training_finished,
          st.application_finished, st.steps⟩ with
    | Except.error f => Except.error f
    | Except.ok st1 => epoch_loop sqrt exp W H info inputs (epoch_begin exp sched) st1
  else Except.ok (sched, st)
termination_by (TOTAL_EPOCHS - sched.epoch).toNat
decreasing_by
  simp_wf
  simp only [epoch_begin]
  omega

/-- The inference loop of `main`:
`for (int i = 0; !WindowShouldClose() && (i < info.total_dataset_samples); i++)`.
`closes i` is the answer of `WindowShouldClose()` when the condition is evaluated with the
counter at `i`. -/
def inference_loop (sqrt : K → K) (W H : Int) (map : Grid K) (total_components : Int)
    (total_dataset_samples : Int) (closes : Int → Bool) (i : Int)
    (state : (Int → Sample K) × BMU) : (Int → Sample K) × BMU :=
  if closes i = false ∧ i < total_dataset_samples then
    inference_loop sqrt W H map total_components total_dataset_samples closes (i + 1)
      (Function.update state.1 i
        ⟨(state.1 i).components, (state.1 i).value,
          search_bmu sqrt W H map (state.1 i) state.2 total_components⟩,
        search_bmu sqrt W H map (state.1 i) state.2 total_components)
  else state
termination_by (total_dataset_samples - i).toNat
decreasing_by
  simp_wf
  omega

/-- What `main` leaves when the inference block is over: the grid, the samples, the local
`bmu`, the schedule variables and the variables of the training loop as the epoch loop left
them. -/
structure MainResult (K : Type) where
  map : Grid K
  samples : Int → Sample K
  bmu : BMU
  schedule : Schedule K
  training : TrainState K

/-- The part of `main` after the epoch loop, up to the end of the inference loop:
`if (!application_finished) { ... for (...) { search_bmu(...); ... } ... }`. -/
def inference_block (sqrt : K → K) (W H : Int) (info : DatasetInfo K) (closes : Int → Bool)
    (sched_st : Schedule K × TrainState K) : MainResult K :=
  if sched_st.2.application_finished = false then
    ⟨sched_st.2.map,
      (inference_loop sqrt W H sched_st.2.map info.total_components
        info.total_dataset_samples closes 0 (info.samples, sched_st.2.bmu)).1,
      (inference_loop sqrt W H sched_st.2.map info.total_components
        info.total_dataset_samples closes 0 (info.samples, sched_st.2.bmu)).2,
      sched_st.1, sched_st.2⟩
  else ⟨sched_st.2.map, info.samples, sched_st.2.bmu, sched_st.1, sched_st.2⟩

/-- Source: `main`, from `load_dataset` to the end of the inference loop.  `info` is what
`load_dataset` left in the global `info`, `bmu` the content of the uninitialized local
`BMU bmu`. -/
def main_program (sqrt exp : K → K) (W H : Int) (RAND_MAX : Nat) (info : DatasetInfo K)
    (rands : Int → Int → Nat → Nat) (bmu : BMU) (inputs : Int → Int → IterationInput)
    (closes : Int → Bool) : Except Fault (MainResult K) :=
  match epoch_loop sqrt exp W H info inputs schedule_init
      ⟨initialize_som_map RAND_MAX rands, bmu, 0, 0, false, false, 0⟩ with
  | Except.error f => Except.error f
  | Except.ok sched_st => Except.ok (inference_block sqrt W H info closes sched_st)

/-! ## Test data -/

/-- A grid in which every weight of every neuron is `v`. -/
def uniform_grid (v : K) : Grid K := fun _ _ => ⟨fun _ => v⟩

/-- A sample in which every component is `v`, with target value 0 and BMU field `(0,0)`
(the BMU field set by `load_dataset_samples`). -/
def uniform_sample (v : K) : Sample K := ⟨fun _ => v, 0, ⟨0, 0⟩⟩

/-- The global `info` after `load_dataset` on a file that cannot be opened: both loaders
print `Could not open file` and return, so `total_components` and `total_dataset_samples`
keep their initial value 0 (there is no sample; `samples` is never read). -/
def missing_dataset : DatasetInfo K := ⟨fun _ => uniform_sample 0, 0, 0⟩

/-- A dataset of `n` samples whose components are all `v`, with `d` columns. -/
def uniform_dataset (v : K) (d n : Int) : DatasetInfo K := ⟨fun _ => uniform_sample v, d, n⟩

/-- The inputs of a run in which no key is pressed, the window is never closed and
`rand()` always returns 0. -/
def idle_input : IterationInput := ⟨0, 0, false⟩

end Generic

/-! ## IEEE-754 binary64 arithmetic

The best matching unit is decided by comparisons of `double` values, so for `search_bmu` the
arithmetic of the source is embedded operation by operation: every `+`, `-`, `*` and `sqrt` on
`double` returns the exact result rounded to the nearest binary64 value, a tie going to the
value with the even significand (the default rounding mode), a result beyond the largest
finite value becomes an infinity, and an invalid operation gives a NaN, which compares false
with everything.  The sign of a zero is not represented: no operation of the source
distinguishes the two zeros. -/

section Binary64Values

variable {K : Type} [LinearOrderedField K]

/-- A value of the type `double`: a finite number, given by its value, an infinity or a
NaN. -/
inductive Double (K : Type) where
  | finite (value : K)
  | infinity (negative : Bool)
  | nan

/-- Unary minus on `double`. -/
def Double.neg : Double K → Double K
  | Double.finite a => Double.finite (-a)
  | Double.infinity s => Double.infinity (!s)
  | Double.nan => Double.nan

/-- The operator `<` on `double`. -/
def Double.lt : Double K → Double K → Bool
  | Double.finite a, Double.finite b => decide (a < b)
  | Double.finite _, Double.infinity s => !s
  | Double.infinity s, Double.finite _ => s
  | Double.infinity s, Double.infinity t => s && !t
  | _, _ => false

/-- The operator `<=` on `double`. -/
def Double.le : Double K → Double K → Bool
  | Double.finite a, Double.finite b => decide (a ≤ b)
  | Double.finite _, Double.infinity s => !s
  | Double.infinity s, Double.finite _ => s
  | Double.infinity s, Double.infinity t => s || !t
  | _, _ => false

/-- The real number that a finite `double` stands for (0 for an infinity or a NaN). -/
def Double.value : Double K → K
  | Double.finite a => a
  | _ => 0

end Binary64Values

section Binary64Arithmetic

variable {K : Type} [LinearOrderedField K] [FloorRing K]

/-- Rounding to the nearest integer, a tie going to the even one. -/
def round_half_even (x : K) : Int :=
  if x - (⌊x⌋ : K) < 1 / 2 then ⌊x⌋
  else if 1 / 2 < x - (⌊x⌋ : K) then ⌊x⌋ + 1
  else if ⌊x⌋ % 2 = 0 then ⌊x⌋ else ⌊x⌋ + 1

/-- The exponent `e` of the unit in the last place of binary64 at `x`: the finite binary64
values around `x` are the multiples of `2^e`.  With `2^L ≤ |x| < 2^(L+1)` it is `L - 52` for a
normal number (`L ≥ -1022`) and `-1074` in the subnormal range. -/
def ulp_exponent (x : K) : Int := max (Int.log 2 |x|) (-1022) - 52

/-- The exact value `x` rounded to the nearest multiple of its unit in the last place, a tie
going to the even multiple: the binary64 rounding of `x` when the exponent is not bounded
above. -/
def round_binary64 (x : K) : K :=
  (round_half_even (x / 2 ^ ulp_exponent x) : K) * 2 ^ ulp_exponent x

/-- The correctly rounded square root of binary64 (`sqrt` of `<math.h>` on a non-negative
finite argument), from the exact square root function `sqrt`. -/
def sqrt_binary64 (sqrt : K → K) (x : K) : K := round_binary64 (sqrt x)

/-- The binary64 result of an operation whose exact result is `x`: the rounded value, or an
infinity when the rounded value exceeds `DBL_MAX`, that is when it reaches `2^1024`. -/
def Double.round (x : K) : Double K :=
  if (2 : K) ^ 1024 ≤ |round_binary64 x| then Double.infinity (decide (x < 0))
  else Double.finite (round_binary64 x)

/-- The operator `+` on `double`. -/
def Double.add : Double K → Double K → Double K
  | Double.finite a, Double.finite b => Double.round (a + b)
  | Double.finite _, Double.infinity s => Double.infinity s
  | Double.infinity s, Double.finite _ => Double.infinity s
  | Double.infinity s, Double.infinity t => if s = t then Double.infinity s else Double.nan
  | _, _ => Double.nan

/-- The operator `-` on `double`. -/
def Double.sub (a b : Double K) : Double K := Double.add a (Double.neg b)

/-- The operator `*` on `double`. -/
def Double.mul : Double K → Double K → Double K
  | Double.finite a, Double.finite b => Double.round (a * b)
  | Double.finite a, Double.infinity s =>
    if a = 0 then Double.nan else Double.infinity (xor (decide (a < 0)) s)
  | Double.infinity s, Double.finite a =>
    if a = 0 then Double.nan else Double.infinity (xor s (decide (a < 0)))
  | Double.infinity s, Double.infinity t => Double.infinity (xor s t)
  | _, _ => Double.nan

/-- The function `sqrt` of `<math.h>` on `double`, from the exact square root function. -/
def Double.sqrt (sqrt : K → K) : Double K → Double K
  | Double.finite a => if a < 0 then Double.nan else Double.finite (sqrt_binary64 sqrt a)
  | Double.infinity s => if s then Double.nan else Double.infinity false
  | Double.nan => Double.nan

namespace Binary64

/-- Source: `#define pow2(x) ((x) * (x))`, on `double`. -/
def pow2 (x : Double K) : Double K := Double.mul x x

/-- Source: `distance_between_sample_and_neuron`, in binary64 arithmetic. -/
def distance_between_sample_and_neuron (sqrt : K → K) (sample : Sample (Double K))
    (neuron : Neuron (Double K)) (total_components : Int) : Double K :=
  Double.sqrt sqrt ((List.range (total_components - 1).toNat).foldl
    (fun euclidean_distance i =>
      Double.add euclidean_distance
        (pow2 (Double.sub (sample.components i) (neuron.weights i)))) (Double.finite 0))

/-- The two nested loops of `search_bmu`, on the pair `(*bmu, min_dist)`, in binary64
arithmetic. -/
def search_bmu_loop (sqrt : K → K) (W H : Int) (map : Grid (Double K))
    (sample : Sample (Double K)) (total_components : Int) (init : BMU × Double K) :
    BMU × Double K :=
  (int_range 0 W).foldl (fun st x =>
    (int_range 0 H).foldl (fun st y =>
      let dist := distance_between_sample_and_neuron sqrt sample (map x y) total_components
      if Double.lt dist st.2 then (⟨x, y⟩, dist) else st) st) init

/-- Source: `search_bmu`, in binary64 arithmetic.  The argument `bmu` is the content of `*bmu`
on entry, the result its content on return. -/
def search_bmu (sqrt : K → K) (W H : Int) (map : Grid (Double K)) (sample : Sample (Double K))
    (bmu : BMU) (total_components : Int) : BMU :=
  (search_bmu_loop sqrt W H map sample total_components (bmu, Double.finite DBL_MAX)).1

end Binary64

end Binary64Arithmetic

/-! ## Example data for the binary64 search -/

section Binary64Examples

variable {K : Type} [LinearOrderedField K]

/-- The exact values of the weights of a neuron of `double` weights. -/
def exact_neuron (neuron : Neuron (Double K)) : Neuron K :=
  ⟨fun i => (neuron.weights i).value⟩

/-- The sample of `double` values whose components all have the value `v`. -/
def uniform_double_sample (v : K) : Sample (Double K) :=
  ⟨fun _ => Double.finite v, Double.finite 0, ⟨0, 0⟩⟩

/-- The grid of `double` weights that all have the value `v`. -/
def uniform_double_grid (v : K) : Grid (Double K) := fun _ _ => ⟨fun _ => Double.finite v⟩

/-- A grid with two features whose neuron at `(0,1)` has the weights `(1, 0)` and whose other
neurons have the weights `(1, 2^(-26))`; all of them are binary64 values in `[0,1]`. -/
def rounding_grid : Grid (Double K) := fun x y =>
  if x = 0 ∧ y = 1 then ⟨fun i => Double.finite (if i = 0 then 1 else 0)⟩
  else ⟨fun i => Double.finite (if i = 0 then 1 else if i = 1 then 1 / 2 ^ 26 else 0)⟩

/-- A grid with one feature whose neuron at `(0,0)` has the weight `2^(-600)` and whose other
neurons have the weight 0; all of them are binary64 values in `[0,1]`. -/
def underflow_grid : Grid (Double K) := fun x y =>
  if x = 0 ∧ y = 0 then ⟨fun _ => Double.finite (1 / 2 ^ 600)⟩
  else ⟨fun _ => Double.finite 0⟩

/-- A grid with three features whose neuron at `(0,1)` has the weights `(b, b, 1)` and whose
other neurons have the weights `(1, b, b)`, with `b = 3 * 2^(-28)`; all of them are binary64
values in `[0,1]`. -/
def summation_grid : Grid (Double K) := fun x y =>
  if x = 0 ∧ y = 1 then ⟨fun i => Double.finite (if i = 2 then 1 else 3 / 2 ^ 28)⟩
  else ⟨fun i => Double.finite (if i = 0 then 1 else 3 / 2 ^ 28)⟩

end Binary64Examples

/-! ## The neighborhood update in terms of the computed offset distance

In `scale_neighbors` the offsets `x`, `y` are small integers, so the sum of squares passed to
`sqrt` is exact in binary64; the value `distance` returned by `sqrt` is rounded.  The
definitions of this section describe the update with the value returned by `sqrt` itself, for
an arbitrary function `sqrt`. -/

section ComputedReferenceDefinitions

variable {K : Type} [LinearOrderedField K] [FloorRing K]

/-- The integer offsets `(dx, dy)` with `dx` and `dy` ranging over `[-floor r, floor r)` whose
distance `sqrt(dx^2 + dy^2)`, as returned by `sqrt`, is below `r`; `dy` outer and `dx` inner,
ascending. -/
def neighborhood_offsets_computed (sqrt : K → K) (r : K) : List (Int × Int) :=
  (int_range (-⌊r⌋) ⌊r⌋).flatMap (fun (dy : Int) =>
    ((int_range (-⌊r⌋) ⌊r⌋).filter
      (fun (dx : Int) => decide (sqrt ((dx : K) ^ 2 + (dy : K) ^ 2) < r))).map
      (fun (dx : Int) => (dx, dy)))

/-- The scale factor `a * exp(-10 * (d * d) / (r * r))` of the offset `(dx, dy)`, where `d` is
the distance `sqrt(dx^2 + dy^2)` as returned by `sqrt`. -/
def gaussian_scale_computed (sqrt exp : K → K) (r a : K) (o : Int × Int) : K :=
  a * exp (-10 * (sqrt ((o.1 : K) ^ 2 + (o.2 : K) ^ 2) * sqrt ((o.1 : K) ^ 2 + (o.2 : K) ^ 2)) /
    (r * r))

/-- The neighborhood update as the blends of the neurons at the wrapped cells
`((bx + dx) mod W, (by + dy) mod H)` over the offsets of `neighborhood_offsets_computed`, in
order, with the scale factors of `gaussian_scale_computed`. -/
def scale_neighbors_reference_computed (sqrt exp : K → K) (W H : Int) (map : Grid K) (bmu : BMU)
    (sample : Sample K) (r a : K) (D : Int) : Grid K :=
  (neighborhood_offsets_computed sqrt r).foldl (fun grid o =>
    blend_at grid ((bmu.x_coord + o.1) % W) ((bmu.y_coord + o.2) % H) sample
      (gaussian_scale_computed sqrt exp r a o) D) map

/-- The scale factors of the calls that target the cell `(x, y)`, in order. -/
def cell_scales (calls : List (Int × Int × K)) (x y : Int) : List K :=
  (calls.filter (fun c => decide (c.1 = x ∧ c.2.1 = y))).map (fun c => c.2.2)

/-- The binary64 value nearest to the square root of 2, `1.4142135623730951`. -/
def SQRT2_BINARY64 : K := 6369051672525773 / 2 ^ 52

end ComputedReferenceDefinitions

/-! ## The coordinate wrap -/

/-- C7 (as stated, refuted): the inline wrap does not reduce every integer modulo the
dimension.  With the source's width 300, the offset `-301` is sent to `-1`, which is neither
`-301 mod 300 = 299` nor inside `[0, 300)`; the offset `600` is sent to `300`. -/
theorem wrap_coord_not_mod_everywhere :
    wrap_coord MAP_WIDTH (-301) = -1 ∧ (-301 : Int) % MAP_WIDTH = 299 ∧
    wrap_coord MAP_WIDTH 600 = 300 ∧ (600 : Int) % MAP_WIDTH = 0 := by
  decide

theorem wrap_coord_emod (dim offset : Int) (hlo : -dim ≤ offset) (hhi : offset < 2 * dim) :
    wrap_coord dim offset = offset % dim := by
  have hdim : 0 < dim := by omega
  unfold wrap_coord
  split_ifs with h1 h2
  · have : offset % dim = offset + dim := by
      rw [← Int.add_emod_self]; exact Int.emod_eq_of_lt (by omega) (by omega)
    omega
  · have : offset % dim = offset - dim := by
      have h3 : (offset - dim + dim) % dim = (offset - dim) % dim := Int.add_emod_self
      rw [Int.sub_add_cancel] at h3
      rw [h3]; exact Int.emod_eq_of_lt (by omega) (by omega)
    omega
  · have : offset % dim = offset := Int.emod_eq_of_lt (by omega) (by omega)
    omega

/-- C7 (amended): for an offset in `[-dim, 2*dim)` the inline wrap is the canonical residue
modulo the dimension, and that residue lies in `[0, dim)`. -/
theorem wrap_coord_eq_emod (dim offset : Int) (hlo : -dim ≤ offset) (hhi : offset < 2 * dim) :
    wrap_coord dim offset = offset % dim ∧ 0 ≤ wrap_coord dim offset ∧
      wrap_coord dim offset < dim := by
  have hdim : 0 < dim := by omega
  have h := wrap_coord_emod dim offset hlo hhi
  refine ⟨h, ?_, ?_⟩
  · rw [h]; exact Int.emod_nonneg offset (by omega)
  · rw [h]; exact Int.emod_lt_of_pos offset hdim

/-- Witness of `wrap_coord_eq_emod`: width 300 and the offset `-200`. -/
theorem wrap_coord_eq_emod_witness :
    wrap_coord 300 (-200) = (-200) % 300 ∧ 0 ≤ wrap_coord 300 (-200) ∧
      wrap_coord 300 (-200) < 300 :=
  wrap_coord_eq_emod 300 (-200) (by decide) (by decide)

/-! ## The schedule of the epoch loop -/

section ScheduleLemmas

variable {K : Type} [LinearOrderedField K]

theorem c_max_eq_max (a b : K) : c_max a b = max a b := by
  unfold c_max
  split_ifs with h
  · exact (max_eq_left (le_of_lt h)).symm
  · exact (max_eq_right (not_lt.mp h)).symm

theorem schedule_iterate_epoch (exp : K → K) (n : Nat) :
    ((epoch_begin exp)^[n] schedule_init).epoch = (n : Int) := by
  induction n with
  | zero => rfl
  | succ n ih =>
    rw [Function.iterate_succ_apply']
    show ((epoch_begin exp)^[n] schedule_init).epoch + 1 = ((n + 1 : Nat) : Int)
    rw [ih]; push_cast; rfl

theorem schedule_radius_zero (exp : K → K) :
    (schedule_in_epoch exp 0).radius = INITIAL_RADIUS := by
  show c_max (1 : K) (if (0 : Int) = 0 then INITIAL_RADIUS else _) = INITIAL_RADIUS
  rw [if_pos rfl, c_max_eq_max]
  unfold INITIAL_RADIUS
  exact max_eq_right (by norm_num)

theorem schedule_radius_succ (exp : K → K) (e : Nat) :
    (schedule_in_epoch exp (e + 1)).radius =
      max 1 ((schedule_in_epoch exp e).radius - (schedule_in_epoch exp e).radius / 3) := by
  unfold schedule_in_epoch
  rw [Function.iterate_succ_apply' (epoch_begin exp) (e + 1)]
  have hep := schedule_iterate_epoch exp (e + 1)
  have hne : ((epoch_begin exp)^[e + 1] schedule_init).epoch ≠ 0 := by
    rw [hep]; exact_mod_cast Nat.succ_ne_zero e
  show c_max (1 : K) (if ((epoch_begin exp)^[e + 1] schedule_init).epoch = 0 then _ else _) = _
  rw [if_neg hne, c_max_eq_max]

theorem schedule_radius_ge_one (exp : K → K) (e : Nat) :
    1 ≤ (schedule_in_epoch exp e).radius := by
  cases e with
  | zero => rw [schedule_radius_zero]; unfold INITIAL_RADIUS; norm_num
  | succ e => rw [schedule_radius_succ]; exact le_max_left _ _

theorem schedule_learning_rule (exp : K → K) (e : Nat) :
    (schedule_in_epoch exp e).learning_rule =
      max (15 / 1000) (9 / 10 * exp (-10 * ((e : K) * (e : K)) / 64)) := by
  unfold schedule_in_epoch
  rw [Function.iterate_succ_apply' (epoch_begin exp) e]
  have hep := schedule_iterate_epoch exp e
  show c_max (15 / 1000 : K) (INITIAL_LEARNING_RULE * exp (-10 *
    ((((epoch_begin exp)^[e] schedule_init).epoch * ((epoch_begin exp)^[e] schedule_init).epoch
      : Int) : K) / ((TOTAL_EPOCHS * TOTAL_EPOCHS : Int) : K))) = _
  rw [hep, c_max_eq_max]
  unfold INITIAL_LEARNING_RULE TOTAL_EPOCHS
  push_cast
  norm_num

end ScheduleLemmas

/-- C9: the radius is `INITIAL_RADIUS = 200` in the first pass through the epoch loop and
`max(1, radius - radius/3)` of the previous one in every later pass; it is at least 1 in every
pass, so `radius * radius` in the Gaussian exponent is never 0; and in the passes `e = 0..7`
of the default configuration (`TOTAL_EPOCHS = 8`) it is exactly `200 * (2/3)^e`: the floor
at 1 is never reached. -/
theorem radius_schedule {K : Type} [LinearOrderedField K] (exp : K → K) (e : Nat) :
    (schedule_in_epoch exp 0).radius = INITIAL_RADIUS ∧
      (schedule_in_epoch exp (e + 1)).radius =
        max 1 ((schedule_in_epoch exp e).radius - (schedule_in_epoch exp e).radius / 3) ∧
      1 ≤ (schedule_in_epoch exp e).radius ∧
      (schedule_in_epoch exp e).radius * (schedule_in_epoch exp e).radius ≠ 0 ∧
      (e < 8 → (schedule_in_epoch exp e).radius = 200 * (2 / 3) ^ e) := by
  have hge := schedule_radius_ge_one exp e
  have hpos : 0 < (schedule_in_epoch exp e).radius := lt_of_lt_of_le zero_lt_one hge
  refine ⟨schedule_radius_zero exp, schedule_radius_succ exp e, hge,
    mul_ne_zero (ne_of_gt hpos) (ne_of_gt hpos), fun he => ?_⟩
  have step : ∀ n : Nat, n < 8 → (schedule_in_epoch exp n).radius = 200 * (2 / 3) ^ n →
      n + 1 < 8 → (schedule_in_epoch exp (n + 1)).radius = 200 * (2 / 3) ^ (n + 1) := by
    intro n hn hr _
    rw [schedule_radius_succ, hr]
    have h1 : (200 : K) * (2 / 3) ^ n - 200 * (2 / 3) ^ n / 3 = 200 * (2 / 3) ^ (n + 1) := by
      rw [pow_succ]; ring
    rw [h1]
    apply max_eq_right
    interval_cases n <;> norm_num
  induction e with
  | zero => rw [schedule_radius_zero]; unfold INITIAL_RADIUS; norm_num
  | succ n ih =>
    exact step n (by omega)
      (ih (schedule_radius_ge_one exp n)
        (lt_of_lt_of_le zero_lt_one (schedule_radius_ge_one exp n)) (by omega)) he

/-- Witness of `radius_schedule`: pass 2 over the rationals, radius `800/9`. -/
theorem radius_schedule_witness :
    (schedule_in_epoch (fun _ : ℚ => 1) 2).radius = 200 * (2 / 3) ^ 2 :=
  (radius_schedule (fun _ : ℚ => 1) 2).2.2.2.2 (by decide)

/-- C10: in the pass `e` (counted from 0, the value of `epoch` before it is incremented) the
learning rate is `max(0.015, 0.9 * exp(-10 e^2 / 64))`; it is `0.9` in pass 0, does not
increase from one pass to the next, lies in `[0.015, 0.9]`, and the blend scale
`learning_rule * exp(-10 d^2 / r^2)` computed from it lies strictly between 0 and 1 for every
offset distance `d` and radius `r`. -/
theorem learning_rule_schedule (e : Nat) :
    (schedule_in_epoch Real.exp e).learning_rule =
        max (15 / 1000) (9 / 10 * Real.exp (-10 * ((e : ℝ) ^ 2) / 64)) ∧
      (schedule_in_epoch Real.exp 0).learning_rule = 9 / 10 ∧
      (schedule_in_epoch Real.exp (e + 1)).learning_rule ≤
        (schedule_in_epoch Real.exp e).learning_rule ∧
      15 / 1000 ≤ (schedule_in_epoch Real.exp e).learning_rule ∧
      (schedule_in_epoch Real.exp e).learning_rule ≤ 9 / 10 ∧
      ∀ distance iteration_radius : ℝ,
        0 < (schedule_in_epoch Real.exp e).learning_rule *
            Real.exp (-10 * (distance * distance) / (iteration_radius * iteration_radius)) ∧
        (schedule_in_epoch Real.exp e).learning_rule *
            Real.exp (-10 * (distance * distance) / (iteration_radius * iteration_radius)) < 1 := by
  have hexp_le : ∀ n : Nat, Real.exp (-10 * ((n : ℝ) * (n : ℝ)) / 64) ≤ 1 := by
    intro n
    rw [Real.exp_le_one_iff]
    have : 0 ≤ (n : ℝ) * (n : ℝ) := mul_self_nonneg _
    linarith
  have hlo : (15 / 1000 : ℝ) ≤ (schedule_in_epoch Real.exp e).learning_rule := by
    rw [schedule_learning_rule]; exact le_max_left _ _
  have hhi : (schedule_in_epoch Real.exp e).learning_rule ≤ 9 / 10 := by
    rw [schedule_learning_rule]
    apply max_le (by norm_num)
    have := hexp_le e
    linarith
  refine ⟨?_, ?_, ?_, hlo, hhi, ?_⟩
  · rw [schedule_learning_rule, sq]
  · rw [schedule_learning_rule]
    simp only [Nat.cast_zero, mul_zero, zero_div, Real.exp_zero, mul_one]
    exact max_eq_right (by norm_num)
  · rw [schedule_learning_rule, schedule_learning_rule]
    apply max_le_max (le_refl _)
    apply mul_le_mul_of_nonneg_left _ (by norm_num)
    apply Real.exp_le_exp.mpr
    have h0 : (0 : ℝ) ≤ (e : ℝ) := Nat.cast_nonneg e
    push_cast
    nlinarith
  · intro distance iteration_radius
    have hq : 0 ≤ distance * distance / (iteration_radius * iteration_radius) :=
      div_nonneg (mul_self_nonneg _) (mul_self_nonneg _)
    have hle : Real.exp (-10 * (distance * distance) / (iteration_radius * iteration_radius))
        ≤ 1 := by
      rw [Real.exp_le_one_iff, mul_div_assoc]
      linarith
    have hpos := Real.exp_pos (-10 * (distance * distance) / (iteration_radius * iteration_radius))
    constructor
    · exact mul_pos (by linarith) hpos
    · nlinarith

/-! ## Loop counters -/

theorem mem_int_range (lo hi c : Int) : c ∈ int_range lo hi ↔ lo ≤ c ∧ c < hi := by
  unfold int_range
  simp only [List.mem_map, List.mem_range]
  constructor
  · rintro ⟨k, hk, rfl⟩
    omega
  · rintro ⟨h1, h2⟩
    exact ⟨(c - lo).toNat, by omega, by omega⟩

theorem int_range_pairwise (lo hi : Int) : (int_range lo hi).Pairwise (fun a b => a < b) := by
  unfold int_range
  rw [List.pairwise_map]
  exact (List.pairwise_lt_range _).imp (fun h => by omega)

/-- The cells of a `W × H` grid in the order in which `search_bmu` visits them. -/
theorem cells_pairwise (W H : Int) :
    ((int_range 0 W).flatMap (fun x => (int_range 0 H).map (fun y => (x, y)))).Pairwise
      (fun a b => a.1 < b.1 ∨ (a.1 = b.1 ∧ a.2 < b.2)) := by
  rw [List.pairwise_flatMap]
  constructor
  · intro x _
    rw [List.pairwise_map]
    exact (int_range_pairwise 0 H).imp (fun h => Or.inr ⟨rfl, h⟩)
  · refine (int_range_pairwise 0 W).imp ?_
    intro a b hab p hp q hq
    simp only [List.mem_map] at hp hq
    obtain ⟨_, _, rfl⟩ := hp
    obtain ⟨_, _, rfl⟩ := hq
    exact Or.inl hab

theorem foldl_flatMap_eq {α β σ : Type} (f : σ → β → σ) (g : α → List β) (l : List α) (s : σ) :
    (l.flatMap g).foldl f s = l.foldl (fun s a => (g a).foldl f s) s := by
  induction l generalizing s with
  | nil => rfl
  | cons a l ih => rw [List.flatMap_cons, List.foldl_append, ih]; rfl

/-! ## Scanning for the first strict minimum -/

section Scan

variable {K : Type} [LinearOrder K] {α β : Type}

/-- The outcome of a scan `if d c < min then (best, min) := (mk c, d c)` over a list: either
nothing was below the initial bound and the state is untouched, or the state holds the first
element with the least key. -/
theorem scan_first_min (d : α → K) (mk : α → β) (l : List α) (b : β) (m : K) :
    (l.foldl (fun st c => if d c < st.2 then (mk c, d c) else st) (b, m) = (b, m) ∧
        ∀ c ∈ l, m ≤ d c) ∨
      ∃ l1 c l2, l = l1 ++ c :: l2 ∧
        l.foldl (fun st c => if d c < st.2 then (mk c, d c) else st) (b, m) = (mk c, d c) ∧
        d c < m ∧ (∀ c1 ∈ l1, d c < d c1) ∧ ∀ c2 ∈ l2, d c ≤ d c2 := by
  induction l generalizing b m with
  | nil => exact Or.inl ⟨rfl, fun c hc => absurd hc (List.not_mem_nil c)⟩
  | cons a l ih =>
    rw [List.foldl_cons]
    by_cases h : d a < m
    · simp only [h, if_true]
      rcases ih (mk a) (d a) with ⟨heq, hall⟩ | ⟨l1, c, l2, hl, heq, hlt, h1, h2⟩
      · exact Or.inr ⟨[], a, l, rfl, heq, h, fun c1 hc1 => absurd hc1 (List.not_mem_nil c1), hall⟩
      · refine Or.inr ⟨a :: l1, c, l2, by rw [hl]; rfl, heq, lt_trans hlt h, ?_, h2⟩
        intro c1 hc1
        rcases List.mem_cons.mp hc1 with rfl | hc1
        · exact hlt
        · exact h1 c1 hc1
    · simp only [h, if_false]
      rcases ih b m with ⟨heq, hall⟩ | ⟨l1, c, l2, hl, heq, hlt, h1, h2⟩
      · refine Or.inl ⟨heq, ?_⟩
        intro c hc
        rcases List.mem_cons.mp hc with rfl | hc
        · exact not_lt.mp h
        · exact hall c hc
      · refine Or.inr ⟨a :: l1, c, l2, by rw [hl]; rfl, heq, hlt, ?_, h2⟩
        intro c1 hc1
        rcases List.mem_cons.mp hc1 with rfl | hc1
        · exact lt_of_lt_of_le hlt (not_lt.mp h)
        · exact h1 c1 hc1

end Scan

/-! ## Best matching unit search -/

section SearchLemmas

variable {K : Type} [LinearOrderedField K]

theorem mem_cells (W H : Int) (c : Int × Int) :
    c ∈ (int_range 0 W).flatMap (fun x => (int_range 0 H).map (fun y => (x, y))) ↔
      (0 ≤ c.1 ∧ c.1 < W) ∧ 0 ≤ c.2 ∧ c.2 < H := by
  simp only [List.mem_flatMap, List.mem_map, mem_int_range]
  constructor
  · rintro ⟨x, hx, y, hy, rfl⟩
    exact ⟨hx, hy⟩
  · rintro ⟨hx, hy⟩
    exact ⟨c.1, hx, c.2, hy, rfl⟩

theorem search_bmu_loop_eq_scan (sqrt : K → K) (W H : Int) (map : Grid K) (sample : Sample K)
    (total_components : Int) (init : BMU × K) :
    search_bmu_loop sqrt W H map sample total_components init =
      ((int_range 0 W).flatMap (fun x => (int_range 0 H).map (fun y => (x, y)))).foldl
        (fun st c =>
          if distance_between_sample_and_neuron sqrt sample (map c.1 c.2) total_components < st.2
          then ((⟨c.1, c.2⟩ : BMU),
            distance_between_sample_and_neuron sqrt sample (map c.1 c.2) total_components)
          else st) init := by
  unfold search_bmu_loop
  rw [foldl_flatMap_eq]
  congr 1
  funext st x
  rw [List.foldl_map]

/-- What the two loops of `search_bmu` leave in `(*bmu, min_dist)`: either no neuron is
closer than the initial bound and the pair is untouched, or the pair holds the first cell,
in scan order, among those at the least distance. -/
theorem search_bmu_loop_cases (sqrt : K → K) (W H : Int) (map : Grid K) (sample : Sample K)
    (total_components : Int) (b : BMU) (m : K) :
    (search_bmu_loop sqrt W H map sample total_components (b, m) = (b, m) ∧
        ∀ x y : Int, 0 ≤ x → x < W → 0 ≤ y → y < H →
          m ≤ distance_between_sample_and_neuron sqrt sample (map x y) total_components) ∨
      ∃ bx bY : Int, (0 ≤ bx ∧ bx < W) ∧ (0 ≤ bY ∧ bY < H) ∧
        search_bmu_loop sqrt W H map sample total_components (b, m) =
          (⟨bx, bY⟩,
            distance_between_sample_and_neuron sqrt sample (map bx bY) total_components) ∧
        distance_between_sample_and_neuron sqrt sample (map bx bY) total_components < m ∧
        ∀ x y : Int, 0 ≤ x → x < W → 0 ≤ y → y < H →
          distance_between_sample_and_neuron sqrt sample (map bx bY) total_components ≤
              distance_between_sample_and_neuron sqrt sample (map x y) total_components ∧
            (distance_between_sample_and_neuron sqrt sample (map x y) total_components =
                distance_between_sample_and_neuron sqrt sample (map bx bY) total_components →
              bx < x ∨ (bx = x ∧ bY ≤ y)) := by
  rw [search_bmu_loop_eq_scan]
  rcases scan_first_min
      (fun c : Int × Int =>
        distance_between_sample_and_neuron sqrt sample (map c.1 c.2) total_components)
      (fun c : Int × Int => (⟨c.1, c.2⟩ : BMU))
      ((int_range 0 W).flatMap (fun x => (int_range 0 H).map (fun y => (x, y)))) b m with
    ⟨heq, hall⟩ | ⟨l1, c, l2, hl, heq, hlt, h1, h2⟩
  · refine Or.inl ⟨heq, ?_⟩
    intro x y hx0 hx1 hy0 hy1
    exact hall (x, y) ((mem_cells W H (x, y)).mpr ⟨⟨hx0, hx1⟩, hy0, hy1⟩)
  · have hc : c ∈ (int_range 0 W).flatMap (fun x => (int_range 0 H).map (fun y => (x, y))) := by
      rw [hl]; exact List.mem_append_right _ (List.mem_cons_self _ _)
    have hcr := (mem_cells W H c).mp hc
    have hpw := cells_pairwise W H
    rw [hl, List.pairwise_append, List.pairwise_cons] at hpw
    obtain ⟨_, ⟨hafter, _⟩, _⟩ := hpw
    refine Or.inr ⟨c.1, c.2, hcr.1, hcr.2, heq, hlt, ?_⟩
    intro x y hx0 hx1 hy0 hy1
    have hmem : (x, y) ∈ l1 ++ c :: l2 := by
      rw [← hl]; exact (mem_cells W H (x, y)).mpr ⟨⟨hx0, hx1⟩, hy0, hy1⟩
    rcases List.mem_append.mp hmem with hin1 | hin2
    · have := h1 (x, y) hin1
      exact ⟨le_of_lt this, fun he => absurd he (ne_of_gt this)⟩
    · rcases List.mem_cons.mp hin2 with heqc | hin2
      · have hx : x = c.1 := congrArg Prod.fst heqc
        have hy : y = c.2 := congrArg Prod.snd heqc
        subst hx; subst hy
        exact ⟨le_refl _, fun _ => Or.inr ⟨rfl, le_refl _⟩⟩
      · refine ⟨h2 (x, y) hin2, fun _ => ?_⟩
        rcases hafter (x, y) hin2 with h | ⟨h, h3⟩
        · exact Or.inl h
        · exact Or.inr ⟨h, le_of_lt h3⟩

end SearchLemmas

section DistanceLemmas

variable {K : Type} [LinearOrderedField K]

theorem foldl_add_range_succ (f : Nat → K) (n : Nat) :
    (List.range (n + 1)).foldl (fun acc i => acc + f i) 0 =
      (List.range n).foldl (fun acc i => acc + f i) 0 + f n := by
  rw [List.range_succ, List.foldl_append]
  rfl

theorem foldl_add_range_bounds (f : Nat → K) (n : Nat) (h0 : ∀ i, i < n → 0 ≤ f i)
    (h1 : ∀ i, i < n → f i ≤ 1) :
    0 ≤ (List.range n).foldl (fun acc i => acc + f i) 0 ∧
      (List.range n).foldl (fun acc i => acc + f i) 0 ≤ (n : K) := by
  induction n with
  | zero => simp
  | succ n ih =>
    rw [foldl_add_range_succ]
    obtain ⟨ha, hb⟩ := ih (fun i hi => h0 i (Nat.lt_succ_of_lt hi))
      (fun i hi => h1 i (Nat.lt_succ_of_lt hi))
    have h2 := h0 n (Nat.lt_succ_self n)
    have h3 := h1 n (Nat.lt_succ_self n)
    push_cast
    constructor <;> linarith

theorem foldl_add_range_eq_sum (f : Nat → K) (n : Nat) :
    (List.range n).foldl (fun acc i => acc + f i) 0 = (Finset.range n).sum f := by
  induction n with
  | zero => rfl
  | succ n ih => rw [foldl_add_range_succ, ih, Finset.sum_range_succ]

theorem pow2_diff_bounds (c w : K) (hc0 : 0 ≤ c) (hc1 : c ≤ 1) (hw0 : 0 ≤ w) (hw1 : w ≤ 1) :
    0 ≤ pow2 (c - w) ∧ pow2 (c - w) ≤ 1 := by
  unfold pow2
  constructor
  · exact mul_self_nonneg _
  · nlinarith

end DistanceLemmas

theorem DBL_MAX_pos : (0 : ℝ) < DBL_MAX := by
  unfold DBL_MAX; norm_num

/-- With components and weights in `[0,1]` and a component count that fits an `int`, the
distance is below `DBL_MAX`. -/
theorem distance_lt_DBL_MAX (sample : Sample ℝ) (neuron : Neuron ℝ) (total_components : Int)
    (hD : total_components ≤ INT_MAX)
    (hs : ∀ i : Nat, (i : Int) < total_components - 1 →
      0 ≤ sample.components i ∧ sample.components i ≤ 1)
    (hw : ∀ i : Nat, (i : Int) < total_components - 1 →
      0 ≤ neuron.weights i ∧ neuron.weights i ≤ 1) :
    distance_between_sample_and_neuron Real.sqrt sample neuron total_components < DBL_MAX := by
  unfold distance_between_sample_and_neuron
  rw [Real.sqrt_lt' DBL_MAX_pos]
  have hb := foldl_add_range_bounds
    (fun i => pow2 (sample.components i - neuron.weights i)) (total_components - 1).toNat
    (fun i hi => (pow2_diff_bounds _ _ (hs i (by omega)).1 (hs i (by omega)).2
      (hw i (by omega)).1 (hw i (by omega)).2).1)
    (fun i hi => (pow2_diff_bounds _ _ (hs i (by omega)).1 (hs i (by omega)).2
      (hw i (by omega)).1 (hw i (by omega)).2).2)
  have hn : (((total_components - 1).toNat : Nat) : ℝ) ≤ 2147483647 := by
    have : (total_components - 1).toNat ≤ 2147483647 := by
      unfold INT_MAX at hD; omega
    exact_mod_cast this
  have hbig : (2147483647 : ℝ) < DBL_MAX ^ 2 := by
    unfold DBL_MAX; norm_num
  linarith [hb.2]

section SearchResult

variable {K : Type} [LinearOrderedField K]

/-- When some neuron is closer than `DBL_MAX`, `search_bmu` stores the first cell, in scan
order, among those at the least distance. -/
theorem search_bmu_assigned (sqrt : K → K) (W H : Int) (map : Grid K) (sample : Sample K)
    (bmu : BMU) (total_components : Int)
    (h : ∃ x y : Int, 0 ≤ x ∧ x < W ∧ 0 ≤ y ∧ y < H ∧
      distance_between_sample_and_neuron sqrt sample (map x y) total_components < DBL_MAX) :
    ∃ bx bY : Int, (0 ≤ bx ∧ bx < W) ∧ (0 ≤ bY ∧ bY < H) ∧
      search_bmu sqrt W H map sample bmu total_components = ⟨bx, bY⟩ ∧
      ∀ x y : Int, 0 ≤ x → x < W → 0 ≤ y → y < H →
        distance_between_sample_and_neuron sqrt sample (map bx bY) total_components ≤
            distance_between_sample_and_neuron sqrt sample (map x y) total_components ∧
          (distance_between_sample_and_neuron sqrt sample (map x y) total_components =
              distance_between_sample_and_neuron sqrt sample (map bx bY) total_components →
            bx < x ∨ (bx = x ∧ bY ≤ y)) := by
  obtain ⟨x0, y0, hx0, hx1, hy0, hy1, hlt⟩ := h
  unfold search_bmu
  rcases search_bmu_loop_cases sqrt W H map sample total_components bmu DBL_MAX with
    ⟨_, hall⟩ | ⟨bx, bY, hbx, hby, heq, _, hmin⟩
  · exact absurd hlt (not_lt.mpr (hall x0 y0 hx0 hx1 hy0 hy1))
  · exact ⟨bx, bY, hbx, hby, by rw [heq], hmin⟩

end SearchResult

/-- With a non-empty grid and all values in `[0,1]`, the result of `search_bmu`. -/
theorem search_bmu_unit_interval (W H : Int) (map : Grid ℝ) (sample : Sample ℝ) (bmu : BMU)
    (total_components : Int) (hW : 1 ≤ W) (hH : 1 ≤ H) (hD : total_components ≤ INT_MAX)
    (hs : ∀ i : Nat, (i : Int) < total_components - 1 →
      0 ≤ sample.components i ∧ sample.components i ≤ 1)
    (hw : ∀ x y : Int, 0 ≤ x → x < W → 0 ≤ y → y < H →
      ∀ i : Nat, (i : Int) < total_components - 1 →
        0 ≤ (map x y).weights i ∧ (map x y).weights i ≤ 1) :
    ∃ bx bY : Int, (0 ≤ bx ∧ bx < W) ∧ (0 ≤ bY ∧ bY < H) ∧
      search_bmu Real.sqrt W H map sample bmu total_components = ⟨bx, bY⟩ ∧
      ∀ x y : Int, 0 ≤ x → x < W → 0 ≤ y → y < H →
        distance_between_sample_and_neuron Real.sqrt sample (map bx bY) total_components ≤
            distance_between_sample_and_neuron Real.sqrt sample (map x y) total_components ∧
          (distance_between_sample_and_neuron Real.sqrt sample (map x y) total_components =
              distance_between_sample_and_neuron Real.sqrt sample (map bx bY) total_components →
            bx < x ∨ (bx = x ∧ bY ≤ y)) :=
  search_bmu_assigned Real.sqrt W H map sample bmu total_components
    ⟨0, 0, le_refl 0, by omega, le_refl 0, by omega,
      distance_lt_DBL_MAX sample (map 0 0) total_components hD hs
        (hw 0 0 (le_refl 0) (by omega) (le_refl 0) (by omega))⟩

/-! ## Neighborhood update -/

section FoldLemmas

theorem foldlM_flatMap_option {α β σ : Type} (f : σ → β → Option σ) (g : α → List β)
    (l : List α) (s : σ) :
    (l.flatMap g).foldlM f s = l.foldlM (fun s a => (g a).foldlM f s) s := by
  induction l generalizing s with
  | nil => rfl
  | cons a l ih =>
    rw [List.flatMap_cons, List.foldlM_append, List.foldlM_cons]
    cases (g a).foldlM f s with
    | none => rfl
    | some s1 => exact ih s1

theorem foldlM_filterMap_ite {α β σ : Type} (f : σ → β → Option σ) (p : α → Prop)
    [DecidablePred p] (t : α → β) (l : List α) (s : σ) :
    (l.filterMap (fun a => if p a then some (t a) else none)).foldlM f s =
      l.foldlM (fun s a => if p a then f s (t a) else some s) s := by
  induction l generalizing s with
  | nil => rfl
  | cons a l ih =>
    rw [List.filterMap_cons, List.foldlM_cons]
    by_cases h : p a
    · simp only [h, if_true, List.foldlM_cons]
      cases f s (t a) with
      | none => rfl
      | some s1 => exact ih s1
    · simp only [h, if_false]
      exact ih s

theorem foldlM_eq_some_foldl {α σ : Type} (f : σ → α → Option σ) (g : σ → α → σ)
    (l : List α) (s : σ) (h : ∀ s a, a ∈ l → f s a = some (g s a)) :
    l.foldlM f s = some (l.foldl g s) := by
  induction l generalizing s with
  | nil => rfl
  | cons a l ih =>
    rw [List.foldlM_cons, h s a (List.mem_cons_self a l), List.foldl_cons]
    exact ih (g s a) (fun s1 a1 h1 => h s1 a1 (List.mem_cons_of_mem a h1))

theorem foldlM_eq_none_of_mem {α σ : Type} (f : σ → α → Option σ) (l : List α) (s : σ)
    (a : α) (ha : a ∈ l) (h : ∀ s, f s a = none) : l.foldlM f s = none := by
  induction l generalizing s with
  | nil => exact absurd ha (List.not_mem_nil a)
  | cons b l ih =>
    rw [List.foldlM_cons]
    cases hb : f s b with
    | none => rfl
    | some s1 =>
      rcases List.mem_cons.mp ha with rfl | hin
      · rw [h s] at hb; exact absurd hb (by simp)
      · exact ih s1 hin

theorem foldl_invariant {α σ : Type} (P : σ → Prop) (g : σ → α → σ) (l : List α) (s : σ)
    (hs : P s) (h : ∀ s a, a ∈ l → P s → P (g s a)) : P (l.foldl g s) := by
  induction l generalizing s with
  | nil => exact hs
  | cons a l ih =>
    rw [List.foldl_cons]
    exact ih (g s a) (h s a (List.mem_cons_self a l) hs)
      (fun s1 a1 h1 => h s1 a1 (List.mem_cons_of_mem a h1))

theorem map_filter_eq_filterMap_ite {α β : Type} (p : α → Prop) [DecidablePred p]
    (t : α → β) (l : List α) :
    (l.filter (fun a => decide (p a))).map t =
      l.filterMap (fun a => if p a then some (t a) else none) := by
  induction l with
  | nil => rfl
  | cons a l ih =>
    rw [List.filterMap_cons]
    by_cases h : p a
    · simp only [h, if_true, List.filter_cons, decide_True, List.map_cons, ih]
    · simp only [h, if_false, List.filter_cons, decide_False]
      exact ih

end FoldLemmas

section UpdateLemmas

variable {K : Type} [LinearOrderedField K]

theorem scale_weights_eq_blend (weights : Nat → K) (sample : Sample K) (scale : K)
    (total_components : Int) :
    scale_weights weights sample scale total_components =
      blend_weights weights sample scale total_components := by
  have key : ∀ n : Nat,
      (List.range n).foldl (fun weights i =>
        Function.update weights i (sample.components i * scale + weights i * (1 - scale)))
        weights =
      fun i => if i < n then weights i * (1 - scale) + sample.components i * scale
        else weights i := by
    intro n
    induction n with
    | zero => rfl
    | succ n ih =>
      rw [List.range_succ, List.foldl_append, ih]
      funext i
      simp only [List.foldl_cons, List.foldl_nil, lt_irrefl, if_false]
      by_cases h : i = n
      · subst h
        simp only [Function.update_same, Nat.lt_succ_self, if_true]
        ring
      · rw [Function.update_noteq h]
        by_cases h2 : i < n
        · simp only [h2, Nat.lt_succ_of_lt h2, if_true]
        · have h3 : ¬ i < n + 1 := by omega
          simp only [h2, h3, if_false]
  unfold scale_weights blend_weights
  rw [key]
  funext i
  by_cases h : (i : Int) < total_components - 1
  · have h2 : i < (total_components - 1).toNat := by omega
    simp only [h, h2, if_true]
  · have h2 : ¬ i < (total_components - 1).toNat := by omega
    simp only [h, h2, if_false]

theorem scale_neuron_at_position_eq (W H : Int) (map : Grid K) (x y : Int) (sample : Sample K)
    (scale : K) (total_components : Int) :
    scale_neuron_at_position W H map x y sample scale total_components =
      if 0 ≤ x ∧ x < W ∧ 0 ≤ y ∧ y < H then
        some (blend_at map x y sample scale total_components)
      else none := by
  unfold scale_neuron_at_position blend_at
  rw [scale_weights_eq_blend]

/-- `scale_neighbors` performs the calls listed by `scale_neighbors_calls`, in order. -/
theorem scale_neighbors_eq_calls [FloorRing K] (sqrt exp : K → K) (W H : Int) (map : Grid K) (bmu : BMU)
    (sample : Sample K) (iteration_radius learning_rule : K) (total_components : Int) :
    scale_neighbors sqrt exp W H map bmu sample iteration_radius learning_rule
        total_components =
      (scale_neighbors_calls sqrt exp W H bmu iteration_radius learning_rule).foldlM
        (fun map c => scale_neuron_at_position W H map c.1 c.2.1 sample c.2.2 total_components)
        map := by
  unfold scale_neighbors scale_neighbors_calls
  simp only []
  rw [foldlM_flatMap_option]
  congr 1
  funext m y
  rw [foldlM_filterMap_ite]

end UpdateLemmas

theorem c_trunc_eq_floor {K : Type} [LinearOrderedField K] [FloorRing K] (r : K)
    (hr : 1 ≤ ⌊r⌋) : c_trunc r = ⌊r⌋ := by
  unfold c_trunc
  have h0 : 0 ≤ r := Int.floor_nonneg.mp (by omega)
  rw [if_pos h0]

theorem radius_pos_of_floor {K : Type} [LinearOrderedField K] [FloorRing K] (r : K)
    (hr : 1 ≤ ⌊r⌋) : 0 < r :=
  lt_of_lt_of_le zero_lt_one (Int.floor_pos.mp (by omega))

theorem mem_neighborhood_offsets {K : Type} [LinearOrderedField K] [FloorRing K] (r : K)
    (o : Int × Int) :
    o ∈ neighborhood_offsets r ↔
      (-⌊r⌋ ≤ o.1 ∧ o.1 < ⌊r⌋) ∧ (-⌊r⌋ ≤ o.2 ∧ o.2 < ⌊r⌋) ∧
        (o.1 : K) ^ 2 + (o.2 : K) ^ 2 < r ^ 2 := by
  unfold neighborhood_offsets
  simp only [List.mem_flatMap, List.mem_map, List.mem_filter, mem_int_range, decide_eq_true_eq]
  constructor
  · rintro ⟨dy, hdy, dx, ⟨hdx, hlt⟩, rfl⟩
    exact ⟨hdx, hdy, hlt⟩
  · rintro ⟨hdx, hdy, hlt⟩
    exact ⟨o.2, hdy, o.1, ⟨hdx, hlt⟩, rfl⟩

/-- Under the side conditions of the neighborhood update (in-range BMU and
`1 ≤ floor r ≤ min(W,H)`) the calls made by `scale_neighbors` are the blends of the
reference definition: same offsets in the same order, cell `((bx+dx) mod W, (by+dy) mod H)`,
scale `a * exp(-10 (dx^2+dy^2) / r^2)`. -/
theorem scale_neighbors_calls_eq (W H : Int) (bmu : BMU) (r a : ℝ)
    (hbx : 0 ≤ bmu.x_coord ∧ bmu.x_coord < W) (hby : 0 ≤ bmu.y_coord ∧ bmu.y_coord < H)
    (hr : 1 ≤ ⌊r⌋) (hrW : ⌊r⌋ ≤ W) (hrH : ⌊r⌋ ≤ H) :
    scale_neighbors_calls Real.sqrt Real.exp W H bmu r a =
      (neighborhood_offsets r).map (fun o =>
        ((bmu.x_coord + o.1) % W, (bmu.y_coord + o.2) % H, gaussian_scale Real.exp r a o)) := by
  have hrpos := radius_pos_of_floor r hr
  unfold scale_neighbors_calls neighborhood_offsets
  simp only []
  rw [c_trunc_eq_floor r hr, List.map_flatMap]
  apply List.flatMap_congr
  intro y hy
  rw [List.map_map, map_filter_eq_filterMap_ite]
  apply List.filterMap_congr
  intro x hx
  rw [mem_int_range] at hx hy
  have hsum : (0 : ℝ) ≤ ((x : ℝ) - 0) * ((x : ℝ) - 0) + ((y : ℝ) - 0) * ((y : ℝ) - 0) :=
    add_nonneg (mul_self_nonneg _) (mul_self_nonneg _)
  have hsq : ((x : ℝ) - 0) * ((x : ℝ) - 0) + ((y : ℝ) - 0) * ((y : ℝ) - 0) =
      (x : ℝ) ^ 2 + (y : ℝ) ^ 2 := by ring
  have hcond : get_coordinate_distance Real.sqrt ⟨(x : ℝ), (y : ℝ)⟩ ⟨0, 0⟩ < r ↔
      (x : ℝ) ^ 2 + (y : ℝ) ^ 2 < r ^ 2 := by
    unfold get_coordinate_distance
    simp only []
    rw [Real.sqrt_lt' hrpos, hsq]
  have hdd : get_coordinate_distance Real.sqrt ⟨(x : ℝ), (y : ℝ)⟩ ⟨0, 0⟩ *
      get_coordinate_distance Real.sqrt ⟨(x : ℝ), (y : ℝ)⟩ ⟨0, 0⟩ =
      (x : ℝ) ^ 2 + (y : ℝ) ^ 2 := by
    unfold get_coordinate_distance
    simp only []
    rw [Real.mul_self_sqrt hsum, hsq]
  have hwx := wrap_coord_emod W (x + bmu.x_coord) (by omega) (by omega)
  have hwy := wrap_coord_emod H (y + bmu.y_coord) (by omega) (by omega)
  by_cases hc : (x : ℝ) ^ 2 + (y : ℝ) ^ 2 < r ^ 2
  · rw [if_pos (hcond.mpr hc)]
    simp only [Function.comp, hc, if_true]
    rw [hdd, hwx, hwy, add_comm x, add_comm y]
    unfold gaussian_scale
    simp only [sq]
  · rw [if_neg (fun h => hc (hcond.mp h))]
    simp only [Function.comp, hc, if_false]

section ReferenceLemmas

theorem blend_at_other {K : Type} [LinearOrderedField K] (grid : Grid K) (cx cy : Int)
    (sample : Sample K) (scale : K) (D : Int) (x y : Int) (h : ¬ (x = cx ∧ y = cy)) :
    blend_at grid cx cy sample scale D x y = grid x y := by
  unfold blend_at
  rw [if_neg h]

theorem blend_at_bounded {K : Type} [LinearOrderedField K] (W H D : Int) (grid : Grid K)
    (cx cy : Int) (sample : Sample K) (scale : K) (hg : weights_bounded W H D grid)
    (hc : components_bounded D sample) (hcx : 0 ≤ cx ∧ cx < W) (hcy : 0 ≤ cy ∧ cy < H)
    (h0 : 0 ≤ scale) (h1 : scale ≤ 1) :
    weights_bounded W H D (blend_at grid cx cy sample scale D) := by
  intro x y hx0 hx1 hy0 hy1 i hi
  unfold blend_at
  by_cases h : x = cx ∧ y = cy
  · rw [if_pos h]
    show 0 ≤ blend_weights (grid cx cy).weights sample scale D i ∧
      blend_weights (grid cx cy).weights sample scale D i ≤ 1
    unfold blend_weights
    rw [if_pos hi]
    obtain ⟨hw0, hw1⟩ := hg cx cy hcx.1 hcx.2 hcy.1 hcy.2 i hi
    obtain ⟨hs0, hs1⟩ := hc i hi
    constructor
    · have := mul_nonneg hw0 (sub_nonneg.mpr h1)
      have := mul_nonneg hs0 h0
      linarith
    · have e1 : (grid cx cy).weights i * (1 - scale) ≤ 1 * (1 - scale) :=
        mul_le_mul_of_nonneg_right hw1 (sub_nonneg.mpr h1)
      have e2 : sample.components i * scale ≤ 1 * scale := mul_le_mul_of_nonneg_right hs1 h0
      linarith
  · rw [if_neg h]
    exact hg x y hx0 hx1 hy0 hy1 i hi

theorem gaussian_scale_bounds (r a : ℝ) (o : Int × Int) (ha0 : 0 < a) :
    0 < gaussian_scale Real.exp r a o ∧ gaussian_scale Real.exp r a o ≤ a := by
  unfold gaussian_scale
  have hpos := Real.exp_pos (-10 * ((o.1 : ℝ) ^ 2 + (o.2 : ℝ) ^ 2) / r ^ 2)
  have hle : Real.exp (-10 * ((o.1 : ℝ) ^ 2 + (o.2 : ℝ) ^ 2) / r ^ 2) ≤ 1 := by
    rw [Real.exp_le_one_iff, mul_div_assoc]
    have : 0 ≤ ((o.1 : ℝ) ^ 2 + (o.2 : ℝ) ^ 2) / r ^ 2 :=
      div_nonneg (add_nonneg (sq_nonneg _) (sq_nonneg _)) (sq_nonneg _)
    linarith
  constructor
  · exact mul_pos ha0 hpos
  · nlinarith

/-- Under the side conditions, `scale_neighbors` succeeds and computes the grid of the
reference definition. -/
theorem scale_neighbors_eq_reference (W H : Int) (map : Grid ℝ) (bmu : BMU) (sample : Sample ℝ)
    (r a : ℝ) (D : Int)
    (hbx : 0 ≤ bmu.x_coord ∧ bmu.x_coord < W) (hby : 0 ≤ bmu.y_coord ∧ bmu.y_coord < H)
    (hr : 1 ≤ ⌊r⌋) (hrW : ⌊r⌋ ≤ W) (hrH : ⌊r⌋ ≤ H) :
    scale_neighbors Real.sqrt Real.exp W H map bmu sample r a D =
      some (scale_neighbors_reference Real.exp W H map bmu sample r a D) := by
  rw [scale_neighbors_eq_calls, scale_neighbors_calls_eq W H bmu r a hbx hby hr hrW hrH,
    List.foldlM_map]
  unfold scale_neighbors_reference
  apply foldlM_eq_some_foldl
  intro m o _
  rw [scale_neuron_at_position_eq]
  have hW : 0 < W := by omega
  have hH : 0 < H := by omega
  rw [if_pos ⟨Int.emod_nonneg _ (by omega), Int.emod_lt_of_pos _ hW,
    Int.emod_nonneg _ (by omega), Int.emod_lt_of_pos _ hH⟩]

theorem scale_neighbors_reference_bounded (W H : Int) (map : Grid ℝ) (bmu : BMU)
    (sample : Sample ℝ) (r a : ℝ) (D : Int) (hW : 0 < W) (hH : 0 < H)
    (hg : weights_bounded W H D map) (hc : components_bounded D sample)
    (ha0 : 0 < a) (ha1 : a ≤ 1) :
    weights_bounded W H D (scale_neighbors_reference Real.exp W H map bmu sample r a D) := by
  unfold scale_neighbors_reference
  apply foldl_invariant (weights_bounded W H D)
  · exact hg
  · intro g o _ hgb
    have hs := gaussian_scale_bounds r a o ha0
    exact blend_at_bounded W H D g _ _ sample _ hgb hc
      ⟨Int.emod_nonneg _ (by omega), Int.emod_lt_of_pos _ hW⟩
      ⟨Int.emod_nonneg _ (by omega), Int.emod_lt_of_pos _ hH⟩
      (le_of_lt hs.1) (le_trans hs.2 ha1)

end ReferenceLemmas

/-- On the 300 × 300 grid with BMU `(0,0)` and radius 301.5 the offset `(0, -301)` is at
distance `301 < 301.5` and its row is `wrap(-301) = 300 - 301 = -1`: `scale_neighbors` calls
`scale_neuron_at_position` with `y = -1`, outside the grid. -/
theorem scale_neighbors_out_of_grid (map : Grid ℝ) (sample : Sample ℝ) (a : ℝ) (D : Int) :
    scale_neighbors Real.sqrt Real.exp MAP_WIDTH MAP_HEIGHT map ⟨0, 0⟩ sample (603 / 2) a D =
      none := by
  rw [scale_neighbors_eq_calls]
  have hfl : c_trunc (603 / 2 : ℝ) = 301 := by
    unfold c_trunc
    rw [if_pos (by norm_num)]
    rw [Int.floor_eq_iff]
    constructor <;> norm_num
  have hd : get_coordinate_distance Real.sqrt ⟨((0 : Int) : ℝ), ((-301 : Int) : ℝ)⟩ ⟨0, 0⟩
      < 603 / 2 := by
    unfold get_coordinate_distance
    simp only []
    rw [Real.sqrt_lt' (by norm_num)]
    norm_num
  apply foldlM_eq_none_of_mem _ _ _
    (wrap_coord MAP_WIDTH (0 + 0), wrap_coord MAP_HEIGHT (-301 + 0),
      a * Real.exp (-10 *
        (get_coordinate_distance Real.sqrt ⟨((0 : Int) : ℝ), ((-301 : Int) : ℝ)⟩ ⟨0, 0⟩ *
          get_coordinate_distance Real.sqrt ⟨((0 : Int) : ℝ), ((-301 : Int) : ℝ)⟩ ⟨0, 0⟩) /
        (603 / 2 * (603 / 2))))
  · unfold scale_neighbors_calls
    simp only []
    rw [hfl, List.mem_flatMap]
    refine ⟨-301, (mem_int_range _ _ _).mpr (by decide), ?_⟩
    rw [List.mem_filterMap]
    refine ⟨0, (mem_int_range _ _ _).mpr (by decide), ?_⟩
    rw [if_pos hd]
  · intro m
    rw [scale_neuron_at_position_eq]
    apply if_neg
    rintro ⟨_, _, h, _⟩
    have hrow : ¬ (0 ≤ wrap_coord MAP_HEIGHT (-301 + 0)) := by decide
    exact hrow h

/-- C1 (as stated, refuted): the claim allows every radius `r ≥ 1`.  On the 300 × 300 grid,
with all weights and components 1/2 (in `[0,1]`), the in-range BMU `(0,0)`, learning rate 1/2
and radius 301.5, `scale_neighbors` indexes `map` outside the grid (row `-1`): the update
does not yield a grid. -/
theorem scale_neighbors_large_radius_fails :
    weights_bounded MAP_WIDTH MAP_HEIGHT 2 (uniform_grid (1 / 2 : ℝ)) ∧
      components_bounded 2 (uniform_sample (1 / 2 : ℝ)) ∧
      (1 : ℝ) ≤ 603 / 2 ∧
      scale_neighbors Real.sqrt Real.exp MAP_WIDTH MAP_HEIGHT (uniform_grid (1 / 2)) ⟨0, 0⟩
        (uniform_sample (1 / 2)) (603 / 2) (1 / 2) 2 = none := by
  refine ⟨?_, ?_, by norm_num, scale_neighbors_out_of_grid _ _ _ _⟩
  · intro x y _ _ _ _ i _
    simp only [uniform_grid]
    norm_num
  · intro i _
    simp only [uniform_sample]
    norm_num

/-- C1 (amended): for a radius `r ≥ 1` with `floor r ≤ min(W,H)`, a grid with weights in
`[0,1]`, a sample with components in `[0,1]`, an in-range BMU and a learning rate in `(0,1]`,
`scale_neighbors` yields a grid whose weights all lie in `[0,1]`; hence any finite sequence of
training iterations (`search_bmu` followed by `scale_neighbors`) with such samples, radii and
learning rates yields a grid whose weights all lie in `[0,1]`. -/
theorem scale_neighbors_weights_bounded (W H D : Int) :
    (∀ (map : Grid ℝ) (bmu : BMU) (sample : Sample ℝ) (r a : ℝ),
      weights_bounded W H D map → components_bounded D sample →
      (0 ≤ bmu.x_coord ∧ bmu.x_coord < W) → (0 ≤ bmu.y_coord ∧ bmu.y_coord < H) →
      1 ≤ r → ⌊r⌋ ≤ min W H → 0 < a → a ≤ 1 →
      ∃ map1, scale_neighbors Real.sqrt Real.exp W H map bmu sample r a D = some map1 ∧
        weights_bounded W H D map1) ∧
    (∀ (steps : List (Sample ℝ × ℝ × ℝ)) (map : Grid ℝ) (bmu : BMU),
      D ≤ INT_MAX → weights_bounded W H D map →
      (∀ st ∈ steps, components_bounded D st.1 ∧ 1 ≤ st.2.1 ∧ ⌊st.2.1⌋ ≤ min W H ∧
        0 < st.2.2 ∧ st.2.2 ≤ 1) →
      ∃ map1 bmu1, training_iterations Real.sqrt Real.exp W H D (map, bmu) steps =
          some (map1, bmu1) ∧ weights_bounded W H D map1) := by
  have single : ∀ (map : Grid ℝ) (bmu : BMU) (sample : Sample ℝ) (r a : ℝ),
      weights_bounded W H D map → components_bounded D sample →
      (0 ≤ bmu.x_coord ∧ bmu.x_coord < W) → (0 ≤ bmu.y_coord ∧ bmu.y_coord < H) →
      1 ≤ r → ⌊r⌋ ≤ min W H → 0 < a → a ≤ 1 →
      scale_neighbors Real.sqrt Real.exp W H map bmu sample r a D =
          some (scale_neighbors_reference Real.exp W H map bmu sample r a D) ∧
        weights_bounded W H D (scale_neighbors_reference Real.exp W H map bmu sample r a D) := by
    intro map bmu sample r a hg hc hbx hby hr hrm ha0 ha1
    have hfl : 1 ≤ ⌊r⌋ := Int.floor_pos.mpr hr
    have hrW : ⌊r⌋ ≤ W := le_trans hrm (min_le_left _ _)
    have hrH : ⌊r⌋ ≤ H := le_trans hrm (min_le_right _ _)
    exact ⟨scale_neighbors_eq_reference W H map bmu sample r a D hbx hby hfl hrW hrH,
      scale_neighbors_reference_bounded W H map bmu sample r a D (by omega) (by omega) hg hc
        ha0 ha1⟩
  constructor
  · intro map bmu sample r a hg hc hbx hby hr hrm ha0 ha1
    exact ⟨_, single map bmu sample r a hg hc hbx hby hr hrm ha0 ha1⟩
  · intro steps
    induction steps with
    | nil =>
      intro map bmu _ hg _
      exact ⟨map, bmu, rfl, hg⟩
    | cons st steps ih =>
      intro map bmu hD hg hsteps
      obtain ⟨hc, hr, hrm, ha0, ha1⟩ := hsteps st (List.mem_cons_self st steps)
      have hfl : 1 ≤ ⌊st.2.1⌋ := Int.floor_pos.mpr hr
      have hrW : ⌊st.2.1⌋ ≤ W := le_trans hrm (min_le_left _ _)
      have hrH : ⌊st.2.1⌋ ≤ H := le_trans hrm (min_le_right _ _)
      obtain ⟨bx, bY, hbx, hby, heq, _⟩ :=
        search_bmu_unit_interval W H map st.1 bmu D (by omega) (by omega) hD hc hg
      have hb : (0 ≤ (search_bmu Real.sqrt W H map st.1 bmu D).x_coord ∧
          (search_bmu Real.sqrt W H map st.1 bmu D).x_coord < W) ∧
          (0 ≤ (search_bmu Real.sqrt W H map st.1 bmu D).y_coord ∧
          (search_bmu Real.sqrt W H map st.1 bmu D).y_coord < H) := by
        rw [heq]; exact ⟨hbx, hby⟩
      obtain ⟨hsome, hbd⟩ := single map (search_bmu Real.sqrt W H map st.1 bmu D) st.1 st.2.1
        st.2.2 hg hc hb.1 hb.2 hr hrm ha0 ha1
      obtain ⟨map1, bmu1, hrest, hbd1⟩ := ih _ (search_bmu Real.sqrt W H map st.1 bmu D) hD hbd
        (fun s hs => hsteps s (List.mem_cons_of_mem st hs))
      refine ⟨map1, bmu1, ?_, hbd1⟩
      unfold training_iterations at hrest ⊢
      rw [List.foldlM_cons]
      have hstep : training_iteration Real.sqrt Real.exp W H D (map, bmu) st =
          some (scale_neighbors_reference Real.exp W H map
            (search_bmu Real.sqrt W H map st.1 bmu D) st.1 st.2.1 st.2.2 D,
            search_bmu Real.sqrt W H map st.1 bmu D) := by
        unfold training_iteration
        simp only []
        rw [hsome]
        rfl
      rw [hstep]
      exact hrest

/-- Witness of `scale_neighbors_weights_bounded`: a 3 × 3 grid with every weight 1/2, a
sample with every component 1/4, BMU `(1,1)`, radius 1 and learning rate 1/2. -/
theorem scale_neighbors_weights_bounded_witness :
    ∃ map1, scale_neighbors Real.sqrt Real.exp 3 3 (uniform_grid (1 / 2)) ⟨1, 1⟩
        (uniform_sample (1 / 4)) 1 (1 / 2) 2 = some map1 ∧ weights_bounded 3 3 2 map1 :=
  (scale_neighbors_weights_bounded 3 3 2).1 (uniform_grid (1 / 2)) ⟨1, 1⟩
    (uniform_sample (1 / 4)) 1 (1 / 2)
    (fun _ _ _ _ _ _ _ _ => by simp only [uniform_grid]; norm_num)
    (fun _ _ => by simp only [uniform_sample]; norm_num)
    ⟨by decide, by decide⟩ ⟨by decide, by decide⟩ (le_refl 1)
    (by rw [Int.floor_one]; decide) (by norm_num) (by norm_num)

theorem floor_epoch_one_radius : ⌊(400 / 3 : ℝ)⌋ = 133 := by
  rw [Int.floor_eq_iff]
  constructor <;> norm_num

/-! ## At most one blend per neuron -/

section OnceLemmas

theorem neighborhood_offsets_nodup {K : Type} [LinearOrderedField K] [FloorRing K] (r : K) :
    (neighborhood_offsets r).Nodup := by
  have h : (neighborhood_offsets r).Pairwise
      (fun a b => a.2 < b.2 ∨ (a.2 = b.2 ∧ a.1 < b.1)) := by
    unfold neighborhood_offsets
    rw [List.pairwise_flatMap]
    constructor
    · intro dy _
      rw [List.pairwise_map]
      exact ((int_range_pairwise (-⌊r⌋) ⌊r⌋).filter _).imp (fun h => Or.inr ⟨rfl, h⟩)
    · refine (int_range_pairwise (-⌊r⌋) ⌊r⌋).imp ?_
      intro a b hab p hp q hq
      simp only [List.mem_map] at hp hq
      obtain ⟨_, _, rfl⟩ := hp
      obtain ⟨_, _, rfl⟩ := hq
      exact Or.inl hab
  refine h.imp ?_
  intro a b hab heq
  subst heq
  rcases hab with h1 | ⟨_, h2⟩
  · exact lt_irrefl _ h1
  · exact lt_irrefl _ h2

theorem emod_offset_injective (dim b d1 d2 fl : Int) (h2 : 2 * fl ≤ dim)
    (h1 : -fl ≤ d1 ∧ d1 < fl) (h3 : -fl ≤ d2 ∧ d2 < fl)
    (h : (b + d1) % dim = (b + d2) % dim) : d1 = d2 := by
  have hz := Int.emod_eq_emod_iff_emod_sub_eq_zero.mp h
  have habs : |b + d1 - (b + d2)| < dim := by
    rw [abs_lt]
    constructor <;> omega
  have := Int.eq_zero_of_abs_lt_dvd (Int.dvd_of_emod_eq_zero hz) habs
  omega

theorem foldl_blend_at_frame {K : Type} [LinearOrderedField K] (l : List (Int × Int × K))
    (g : Grid K) (sample : Sample K) (D : Int) (x y : Int)
    (h : ∀ t ∈ l, ¬ (x = t.1 ∧ y = t.2.1)) :
    (l.foldl (fun g t => blend_at g t.1 t.2.1 sample t.2.2 D) g) x y = g x y := by
  apply foldl_invariant (fun g1 : Grid K => g1 x y = g x y)
  · rfl
  · intro g1 t ht hg1
    show blend_at g1 t.1 t.2.1 sample t.2.2 D x y = g x y
    rw [blend_at_other _ _ _ _ _ _ _ _ (h t ht)]
    exact hg1

/-- Blending along a list of calls whose cells are pairwise distinct changes every neuron at
most once. -/
theorem foldl_blend_at_once {K : Type} [LinearOrderedField K] (l : List (Int × Int × K))
    (g : Grid K) (sample : Sample K) (D : Int) (x y : Int)
    (hnd : (l.map (fun t => (t.1, t.2.1))).Nodup) :
    (l.foldl (fun g t => blend_at g t.1 t.2.1 sample t.2.2 D) g) x y = g x y ∨
      ∃ s, (x, y, s) ∈ l ∧
        (l.foldl (fun g t => blend_at g t.1 t.2.1 sample t.2.2 D) g) x y =
          ⟨blend_weights (g x y).weights sample s D⟩ := by
  induction l generalizing g with
  | nil => exact Or.inl rfl
  | cons t l ih =>
    rw [List.map_cons, List.nodup_cons] at hnd
    rw [List.foldl_cons]
    by_cases hc : x = t.1 ∧ y = t.2.1
    · right
      refine ⟨t.2.2, ?_, ?_⟩
      · rw [hc.1, hc.2]
        exact List.mem_cons_self _ _
      · rw [foldl_blend_at_frame l _ sample D x y]
        · unfold blend_at
          rw [if_pos hc, hc.1, hc.2]
        · intro t1 ht1 hxy
          apply hnd.1
          rw [List.mem_map]
          exact ⟨t1, ht1, by rw [← hc.1, ← hc.2, hxy.1, hxy.2]⟩
    · rcases ih (blend_at g t.1 t.2.1 sample t.2.2 D) hnd.2 with h | ⟨s, hs, h⟩
      · left
        rw [h, blend_at_other _ _ _ _ _ _ _ _ hc]
      · right
        refine ⟨s, List.mem_cons_of_mem _ hs, ?_⟩
        rw [h, blend_at_other _ _ _ _ _ _ _ _ hc]

theorem c_trunc_nonpos_of_floor {K : Type} [LinearOrderedField K] [FloorRing K] (r : K)
    (h : ⌊r⌋ ≤ 0) : c_trunc r ≤ 0 := by
  unfold c_trunc
  split_ifs with h0
  · exact h
  · rw [Int.ceil_le]
    exact_mod_cast le_of_lt (not_le.mp h0)

theorem int_range_eq_nil (lo hi : Int) (h : hi ≤ lo) : int_range lo hi = [] := by
  unfold int_range
  have : (hi - lo).toNat = 0 := by omega
  rw [this]
  rfl

theorem scale_neighbors_calls_eq_nil {K : Type} [LinearOrderedField K] [FloorRing K]
    (sqrt exp : K → K) (W H : Int) (bmu : BMU) (r a : K) (h : ⌊r⌋ ≤ 0) :
    scale_neighbors_calls sqrt exp W H bmu r a = [] := by
  unfold scale_neighbors_calls
  simp only []
  rw [int_range_eq_nil _ _ (by have := c_trunc_nonpos_of_floor r h; omega)]
  rfl

end OnceLemmas

theorem schedule_radius_le {K : Type} [LinearOrderedField K] (exp : K → K) (e : Nat) :
    (schedule_in_epoch exp (e + 1)).radius ≤ 400 / 3 := by
  induction e with
  | zero =>
    rw [schedule_radius_succ, schedule_radius_zero]
    unfold INITIAL_RADIUS
    apply max_le <;> norm_num
  | succ n ih =>
    rw [schedule_radius_succ]
    have h1 := schedule_radius_ge_one exp (n + 1)
    apply max_le
    · linarith
    · linarith

theorem floor_first_radius : ⌊(200 : ℝ)⌋ = 200 := by
  rw [Int.floor_eq_iff]
  constructor <;> norm_num

/-- C15 (as stated, refuted) for the default first epoch: with `W = H = 300` and the radius
200 of the first pass, the offsets `(-150, 0)` and `(150, 0)` are both scanned and inside the
disc (`150^2 < 200^2`), and both are wrapped to the column 150 of the row of the BMU; with BMU
`(0,0)` the cell `(150, 0)` is the target of two calls, so the cells of the calls are not
pairwise distinct. -/
theorem scale_neighbors_first_epoch_blends_twice :
    (schedule_in_epoch Real.exp 0).radius = 200 ∧
      ¬ (2 * ⌊(200 : ℝ)⌋ ≤ min MAP_WIDTH MAP_HEIGHT) ∧
      ((-150, 0) : Int × Int) ∈ neighborhood_offsets (200 : ℝ) ∧
      ((150, 0) : Int × Int) ∈ neighborhood_offsets (200 : ℝ) ∧
      wrap_coord MAP_WIDTH (-150 + 0) = 150 ∧ wrap_coord MAP_WIDTH (150 + 0) = 150 ∧
      wrap_coord MAP_HEIGHT (0 + 0) = 0 ∧
      (150, 0, gaussian_scale Real.exp 200 (9 / 10) (-150, 0)) ∈
        scale_neighbors_calls Real.sqrt Real.exp MAP_WIDTH MAP_HEIGHT ⟨0, 0⟩ 200 (9 / 10) ∧
      (150, 0, gaussian_scale Real.exp 200 (9 / 10) (150, 0)) ∈
        scale_neighbors_calls Real.sqrt Real.exp MAP_WIDTH MAP_HEIGHT ⟨0, 0⟩ 200 (9 / 10) ∧
      ¬ ((scale_neighbors_calls Real.sqrt Real.exp MAP_WIDTH MAP_HEIGHT ⟨0, 0⟩ 200
          (9 / 10)).map (fun c => (c.1, c.2.1))).Nodup := by
  have hfl := floor_first_radius
  have hm1 : ((-150, 0) : Int × Int) ∈ neighborhood_offsets (200 : ℝ) := by
    rw [mem_neighborhood_offsets, hfl]
    refine ⟨by decide, by decide, ?_⟩
    norm_num
  have hm2 : ((150, 0) : Int × Int) ∈ neighborhood_offsets (200 : ℝ) := by
    rw [mem_neighborhood_offsets, hfl]
    refine ⟨by decide, by decide, ?_⟩
    norm_num
  have hcalls := scale_neighbors_calls_eq MAP_WIDTH MAP_HEIGHT ⟨0, 0⟩ 200 (9 / 10)
    ⟨by decide, by decide⟩ ⟨by decide, by decide⟩ (by rw [hfl]; decide) (by rw [hfl]; decide)
    (by rw [hfl]; decide)
  refine ⟨?_, ?_, hm1, hm2, by decide, by decide, by decide, ?_, ?_, ?_⟩
  · rw [schedule_radius_zero]; rfl
  · rw [hfl]; decide
  · rw [hcalls, List.mem_map]
    exact ⟨(-150, 0), hm1, rfl⟩
  · rw [hcalls, List.mem_map]
    exact ⟨(150, 0), hm2, rfl⟩
  · rw [hcalls, List.map_map]
    intro hnd
    have h := List.inj_on_of_nodup_map hnd hm1 hm2 rfl
    exact absurd (congrArg Prod.fst h) (by decide)

/-- C15 (amended): for an in-range BMU and a radius with `2 * floor r ≤ min(W,H)`, two
scanned offsets that `scale_neighbors` sends to the same cell are equal, the cells of its
calls are pairwise distinct, and in the grid it returns every neuron is either unchanged or
the result of one blend of the neuron of the input grid; under the default configuration
(`W = H = 300`) the condition holds in every pass after the first one. -/
theorem scale_neighbors_at_most_once (W H : Int) (map : Grid ℝ) (bmu : BMU) (sample : Sample ℝ)
    (r a : ℝ) (D : Int)
    (hbx : 0 ≤ bmu.x_coord ∧ bmu.x_coord < W) (hby : 0 ≤ bmu.y_coord ∧ bmu.y_coord < H)
    (h2 : 2 * ⌊r⌋ ≤ min W H) :
    (∀ dx1 dy1 dx2 dy2 : Int,
      (-c_trunc r ≤ dx1 ∧ dx1 < c_trunc r) → (-c_trunc r ≤ dy1 ∧ dy1 < c_trunc r) →
      (-c_trunc r ≤ dx2 ∧ dx2 < c_trunc r) → (-c_trunc r ≤ dy2 ∧ dy2 < c_trunc r) →
      wrap_coord W (dx1 + bmu.x_coord) = wrap_coord W (dx2 + bmu.x_coord) →
      wrap_coord H (dy1 + bmu.y_coord) = wrap_coord H (dy2 + bmu.y_coord) →
      dx1 = dx2 ∧ dy1 = dy2) ∧
    ((scale_neighbors_calls Real.sqrt Real.exp W H bmu r a).map
      (fun c => (c.1, c.2.1))).Nodup ∧
    (∃ map1, scale_neighbors Real.sqrt Real.exp W H map bmu sample r a D = some map1 ∧
      ∀ x y : Int, map1 x y = map x y ∨
        ∃ s, (x, y, s) ∈ scale_neighbors_calls Real.sqrt Real.exp W H bmu r a ∧
          map1 x y = ⟨blend_weights (map x y).weights sample s D⟩) ∧
    ∀ e : Nat, 1 ≤ e →
      2 * ⌊(schedule_in_epoch Real.exp e).radius⌋ ≤ min MAP_WIDTH MAP_HEIGHT := by
  have h2W : 2 * ⌊r⌋ ≤ W := le_trans h2 (min_le_left _ _)
  have h2H : 2 * ⌊r⌋ ≤ H := le_trans h2 (min_le_right _ _)
  have hdef : ∀ e : Nat, 1 ≤ e →
      2 * ⌊(schedule_in_epoch Real.exp e).radius⌋ ≤ min MAP_WIDTH MAP_HEIGHT := by
    intro e he
    obtain ⟨n, rfl⟩ : ∃ n, e = n + 1 := ⟨e - 1, by omega⟩
    have hle := schedule_radius_le Real.exp n
    have hfl : ⌊(schedule_in_epoch Real.exp (n + 1)).radius⌋ ≤ 133 := by
      rw [← floor_epoch_one_radius]
      exact Int.floor_le_floor hle
    have hmin : min MAP_WIDTH MAP_HEIGHT = 300 := by decide
    rw [hmin]
    omega
  by_cases hr : 1 ≤ ⌊r⌋
  · have hrW : ⌊r⌋ ≤ W := by omega
    have hrH : ⌊r⌋ ≤ H := by omega
    have hcalls := scale_neighbors_calls_eq W H bmu r a hbx hby hr hrW hrH
    have hnd : ((scale_neighbors_calls Real.sqrt Real.exp W H bmu r a).map
        (fun c => (c.1, c.2.1))).Nodup := by
      rw [hcalls, List.map_map]
      apply List.Nodup.map_on _ (neighborhood_offsets_nodup r)
      intro o1 ho1 o2 ho2 heq
      rw [mem_neighborhood_offsets] at ho1 ho2
      have hx : (bmu.x_coord + o1.1) % W = (bmu.x_coord + o2.1) % W := congrArg Prod.fst heq
      have hy : (bmu.y_coord + o1.2) % H = (bmu.y_coord + o2.2) % H := congrArg Prod.snd heq
      exact Prod.ext (emod_offset_injective W _ _ _ ⌊r⌋ h2W ho1.1 ho2.1 hx)
        (emod_offset_injective H _ _ _ ⌊r⌋ h2H ho1.2.1 ho2.2.1 hy)
    refine ⟨?_, hnd, ?_, hdef⟩
    · intro dx1 dy1 dx2 dy2 hx1 hy1 hx2 hy2 hwx hwy
      rw [c_trunc_eq_floor r hr] at hx1 hy1 hx2 hy2
      rw [wrap_coord_emod W _ (by omega) (by omega), wrap_coord_emod W _ (by omega) (by omega),
        add_comm dx1, add_comm dx2] at hwx
      rw [wrap_coord_emod H _ (by omega) (by omega), wrap_coord_emod H _ (by omega) (by omega),
        add_comm dy1, add_comm dy2] at hwy
      exact ⟨emod_offset_injective W _ _ _ ⌊r⌋ h2W hx1 hx2 hwx,
        emod_offset_injective H _ _ _ ⌊r⌋ h2H hy1 hy2 hwy⟩
    · refine ⟨_, scale_neighbors_eq_reference W H map bmu sample r a D hbx hby hr hrW hrH, ?_⟩
      intro x y
      have href : scale_neighbors_reference Real.exp W H map bmu sample r a D =
          (scale_neighbors_calls Real.sqrt Real.exp W H bmu r a).foldl
            (fun g t => blend_at g t.1 t.2.1 sample t.2.2 D) map := by
        rw [hcalls, List.foldl_map]
        rfl
      rw [href]
      exact foldl_blend_at_once _ map sample D x y hnd
  · have hr0 : ⌊r⌋ ≤ 0 := by omega
    have hnil := scale_neighbors_calls_eq_nil Real.sqrt Real.exp W H bmu r a hr0
    have hc := c_trunc_nonpos_of_floor r hr0
    refine ⟨?_, ?_, ?_, hdef⟩
    · intro dx1 dy1 dx2 dy2 hx1 _ _ _ _ _
      omega
    · rw [hnil]
      exact List.nodup_nil
    · refine ⟨map, ?_, fun x y => Or.inl rfl⟩
      rw [scale_neighbors_eq_calls, hnil]
      rfl

/-- Witness of `scale_neighbors_at_most_once`: a 4 × 4 grid, BMU `(1,1)`, radius 2: the cells
of the calls are pairwise distinct. -/
theorem scale_neighbors_at_most_once_witness :
    ((scale_neighbors_calls Real.sqrt Real.exp 4 4 ⟨1, 1⟩ 2 (1 / 2)).map
      (fun c => (c.1, c.2.1))).Nodup :=
  (scale_neighbors_at_most_once 4 4 (uniform_grid (1 / 2)) ⟨1, 1⟩ (uniform_sample (1 / 4)) 2
    (1 / 2) 2 ⟨by decide, by decide⟩ ⟨by decide, by decide⟩
    (by
      have h : ⌊(2 : ℝ)⌋ = 2 := by
        rw [Int.floor_eq_iff]; constructor <;> norm_num
      rw [h]; decide)).2.1

/-! ## The loops of `main` -/

section MainLemmas

variable {K : Type} [LinearOrderedField K] [FloorRing K]

theorem training_loop_exit (sqrt exp : K → K) (W H : Int) (info : DatasetInfo K)
    (sched : Schedule K) (inputs : Int → IterationInput) (st : TrainState K)
    (h : ¬ (st.iteration < sched.iterations_per_epoch ∧ st.training_finished = false ∧
      st.application_finished = false)) :
    training_loop sqrt exp W H info sched inputs st = Except.ok st := by
  rw [training_loop, if_neg h]

theorem training_loop_fault (sqrt exp : K → K) (W H : Int) (info : DatasetInfo K)
    (sched : Schedule K) (inputs : Int → IterationInput) (st : TrainState K)
    (h : st.iteration < sched.iterations_per_epoch ∧ st.training_finished = false ∧
      st.application_finished = false) (f : Fault)
    (hp : pick_random_sample info (inputs st.iteration).rand = Except.error f) :
    training_loop sqrt exp W H info sched inputs st = Except.error f := by
  rw [training_loop, if_pos h, hp]

theorem training_loop_step (sqrt exp : K → K) (W H : Int) (info : DatasetInfo K)
    (sched : Schedule K) (inputs : Int → IterationInput) (st : TrainState K)
    (h : st.iteration < sched.iterations_per_epoch ∧ st.training_finished = false ∧
      st.application_finished = false) (sample : Sample K) (grid_bmu : Grid K × BMU)
    (hp : pick_random_sample info (inputs st.iteration).rand = Except.ok sample)
    (ht : training_iteration sqrt exp W H info.total_components (st.map, st.bmu)
      (sample, sched.radius, sched.learning_rule) = some grid_bmu) :
    training_loop sqrt exp W H info sched inputs st =
      training_loop sqrt exp W H info sched inputs
        ⟨grid_bmu.1, grid_bmu.2, st.iteration + 1,
          (process_key_pressed (inputs st.iteration).key_pressed st.selected_component_index
            info.total_components st.training_finished).1,
          (process_key_pressed (inputs st.iteration).key_pressed st.selected_component_index
            info.total_components st.training_finished).2,
          (if (inputs st.iteration).window_should_close then true
            else st.application_finished),
          st.steps + 1⟩ := by
  rw [training_loop, if_pos h, hp]
  simp only [ht]

theorem epoch_loop_exit (sqrt exp : K → K) (W H : Int) (info : DatasetInfo K)
    (inputs : Int → Int → IterationInput) (sched : Schedule K) (st : TrainState K)
    (h : ¬ (sched.epoch < TOTAL_EPOCHS ∧ st.training_finished = false ∧
      st.application_finished = false)) :
    epoch_loop sqrt exp W H info inputs sched st = Except.ok (sched, st) := by
  rw [epoch_loop, if_neg h]

theorem epoch_loop_step (sqrt exp : K → K) (W H : Int) (info : DatasetInfo K)
    (inputs : Int → Int → IterationInput) (sched : Schedule K) (st : TrainState K)
    (h : sched.epoch < TOTAL_EPOCHS ∧ st.training_finished = false ∧
      st.application_finished = false) :
    epoch_loop sqrt exp W H info inputs sched st =
      match training_loop sqrt exp W H info (epoch_begin exp sched) (inputs sched.epoch)
          ⟨st.map, st.bmu, 0, st.selected_component_index, st.training_finished,
            st.application_finished, st.steps⟩ with
      | Except.error f => Except.error f
      | Except.ok st1 => epoch_loop sqrt exp W H info inputs (epoch_begin exp sched) st1 := by
  rw [epoch_loop, if_pos h]

theorem process_key_pressed_enter (selected_component_index total_components : Int)
    (training_finished : Bool) :
    (process_key_pressed 257 selected_component_index total_components training_finished).2 =
      true := by
  unfold process_key_pressed
  simp

theorem process_key_pressed_other (key_pressed selected_component_index total_components : Int)
    (training_finished : Bool) (h : key_pressed ≠ 257) :
    (process_key_pressed key_pressed selected_component_index total_components
      training_finished).2 = training_finished := by
  unfold process_key_pressed
  split_ifs <;> rfl

end MainLemmas

/-- C14, the code at the failing input: when the dataset file cannot be opened (`info` keeps
`total_components = 0` and `total_dataset_samples = 0`), `main` reports no configuration
error: it goes on to `initialize_som_map`, enters the epoch loop and the first training
iteration, and there `pick_random_sample` computes `rand() % 0`. -/
theorem main_missing_dataset_divides_by_zero (W H : Int) (RAND_MAX : Nat)
    (rands : Int → Int → Nat → Nat) (bmu : BMU) (inputs : Int → Int → IterationInput)
    (closes : Int → Bool) :
    main_program Real.sqrt Real.exp W H RAND_MAX missing_dataset rands bmu inputs closes =
      Except.error Fault.modulo_by_zero := by
  unfold main_program
  have hipe : (0 : Int) <
      (epoch_begin Real.exp (schedule_init : Schedule ℝ)).iterations_per_epoch := by
    simp [epoch_begin, schedule_init, INITIAL_TRAINING_ITERATIONS_PER_EPOCH]
  have hpick : ∀ n : Nat, pick_random_sample (missing_dataset : DatasetInfo ℝ) n =
      Except.error Fault.modulo_by_zero := fun n => rfl
  rw [epoch_loop_step _ _ _ _ _ _ _ _ ⟨by decide, rfl, rfl⟩]
  rw [training_loop_fault Real.sqrt Real.exp W H missing_dataset _ _ _ ⟨hipe, rfl, rfl⟩
    Fault.modulo_by_zero (hpick _)]

section RunLemmas

theorem schedule_iterations {K : Type} [LinearOrderedField K] (exp : K → K) (e : Nat) :
    (schedule_in_epoch exp e).iterations_per_epoch = 300 * 2 ^ e := by
  induction e with
  | zero => rfl
  | succ n ih =>
    unfold schedule_in_epoch at ih ⊢
    rw [Function.iterate_succ_apply' (epoch_begin exp) (n + 1)]
    have hep := schedule_iterate_epoch exp (n + 1)
    have hne : ((epoch_begin exp)^[n + 1] schedule_init).epoch ≠ 0 := by
      rw [hep]; exact_mod_cast Nat.succ_ne_zero n
    show (if ((epoch_begin exp)^[n + 1] schedule_init).epoch = 0 then
        INITIAL_TRAINING_ITERATIONS_PER_EPOCH
      else ((epoch_begin exp)^[n + 1] schedule_init).iterations_per_epoch * 2) = _
    rw [if_neg hne, ih, pow_succ]
    ring

theorem schedule_in_epoch_epoch {K : Type} [LinearOrderedField K] (exp : K → K) (e : Nat) :
    (schedule_in_epoch exp e).epoch = (e : Int) + 1 := by
  unfold schedule_in_epoch
  rw [schedule_iterate_epoch]
  push_cast
  rfl

theorem schedule_radius_le_initial {K : Type} [LinearOrderedField K] (exp : K → K) (e : Nat) :
    (schedule_in_epoch exp e).radius ≤ 200 := by
  cases e with
  | zero => rw [schedule_radius_zero]; unfold INITIAL_RADIUS; norm_num
  | succ n => exact le_trans (schedule_radius_le exp n) (by norm_num)

theorem schedule_learning_rule_bounds (e : Nat) :
    0 < (schedule_in_epoch Real.exp e).learning_rule ∧
      (schedule_in_epoch Real.exp e).learning_rule ≤ 9 / 10 := by
  rw [schedule_learning_rule]
  constructor
  · exact lt_of_lt_of_le (by norm_num) (le_max_left _ _)
  · apply max_le (by norm_num)
    have h : Real.exp (-10 * ((e : ℝ) * (e : ℝ)) / 64) ≤ 1 := by
      rw [Real.exp_le_one_iff]
      have : 0 ≤ (e : ℝ) * (e : ℝ) := mul_self_nonneg _
      linarith
    linarith

theorem initialize_som_map_bounded {K : Type} [LinearOrderedField K] (W H D : Int)
    (RAND_MAX : Nat) (rands : Int → Int → Nat → Nat)
    (h : ∀ x y i, rands x y i ≤ RAND_MAX) :
    weights_bounded W H D (initialize_som_map RAND_MAX rands : Grid K) := by
  intro x y _ _ _ _ i _
  show 0 ≤ ((rands x y i : Nat) : K) / (RAND_MAX : K) ∧
    ((rands x y i : Nat) : K) / (RAND_MAX : K) ≤ 1
  have h1 : ((rands x y i : Nat) : K) ≤ (RAND_MAX : K) := by exact_mod_cast h x y i
  have h0 : (0 : K) ≤ ((rands x y i : Nat) : K) := Nat.cast_nonneg _
  constructor
  · exact div_nonneg h0 (Nat.cast_nonneg _)
  · exact div_le_one_of_le₀ h1 (Nat.cast_nonneg _)

theorem pick_random_sample_ok {K : Type} (info : DatasetInfo K) (rand : Nat)
    (hN : 1 ≤ info.total_dataset_samples) :
    pick_random_sample info rand =
        Except.ok (info.samples ((rand : Int) % info.total_dataset_samples)) ∧
      0 ≤ (rand : Int) % info.total_dataset_samples ∧
      (rand : Int) % info.total_dataset_samples < info.total_dataset_samples := by
  refine ⟨?_, Int.emod_nonneg _ (by omega), Int.emod_lt_of_pos _ (by omega)⟩
  unfold pick_random_sample
  rw [if_neg (by omega)]

/-- One training iteration on values in `[0,1]` with a radius that fits the grid: it
succeeds, its BMU is in range and the weights stay in `[0,1]`. -/
theorem training_iteration_ok (W H D : Int) (map : Grid ℝ) (bmu : BMU) (sample : Sample ℝ)
    (r a : ℝ) (hD : D ≤ INT_MAX) (hg : weights_bounded W H D map)
    (hc : components_bounded D sample) (hr : 1 ≤ r) (hrW : ⌊r⌋ ≤ W) (hrH : ⌊r⌋ ≤ H)
    (ha0 : 0 < a) (ha1 : a ≤ 1) :
    training_iteration Real.sqrt Real.exp W H D (map, bmu) (sample, r, a) =
        some (scale_neighbors_reference Real.exp W H map
          (search_bmu Real.sqrt W H map sample bmu D) sample r a D,
          search_bmu Real.sqrt W H map sample bmu D) ∧
      weights_bounded W H D (scale_neighbors_reference Real.exp W H map
        (search_bmu Real.sqrt W H map sample bmu D) sample r a D) := by
  have hfl : 1 ≤ ⌊r⌋ := Int.floor_pos.mpr hr
  obtain ⟨bx, bY, hbx, hby, heq, _⟩ :=
    search_bmu_unit_interval W H map sample bmu D (by omega) (by omega) hD hc hg
  have hb : (0 ≤ (search_bmu Real.sqrt W H map sample bmu D).x_coord ∧
      (search_bmu Real.sqrt W H map sample bmu D).x_coord < W) ∧
      (0 ≤ (search_bmu Real.sqrt W H map sample bmu D).y_coord ∧
      (search_bmu Real.sqrt W H map sample bmu D).y_coord < H) := by
    rw [heq]; exact ⟨hbx, hby⟩
  constructor
  · unfold training_iteration
    simp only []
    rw [scale_neighbors_eq_reference W H map _ sample r a D hb.1 hb.2 hfl hrW hrH]
    rfl
  · exact scale_neighbors_reference_bounded W H map _ sample r a D (by omega) (by omega) hg hc
      ha0 ha1

end RunLemmas

section FullRun

/-- The inner loop without a stop request, on values in `[0,1]`: it runs until
`iteration = iterations_per_epoch`, one training step per iteration. -/
theorem training_loop_run (W H : Int) (info : DatasetInfo ℝ) (sched : Schedule ℝ)
    (inputs : Int → IterationInput)
    (hN : 1 ≤ info.total_dataset_samples) (hD : info.total_components ≤ INT_MAX)
    (hinfo : ∀ i : Int, 0 ≤ i → i < info.total_dataset_samples →
      components_bounded info.total_components (info.samples i))
    (hr : 1 ≤ sched.radius) (hrW : ⌊sched.radius⌋ ≤ W) (hrH : ⌊sched.radius⌋ ≤ H)
    (ha0 : 0 < sched.learning_rule) (ha1 : sched.learning_rule ≤ 1)
    (hkey : ∀ i, (inputs i).key_pressed ≠ 257)
    (hclose : ∀ i, (inputs i).window_should_close = false) (n : Nat) :
    ∀ st : TrainState ℝ, (sched.iterations_per_epoch - st.iteration).toNat = n →
      st.iteration ≤ sched.iterations_per_epoch →
      st.training_finished = false → st.application_finished = false →
      weights_bounded W H info.total_components st.map →
      ∃ st1, training_loop Real.sqrt Real.exp W H info sched inputs st = Except.ok st1 ∧
        st1.iteration = sched.iterations_per_epoch ∧ st1.steps = st.steps + n ∧
        st1.training_finished = false ∧ st1.application_finished = false ∧
        weights_bounded W H info.total_components st1.map := by
  induction n with
  | zero =>
    intro st hn hle htf haf hg
    refine ⟨st, training_loop_exit _ _ _ _ _ _ _ _ ?_, by omega, rfl, htf, haf, hg⟩
    rintro ⟨h, _, _⟩
    omega
  | succ n ih =>
    intro st hn hle htf haf hg
    have hcond : st.iteration < sched.iterations_per_epoch ∧ st.training_finished = false ∧
        st.application_finished = false := ⟨by omega, htf, haf⟩
    obtain ⟨hpick, hi0, hi1⟩ := pick_random_sample_ok info (inputs st.iteration).rand hN
    obtain ⟨hstep, hbd⟩ := training_iteration_ok W H info.total_components st.map st.bmu
      (info.samples (((inputs st.iteration).rand : Int) % info.total_dataset_samples))
      sched.radius sched.learning_rule hD hg (hinfo _ hi0 hi1) hr hrW hrH ha0 ha1
    rw [training_loop_step _ _ _ _ _ _ _ _ hcond _ _ hpick hstep]
    obtain ⟨st1, hrun, hit, hsteps, htf1, haf1, hg1⟩ := ih
      ⟨scale_neighbors_reference Real.exp W H st.map
          (search_bmu Real.sqrt W H st.map
            (info.samples (((inputs st.iteration).rand : Int) % info.total_dataset_samples))
            st.bmu info.total_components)
          (info.samples (((inputs st.iteration).rand : Int) % info.total_dataset_samples))
          sched.radius sched.learning_rule info.total_components,
        search_bmu Real.sqrt W H st.map
          (info.samples (((inputs st.iteration).rand : Int) % info.total_dataset_samples))
          st.bmu info.total_components,
        st.iteration + 1,
        (process_key_pressed (inputs st.iteration).key_pressed st.selected_component_index
          info.total_components st.training_finished).1,
        (process_key_pressed (inputs st.iteration).key_pressed st.selected_component_index
          info.total_components st.training_finished).2,
        (if (inputs st.iteration).window_should_close then true
          else st.application_finished),
        st.steps + 1⟩
      (by show (sched.iterations_per_epoch - (st.iteration + 1)).toNat = n; omega)
      (by show st.iteration + 1 ≤ sched.iterations_per_epoch; omega)
      (by
        show (process_key_pressed (inputs st.iteration).key_pressed
          st.selected_component_index info.total_components st.training_finished).2 = false
        rw [process_key_pressed_other _ _ _ _ (hkey _)]
        exact htf)
      (by
        show (if (inputs st.iteration).window_should_close then true
          else st.application_finished) = false
        rw [hclose]
        exact haf)
      hbd
    refine ⟨st1, hrun, hit, ?_, htf1, haf1, hg1⟩
    rw [hsteps]
    show st.steps + 1 + n = st.steps + (n + 1)
    omega

end FullRun

section EpochRun

/-- The epoch loop without a stop request, on values in `[0,1]` and a grid of at least
200 × 200 cells, entered after `e ≤ 8` passes: it runs the remaining passes in full. -/
theorem epoch_loop_run (W H : Int) (info : DatasetInfo ℝ)
    (inputs : Int → Int → IterationInput) (hW : 200 ≤ W) (hH : 200 ≤ H)
    (hN : 1 ≤ info.total_dataset_samples) (hD : info.total_components ≤ INT_MAX)
    (hinfo : ∀ i : Int, 0 ≤ i → i < info.total_dataset_samples →
      components_bounded info.total_components (info.samples i))
    (hkey : ∀ e i, (inputs e i).key_pressed ≠ 257)
    (hclose : ∀ e i, (inputs e i).window_should_close = false) (k : Nat) :
    ∀ (e : Nat) (st : TrainState ℝ), e + k = 8 →
      st.training_finished = false → st.application_finished = false →
      weights_bounded W H info.total_components st.map →
      ∃ st1, epoch_loop Real.sqrt Real.exp W H info inputs
          ((epoch_begin Real.exp)^[e] schedule_init) st =
            Except.ok ((epoch_begin Real.exp)^[8] schedule_init, st1) ∧
        st1.steps + 300 * 2 ^ e = st.steps + 300 * 2 ^ 8 ∧
        st1.training_finished = false ∧ st1.application_finished = false ∧
        weights_bounded W H info.total_components st1.map := by
  induction k with
  | zero =>
    intro e st he htf haf hg
    have he8 : e = 8 := by omega
    subst he8
    refine ⟨st, epoch_loop_exit _ _ _ _ _ _ _ _ ?_, rfl, htf, haf, hg⟩
    rintro ⟨h, _, _⟩
    rw [schedule_iterate_epoch] at h
    exact absurd h (by decide)
  | succ k ih =>
    intro e st he htf haf hg
    have hep : ((epoch_begin Real.exp)^[e] (schedule_init : Schedule ℝ)).epoch = (e : Int) :=
      schedule_iterate_epoch Real.exp e
    have hcond : ((epoch_begin Real.exp)^[e] (schedule_init : Schedule ℝ)).epoch < TOTAL_EPOCHS ∧
        st.training_finished = false ∧ st.application_finished = false := by
      refine ⟨?_, htf, haf⟩
      rw [hep]
      unfold TOTAL_EPOCHS
      omega
    have hnext : epoch_begin Real.exp ((epoch_begin Real.exp)^[e] schedule_init) =
        schedule_in_epoch Real.exp e := by
      unfold schedule_in_epoch
      rw [Function.iterate_succ_apply']
    have hipe := schedule_iterations Real.exp e
    have hr1 := schedule_radius_ge_one Real.exp e
    have hr200 := schedule_radius_le_initial Real.exp e
    have hfl : ⌊(schedule_in_epoch Real.exp e).radius⌋ ≤ 200 := by
      rw [← floor_first_radius]
      exact Int.floor_le_floor hr200
    obtain ⟨hlr0, hlr1⟩ := schedule_learning_rule_bounds e
    have hpos : (0 : Int) ≤ 300 * 2 ^ e := by positivity
    obtain ⟨st1, hrun, _, hsteps, htf1, haf1, hg1⟩ := training_loop_run W H info
      (schedule_in_epoch Real.exp e) (inputs (e : Int)) hN hD hinfo hr1 (by omega) (by omega)
      hlr0 (by linarith) (hkey _) (hclose _) (300 * 2 ^ e)
      ⟨st.map, st.bmu, 0, st.selected_component_index, st.training_finished,
        st.application_finished, st.steps⟩
      (by
        show ((schedule_in_epoch Real.exp e).iterations_per_epoch - 0).toNat = 300 * 2 ^ e
        rw [hipe, sub_zero]
        have : ((300 * 2 ^ e : Nat) : Int) = 300 * 2 ^ e := by push_cast; rfl
        rw [← this, Int.toNat_ofNat])
      (by
        show (0 : Int) ≤ (schedule_in_epoch Real.exp e).iterations_per_epoch
        rw [hipe]; exact hpos)
      htf haf hg
    obtain ⟨st2, hrest, hsteps2, htf2, haf2, hg2⟩ := ih (e + 1) st1 (by omega) htf1 haf1 hg1
    refine ⟨st2, ?_, ?_, htf2, haf2, hg2⟩
    · rw [epoch_loop_step _ _ _ _ _ _ _ _ hcond, hnext, hep, hrun]
      simp only []
      rw [← hnext, ← Function.iterate_succ_apply' (epoch_begin Real.exp) e]
      exact hrest
    · have hs : st1.steps = st.steps + 300 * 2 ^ e := hsteps
      rw [pow_succ] at hsteps2
      generalize (2 : Nat) ^ e = X at hsteps2 hs ⊢
      omega

end EpochRun

/-- C11: in the pass `e = 0..7` of the default configuration the iteration bound is
`300 * 2^e`, and when no stop is requested (no ENTER key, window not closed) on a dataset with
at least one sample and values in `[0,1]` the inner loop of that pass runs exactly `300 * 2^e`
training iterations; the whole program then runs `76500` training iterations, leaves the
epoch loop with `epoch = TOTAL_EPOCHS` and goes on to the inference block. -/
theorem iteration_schedule (W H : Int) (RAND_MAX : Nat) (info : DatasetInfo ℝ)
    (rands : Int → Int → Nat → Nat) (bmu : BMU) (inputs : Int → Int → IterationInput)
    (closes : Int → Bool) (hW : 200 ≤ W) (hH : 200 ≤ H)
    (hrand : ∀ x y i, rands x y i ≤ RAND_MAX)
    (hN : 1 ≤ info.total_dataset_samples) (hD : info.total_components ≤ INT_MAX)
    (hinfo : ∀ i : Int, 0 ≤ i → i < info.total_dataset_samples →
      components_bounded info.total_components (info.samples i))
    (hkey : ∀ e i, (inputs e i).key_pressed ≠ 257)
    (hclose : ∀ e i, (inputs e i).window_should_close = false) :
    (∀ e : Nat, e < 8 →
      (schedule_in_epoch Real.exp e).iterations_per_epoch = 300 * 2 ^ e) ∧
    (∀ e : Nat, e < 8 → ∀ st : TrainState ℝ,
      st.training_finished = false → st.application_finished = false →
      weights_bounded W H info.total_components st.map →
      ∃ st1, training_loop Real.sqrt Real.exp W H info (schedule_in_epoch Real.exp e)
          (inputs (e : Int))
          ⟨st.map, st.bmu, 0, st.selected_component_index, st.training_finished,
            st.application_finished, st.steps⟩ = Except.ok st1 ∧
        st1.iteration = 300 * 2 ^ e ∧ st1.steps = st.steps + 300 * 2 ^ e) ∧
    ∃ res, main_program Real.sqrt Real.exp W H RAND_MAX info rands bmu inputs closes =
        Except.ok res ∧
      res.training.steps = 76500 ∧ res.schedule.epoch = TOTAL_EPOCHS ∧
      res.training.training_finished = false ∧ res.training.application_finished = false := by
  refine ⟨fun e _ => schedule_iterations Real.exp e, ?_, ?_⟩
  · intro e _ st htf haf hg
    have hipe := schedule_iterations Real.exp e
    have hfl : ⌊(schedule_in_epoch Real.exp e).radius⌋ ≤ 200 := by
      rw [← floor_first_radius]
      exact Int.floor_le_floor (schedule_radius_le_initial Real.exp e)
    obtain ⟨hlr0, hlr1⟩ := schedule_learning_rule_bounds e
    have hpos : (0 : Int) ≤ 300 * 2 ^ e := by positivity
    obtain ⟨st1, hrun, hit, hsteps, _, _, _⟩ := training_loop_run W H info
      (schedule_in_epoch Real.exp e) (inputs (e : Int)) hN hD hinfo
      (schedule_radius_ge_one Real.exp e) (by omega) (by omega)
      hlr0 (by linarith) (hkey _) (hclose _) (300 * 2 ^ e)
      ⟨st.map, st.bmu, 0, st.selected_component_index, st.training_finished,
        st.application_finished, st.steps⟩
      (by
        show ((schedule_in_epoch Real.exp e).iterations_per_epoch - 0).toNat = 300 * 2 ^ e
        rw [hipe, sub_zero]
        have : ((300 * 2 ^ e : Nat) : Int) = 300 * 2 ^ e := by push_cast; rfl
        rw [← this, Int.toNat_ofNat])
      (by
        show (0 : Int) ≤ (schedule_in_epoch Real.exp e).iterations_per_epoch
        rw [hipe]; exact hpos)
      htf haf hg
    exact ⟨st1, hrun, by rw [hit, hipe], hsteps⟩
  · obtain ⟨st1, hrun, hsteps, htf, haf, _⟩ := epoch_loop_run W H info inputs hW hH hN hD hinfo
      hkey hclose 8 0 ⟨initialize_som_map RAND_MAX rands, bmu, 0, 0, false, false, 0⟩
      rfl rfl rfl (initialize_som_map_bounded W H info.total_components RAND_MAX rands hrand)
    refine ⟨inference_block Real.sqrt W H info closes
      ((epoch_begin Real.exp)^[8] schedule_init, st1), ?_, ?_, ?_, ?_, ?_⟩
    · unfold main_program
      have h0 : (epoch_begin Real.exp)^[0] (schedule_init : Schedule ℝ) = schedule_init := rfl
      rw [h0] at hrun
      rw [hrun]
    · have h1 : (inference_block Real.sqrt W H info closes
          ((epoch_begin Real.exp)^[8] schedule_init, st1)).training = st1 := by
        unfold inference_block
        split_ifs <;> rfl
      rw [h1]
      have h2 : st1.steps + 300 * 2 ^ 0 = 0 + 300 * 2 ^ 8 := hsteps
      omega
    · have h1 : (inference_block Real.sqrt W H info closes
          ((epoch_begin Real.exp)^[8] schedule_init, st1)).schedule =
          (epoch_begin Real.exp)^[8] schedule_init := by
        unfold inference_block
        split_ifs <;> rfl
      rw [h1, schedule_iterate_epoch]
      rfl
    · have h1 : (inference_block Real.sqrt W H info closes
          ((epoch_begin Real.exp)^[8] schedule_init, st1)).training = st1 := by
        unfold inference_block
        split_ifs <;> rfl
      rw [h1]; exact htf
    · have h1 : (inference_block Real.sqrt W H info closes
          ((epoch_begin Real.exp)^[8] schedule_init, st1)).training = st1 := by
        unfold inference_block
        split_ifs <;> rfl
      rw [h1]; exact haf

/-- Witness of `iteration_schedule`: the 300 × 300 grid, a dataset of 4898 samples with 12
columns and every component 1/2, `rand()` always 0, no key and no window close: 76500
training iterations. -/
theorem iteration_schedule_witness :
    ∃ res, main_program Real.sqrt Real.exp MAP_WIDTH MAP_HEIGHT 2147483647
        (uniform_dataset (1 / 2) 12 4898) (fun _ _ _ => 0) ⟨0, 0⟩ (fun _ _ => idle_input)
        (fun _ => false) = Except.ok res ∧
      res.training.steps = 76500 ∧ res.schedule.epoch = TOTAL_EPOCHS ∧
      res.training.training_finished = false ∧ res.training.application_finished = false :=
  (iteration_schedule MAP_WIDTH MAP_HEIGHT 2147483647 (uniform_dataset (1 / 2) 12 4898)
    (fun _ _ _ => 0) ⟨0, 0⟩ (fun _ _ => idle_input) (fun _ => false)
    (by decide) (by decide) (fun _ _ _ => Nat.zero_le _) (by decide) (by decide)
    (fun _ _ _ _ _ => by simp only [uniform_dataset, uniform_sample]; norm_num)
    (fun _ _ => (by decide : idle_input.key_pressed ≠ 257)) (fun _ _ => rfl)).2.2

/-- C13: in an iteration in which ENTER is pressed, the pick, the BMU search and the
neighborhood update of that iteration are carried out in full on the entry grid (the key is
not read by them); the loop then stops with exactly one more training step, the grid of that
iteration and `training_finished` set.  From a state with `training_finished` set, neither
the inner loop nor the epoch loop executes a training step, whatever the schedule and the
counters are, and the inference block works on the grid of that state. -/
theorem training_stops_after_enter {K : Type} [LinearOrderedField K] [FloorRing K]
    (sqrt exp : K → K) (W H : Int) (info : DatasetInfo K) (sched : Schedule K)
    (inputs : Int → IterationInput) (st : TrainState K)
    (hcond : st.iteration < sched.iterations_per_epoch ∧ st.training_finished = false ∧
      st.application_finished = false)
    (hkey : (inputs st.iteration).key_pressed = 257) :
    training_loop sqrt exp W H info sched inputs st =
        (match pick_random_sample info (inputs st.iteration).rand with
        | Except.error f => Except.error f
        | Except.ok sample =>
          match training_iteration sqrt exp W H info.total_components (st.map, st.bmu)
              (sample, sched.radius, sched.learning_rule) with
          | none => Except.error Fault.out_of_grid
          | some grid_bmu =>
            Except.ok ⟨grid_bmu.1, grid_bmu.2, st.iteration + 1, st.selected_component_index,
              true, (inputs st.iteration).window_should_close, st.steps + 1⟩) ∧
      (∀ (sched1 : Schedule K) (inputs1 : Int → IterationInput)
          (inputs2 : Int → Int → IterationInput) (st1 : TrainState K),
        st1.training_finished = true →
        training_loop sqrt exp W H info sched1 inputs1 st1 = Except.ok st1 ∧
          epoch_loop sqrt exp W H info inputs2 sched1 st1 = Except.ok (sched1, st1)) ∧
      ∀ (closes : Int → Bool) (sched1 : Schedule K) (st1 : TrainState K),
        (inference_block sqrt W H info closes (sched1, st1)).map = st1.map ∧
          (st1.application_finished = false →
            (inference_block sqrt W H info closes (sched1, st1)).samples =
              (inference_loop sqrt W H st1.map info.total_components
                info.total_dataset_samples closes 0 (info.samples, st1.bmu)).1) := by
  have hstop : ∀ (sched1 : Schedule K) (inputs1 : Int → IterationInput)
      (inputs2 : Int → Int → IterationInput) (st1 : TrainState K),
      st1.training_finished = true →
      training_loop sqrt exp W H info sched1 inputs1 st1 = Except.ok st1 ∧
        epoch_loop sqrt exp W H info inputs2 sched1 st1 = Except.ok (sched1, st1) := by
    intro sched1 inputs1 inputs2 st1 h
    constructor
    · apply training_loop_exit
      rintro ⟨_, h1, _⟩
      rw [h] at h1
      exact absurd h1 (by decide)
    · apply epoch_loop_exit
      rintro ⟨_, h1, _⟩
      rw [h] at h1
      exact absurd h1 (by decide)
  refine ⟨?_, hstop, ?_⟩
  · cases hp : pick_random_sample info (inputs st.iteration).rand with
    | error f => exact training_loop_fault _ _ _ _ _ _ _ _ hcond f hp
    | ok sample =>
      cases ht : training_iteration sqrt exp W H info.total_components (st.map, st.bmu)
          (sample, sched.radius, sched.learning_rule) with
      | none =>
        rw [training_loop, if_pos hcond, hp]
        simp only [ht]
      | some grid_bmu =>
        rw [training_loop_step _ _ _ _ _ _ _ _ hcond sample grid_bmu hp ht]
        have hsel : (process_key_pressed (inputs st.iteration).key_pressed
            st.selected_component_index info.total_components st.training_finished).1 =
            st.selected_component_index := by
          rw [hkey]
          unfold process_key_pressed
          simp
        have htf : (process_key_pressed (inputs st.iteration).key_pressed
            st.selected_component_index info.total_components st.training_finished).2 =
            true := by
          rw [hkey]
          exact process_key_pressed_enter _ _ _
        have haf : (if (inputs st.iteration).window_should_close then true
            else st.application_finished) = (inputs st.iteration).window_should_close := by
          rw [hcond.2.2]
          cases (inputs st.iteration).window_should_close <;> rfl
        rw [hsel, htf, haf]
        simp only [ht]
        apply training_loop_exit
        rintro ⟨_, h1, _⟩
        cases h1
  · intro closes sched1 st1
    constructor
    · unfold inference_block
      split_ifs <;> rfl
    · intro h
      unfold inference_block
      rw [if_pos h]

/-- Witness of `training_stops_after_enter`: a 3 × 3 grid with every weight 1/4, one sample
with every component 1/2, radius 1, learning rate 1/2, ENTER pressed in the first iteration
of a pass of 300: the loop returns after that single training step, on the grid that the
step produced, with `training_finished` set. -/
theorem training_stops_after_enter_witness :
    training_loop Real.sqrt Real.exp 3 3 (uniform_dataset (1 / 2) 2 1) ⟨1, 1, 1 / 2, 300⟩
        (fun _ => ⟨0, 257, false⟩) ⟨uniform_grid (1 / 4), ⟨0, 0⟩, 0, 0, false, false, 0⟩ =
      Except.ok ⟨scale_neighbors_reference Real.exp 3 3 (uniform_grid (1 / 4))
          (search_bmu Real.sqrt 3 3 (uniform_grid (1 / 4)) (uniform_sample (1 / 2)) ⟨0, 0⟩ 2)
          (uniform_sample (1 / 2)) 1 (1 / 2) 2,
        search_bmu Real.sqrt 3 3 (uniform_grid (1 / 4)) (uniform_sample (1 / 2)) ⟨0, 0⟩ 2,
        0 + 1, 0, true, false, 0 + 1⟩ := by
  have h := (training_stops_after_enter Real.sqrt Real.exp 3 3 (uniform_dataset (1 / 2) 2 1)
    ⟨1, 1, 1 / 2, 300⟩ (fun _ => ⟨0, 257, false⟩)
    ⟨uniform_grid (1 / 4), ⟨0, 0⟩, 0, 0, false, false, 0⟩
    ⟨by decide, rfl, rfl⟩ rfl).1
  have hpick : pick_random_sample (uniform_dataset (1 / 2 : ℝ) 2 1) 0 =
      Except.ok (uniform_sample (1 / 2)) := rfl
  have hstep := (training_iteration_ok 3 3 2 (uniform_grid (1 / 4)) ⟨0, 0⟩
    (uniform_sample (1 / 2)) 1 (1 / 2) (by decide)
    (fun _ _ _ _ _ _ _ _ => by simp only [uniform_grid]; norm_num)
    (fun _ _ => by simp only [uniform_sample]; norm_num) (le_refl 1)
    (by rw [Int.floor_one]; decide) (by rw [Int.floor_one]; decide) (by norm_num)
    (by norm_num)).1
  simp only [hpick] at h
  simp only [uniform_dataset] at h hstep
  simp only [hstep] at h
  exact h

/-! ## The inference pass -/

section InferenceLemmas

variable {K : Type} [LinearOrderedField K]

end InferenceLemmas

section InferenceExample

end InferenceExample

section PowerLemmas

variable {K : Type} [LinearOrderedField K]

theorem two_zpow_pos (e : Int) : (0 : K) < 2 ^ e := zpow_pos (by norm_num) e

/-- A value `m * 2^ey` is an integer multiple of `2^e` when `e ≤ ey`. -/
theorem grid_div (m ey e : Int) (h : e ≤ ey) :
    (m : K) * 2 ^ ey / 2 ^ e = ((m * 2 ^ (ey - e).toNat : Int) : K) := by
  have h2 : (2 : K) ≠ 0 := by norm_num
  rw [mul_div_assoc, ← zpow_sub₀ h2]
  have h3 : ey - e = ((ey - e).toNat : Int) := by omega
  rw [h3, zpow_natCast]
  push_cast
  rw [← h3]

theorem abs_grid_lt (m ey : Int) (hm : |m| < 2 ^ 53) :
    |(m : K) * 2 ^ ey| < 2 ^ (ey + 53) := by
  have h2 : (2 : K) ≠ 0 := by norm_num
  rw [abs_mul, abs_of_pos (two_zpow_pos (K := K) ey), zpow_add₀ h2, mul_comm ((2 : K) ^ ey)]
  apply mul_lt_mul_of_pos_right _ (two_zpow_pos ey)
  have : ((|m| : Int) : K) < ((2 ^ 53 : Int) : K) := Int.cast_lt.mpr hm
  rw [Int.cast_abs] at this
  rw [zpow_ofNat]
  exact_mod_cast this

end PowerLemmas

section RoundingLemmas

variable {K : Type} [LinearOrderedField K] [FloorRing K]

theorem round_half_even_cases (x : K) :
    round_half_even x = ⌊x⌋ ∨ (round_half_even x = ⌊x⌋ + 1 ∧ 1 / 2 ≤ x - (⌊x⌋ : K)) := by
  unfold round_half_even
  split_ifs with h1 h2 h3
  · exact Or.inl rfl
  · exact Or.inr ⟨rfl, le_of_lt h2⟩
  · exact Or.inl rfl
  · exact Or.inr ⟨rfl, not_lt.mp h1⟩

theorem round_half_even_le (x : K) (k : Int) (h : x ≤ (k : K)) : round_half_even x ≤ k := by
  have hfl : ⌊x⌋ ≤ k := by
    have := Int.floor_le x
    exact_mod_cast le_trans this h
  rcases round_half_even_cases x with h1 | ⟨h1, h2⟩
  · rw [h1]; exact hfl
  · rw [h1]
    by_contra hc
    have hk : ⌊x⌋ = k := by omega
    rw [hk] at h2
    linarith

theorem round_half_even_ge (x : K) (k : Int) (h : (k : K) ≤ x) : k ≤ round_half_even x := by
  have hfl : k ≤ ⌊x⌋ := Int.le_floor.mpr h
  rcases round_half_even_cases x with h1 | ⟨h1, _⟩
  · rw [h1]; exact hfl
  · rw [h1]; omega

theorem round_half_even_intCast (k : Int) : round_half_even (k : K) = k :=
  le_antisymm (round_half_even_le _ k (le_refl _)) (round_half_even_ge _ k (le_refl _))

theorem round_half_even_eq_of_abs_lt (x : K) (n : Int) (h : |x - (n : K)| < 1 / 2) :
    round_half_even x = n := by
  rw [abs_lt] at h
  obtain ⟨h1, h2⟩ := h
  have hfl := Int.floor_le x
  have hfl2 := Int.lt_floor_add_one x
  unfold round_half_even
  split_ifs with c1 c2 c3
  · have a1 : (n : K) < (⌊x⌋ : K) + 1 := by linarith
    have a2 : (⌊x⌋ : K) < (n : K) + 1 := by linarith
    have a3 : n < ⌊x⌋ + 1 := by exact_mod_cast a1
    have a4 : ⌊x⌋ < n + 1 := by exact_mod_cast a2
    omega
  · have a1 : (⌊x⌋ : K) < (n : K) := by linarith
    have a2 : (n : K) < (⌊x⌋ : K) + 1 + 1 := by linarith
    have a3 : ⌊x⌋ < n := by exact_mod_cast a1
    have a4 : n < ⌊x⌋ + 1 + 1 := by exact_mod_cast a2
    omega
  · exfalso
    have e : x - (⌊x⌋ : K) = 1 / 2 := le_antisymm (not_lt.mp c2) (not_lt.mp c1)
    have a1 : (⌊x⌋ : K) < (n : K) := by linarith
    have a2 : (n : K) < (⌊x⌋ : K) + 1 := by linarith
    have a3 : ⌊x⌋ < n := by exact_mod_cast a1
    have a4 : n < ⌊x⌋ + 1 := by exact_mod_cast a2
    omega
  · exfalso
    have e : x - (⌊x⌋ : K) = 1 / 2 := le_antisymm (not_lt.mp c2) (not_lt.mp c1)
    have a1 : (⌊x⌋ : K) < (n : K) := by linarith
    have a2 : (n : K) < (⌊x⌋ : K) + 1 := by linarith
    have a3 : ⌊x⌋ < n := by exact_mod_cast a1
    have a4 : n < ⌊x⌋ + 1 := by exact_mod_cast a2
    omega

/-- Above the subnormal range, `2^(e+52) ≤ |x|` for the ulp exponent `e` of `x ≠ 0`. -/
theorem le_abs_of_ulp_exponent (x : K) (hx : x ≠ 0) (h : -1074 < ulp_exponent x) :
    2 ^ (ulp_exponent x + 52) ≤ |x| := by
  have hlog : ulp_exponent x + 52 = Int.log 2 |x| := by
    unfold ulp_exponent at h ⊢
    rcases max_cases (Int.log 2 |x|) (-1022) with ⟨h1, _⟩ | ⟨h1, _⟩
    · rw [h1]; omega
    · rw [h1] at h; omega
  rw [hlog]
  have := Int.zpow_log_le_self (by norm_num : 1 < 2) (abs_pos.mpr hx)
  exact_mod_cast this

theorem round_binary64_zero : round_binary64 (0 : K) = 0 := by
  unfold round_binary64
  rw [zero_div]
  have : round_half_even (0 : K) = 0 := by
    have := round_half_even_intCast (K := K) 0
    simpa using this
  rw [this]
  simp

/-- Rounding to binary64 does not cross a binary64 value from below. -/
theorem round_binary64_le (x : K) (m ey : Int) (hm : |m| < 2 ^ 53) (hey : -1074 ≤ ey)
    (h : x ≤ (m : K) * 2 ^ ey) : round_binary64 x ≤ (m : K) * 2 ^ ey := by
  have h2 : (2 : K) ≠ 0 := by norm_num
  by_cases hx : x = 0
  · rw [hx, round_binary64_zero]
    rw [hx] at h
    exact h
  unfold round_binary64
  have hu := two_zpow_pos (K := K) (ulp_exponent x)
  by_cases he : ulp_exponent x ≤ ey
  · have hdiv := grid_div (K := K) m ey (ulp_exponent x) he
    have hle : x / 2 ^ ulp_exponent x ≤ ((m * 2 ^ (ey - ulp_exponent x).toNat : Int) : K) := by
      rw [← hdiv]
      exact div_le_div_of_nonneg_right h (le_of_lt hu)
    have hr := round_half_even_le _ _ hle
    have hr2 : ((round_half_even (x / 2 ^ ulp_exponent x) : Int) : K) ≤
        ((m * 2 ^ (ey - ulp_exponent x).toNat : Int) : K) := Int.cast_le.mpr hr
    calc ((round_half_even (x / 2 ^ ulp_exponent x) : Int) : K) * 2 ^ ulp_exponent x
        ≤ ((m * 2 ^ (ey - ulp_exponent x).toNat : Int) : K) * 2 ^ ulp_exponent x :=
          mul_le_mul_of_nonneg_right hr2 (le_of_lt hu)
      _ = (m : K) * 2 ^ ey := by rw [← hdiv, div_mul_cancel₀ _ (ne_of_gt hu)]
  · have he1 : ey + 53 ≤ ulp_exponent x + 52 := by omega
    have hylt := abs_grid_lt (K := K) m ey hm
    have hxge := le_abs_of_ulp_exponent x hx (by omega)
    have hyx : |(m : K) * 2 ^ ey| < |x| :=
      lt_of_lt_of_le (lt_of_lt_of_le hylt (zpow_le_zpow_right₀ (by norm_num) he1)) hxge
    have hxneg : x < 0 := by
      by_contra hc
      rw [abs_of_nonneg (not_lt.mp hc)] at hyx
      exact absurd (lt_of_le_of_lt h (lt_of_le_of_lt (le_abs_self _) hyx)) (lt_irrefl _)
    rw [abs_of_neg hxneg] at hxge
    have hle : x / 2 ^ ulp_exponent x ≤ (((-2 ^ 52 : Int)) : K) := by
      rw [div_le_iff₀ hu]
      push_cast
      have e1 : (2 : K) ^ (ulp_exponent x + 52) = 2 ^ 52 * 2 ^ ulp_exponent x := by
        rw [zpow_add₀ h2, mul_comm, zpow_ofNat]
      rw [e1] at hxge
      linarith
    have hr := round_half_even_le _ _ hle
    have hr2 : ((round_half_even (x / 2 ^ ulp_exponent x) : Int) : K) ≤ ((-2 ^ 52 : Int) : K) :=
      Int.cast_le.mpr hr
    have hb : ((round_half_even (x / 2 ^ ulp_exponent x) : Int) : K) * 2 ^ ulp_exponent x ≤
        ((-2 ^ 52 : Int) : K) * 2 ^ ulp_exponent x :=
      mul_le_mul_of_nonneg_right hr2 (le_of_lt hu)
    have e2 : ((-2 ^ 52 : Int) : K) * 2 ^ ulp_exponent x = -(2 : K) ^ (ulp_exponent x + 52) := by
      rw [zpow_add₀ h2, zpow_ofNat]
      push_cast
      ring
    rw [e2] at hb
    have hy1 : -|(m : K) * 2 ^ ey| ≤ (m : K) * 2 ^ ey := neg_abs_le _
    have hy2 := lt_of_lt_of_le hylt (zpow_le_zpow_right₀ (by norm_num : (1 : K) ≤ 2) he1)
    linarith

/-- Rounding to binary64 does not cross a binary64 value from above. -/
theorem le_round_binary64 (x : K) (m ey : Int) (hm : |m| < 2 ^ 53) (hey : -1074 ≤ ey)
    (h : (m : K) * 2 ^ ey ≤ x) : (m : K) * 2 ^ ey ≤ round_binary64 x := by
  have h2 : (2 : K) ≠ 0 := by norm_num
  by_cases hx : x = 0
  · rw [hx, round_binary64_zero]
    rw [hx] at h
    exact h
  unfold round_binary64
  have hu := two_zpow_pos (K := K) (ulp_exponent x)
  by_cases he : ulp_exponent x ≤ ey
  · have hdiv := grid_div (K := K) m ey (ulp_exponent x) he
    have hle : ((m * 2 ^ (ey - ulp_exponent x).toNat : Int) : K) ≤ x / 2 ^ ulp_exponent x := by
      rw [← hdiv]
      exact div_le_div_of_nonneg_right h (le_of_lt hu)
    have hr := round_half_even_ge _ _ hle
    have hr2 : ((m * 2 ^ (ey - ulp_exponent x).toNat : Int) : K) ≤
        ((round_half_even (x / 2 ^ ulp_exponent x) : Int) : K) := Int.cast_le.mpr hr
    calc (m : K) * 2 ^ ey
        = ((m * 2 ^ (ey - ulp_exponent x).toNat : Int) : K) * 2 ^ ulp_exponent x := by
          rw [← hdiv, div_mul_cancel₀ _ (ne_of_gt hu)]
      _ ≤ ((round_half_even (x / 2 ^ ulp_exponent x) : Int) : K) * 2 ^ ulp_exponent x :=
          mul_le_mul_of_nonneg_right hr2 (le_of_lt hu)
  · have he1 : ey + 53 ≤ ulp_exponent x + 52 := by omega
    have hylt := abs_grid_lt (K := K) m ey hm
    have hxge := le_abs_of_ulp_exponent x hx (by omega)
    have hyx : |(m : K) * 2 ^ ey| < |x| :=
      lt_of_lt_of_le (lt_of_lt_of_le hylt (zpow_le_zpow_right₀ (by norm_num) he1)) hxge
    have hxpos : 0 < x := by
      by_contra hc
      rw [abs_of_nonpos (not_lt.mp hc)] at hyx
      have := neg_abs_le ((m : K) * 2 ^ ey)
      linarith
    rw [abs_of_pos hxpos] at hxge
    have hle : (((2 ^ 52 : Int)) : K) ≤ x / 2 ^ ulp_exponent x := by
      rw [le_div_iff₀ hu]
      push_cast
      have e1 : (2 : K) ^ (ulp_exponent x + 52) = 2 ^ 52 * 2 ^ ulp_exponent x := by
        rw [zpow_add₀ h2, mul_comm, zpow_ofNat]
      rw [e1] at hxge
      linarith
    have hr := round_half_even_ge _ _ hle
    have hr2 : ((2 ^ 52 : Int) : K) ≤ ((round_half_even (x / 2 ^ ulp_exponent x) : Int) : K) :=
      Int.cast_le.mpr hr
    have hb : ((2 ^ 52 : Int) : K) * 2 ^ ulp_exponent x ≤
        ((round_half_even (x / 2 ^ ulp_exponent x) : Int) : K) * 2 ^ ulp_exponent x :=
      mul_le_mul_of_nonneg_right hr2 (le_of_lt hu)
    have e2 : ((2 ^ 52 : Int) : K) * 2 ^ ulp_exponent x = (2 : K) ^ (ulp_exponent x + 52) := by
      rw [zpow_add₀ h2, zpow_ofNat]
      push_cast
      ring
    rw [e2] at hb
    have hy1 : (m : K) * 2 ^ ey ≤ |(m : K) * 2 ^ ey| := le_abs_self _
    have hy2 := lt_of_lt_of_le hylt (zpow_le_zpow_right₀ (by norm_num : (1 : K) ≤ 2) he1)
    linarith

/-- A binary64 value is left unchanged by the rounding. -/
theorem round_binary64_exact (m ey : Int) (hm : |m| < 2 ^ 53) (hey : -1074 ≤ ey) :
    round_binary64 ((m : K) * 2 ^ ey) = (m : K) * 2 ^ ey :=
  le_antisymm (round_binary64_le _ m ey hm hey (le_refl _))
    (le_round_binary64 _ m ey hm hey (le_refl _))

theorem log_two_eq (x : K) (L : Int) (h1 : 2 ^ L ≤ x) (h2 : x < 2 ^ (L + 1)) :
    Int.log 2 x = L := by
  have hx : 0 < x := lt_of_lt_of_le (two_zpow_pos L) h1
  have a1 : L ≤ Int.log 2 x := by
    rw [← Int.zpow_le_iff_le_log (by norm_num) hx]
    exact_mod_cast h1
  have a2 : Int.log 2 x < L + 1 := by
    rw [← Int.lt_zpow_iff_log_lt (by norm_num) hx]
    exact_mod_cast h2
  omega

/-- Evaluation of the rounding: in the binade `[2^L, 2^(L+1))`, `L ≥ -1022`, the result is the
multiple `n * 2^(L-52)` nearest to `x`. -/
theorem round_binary64_eq (x : K) (L n : Int) (hL : -1022 ≤ L) (h1 : 2 ^ L ≤ |x|)
    (h2 : |x| < 2 ^ (L + 1)) (hn : |x / 2 ^ (L - 52) - (n : K)| < 1 / 2) :
    round_binary64 x = (n : K) * 2 ^ (L - 52) := by
  have he : ulp_exponent x = L - 52 := by
    unfold ulp_exponent
    rw [log_two_eq |x| L h1 h2, max_eq_left hL]
  unfold round_binary64
  rw [he, round_half_even_eq_of_abs_lt _ n hn]

end RoundingLemmas

/-! ## Binary64 distance -/

section Binary64Lemmas

variable {K : Type} [LinearOrderedField K] [FloorRing K]

/-- An exact result between two integers below `2^53` in magnitude is rounded to a finite
value between the same two integers. -/
theorem double_round_of_bounds (x : K) (a b : Int) (ha : |a| < 2 ^ 53) (hb : |b| < 2 ^ 53)
    (h1 : (a : K) ≤ x) (h2 : x ≤ (b : K)) :
    Double.round x = Double.finite (round_binary64 x) ∧
      (a : K) ≤ round_binary64 x ∧ round_binary64 x ≤ (b : K) := by
  have l1 : (a : K) ≤ round_binary64 x := by
    have := le_round_binary64 x a 0 ha (by norm_num) (by rw [zpow_zero, mul_one]; exact h1)
    rw [zpow_zero, mul_one] at this
    exact this
  have l2 : round_binary64 x ≤ (b : K) := by
    have := round_binary64_le x b 0 hb (by norm_num) (by rw [zpow_zero, mul_one]; exact h2)
    rw [zpow_zero, mul_one] at this
    exact this
  refine ⟨?_, l1, l2⟩
  unfold Double.round
  rw [if_neg]
  rw [not_le, abs_lt]
  rw [abs_lt] at ha hb
  have ha1 : ((-2 ^ 53 : Int) : K) < (a : K) := Int.cast_lt.mpr ha.1
  have hb1 : (b : K) < ((2 ^ 53 : Int) : K) := Int.cast_lt.mpr hb.2
  push_cast at ha1 hb1
  have big : (2 : K) ^ 53 ≤ 2 ^ 1024 := pow_le_pow_right₀ (by norm_num) (by norm_num)
  constructor <;> linarith

theorem double_round_zero : Double.round (0 : K) = Double.finite 0 := by
  have h := (double_round_of_bounds (0 : K) 0 0 (by norm_num) (by norm_num) (by simp)
    (by simp)).1
  rw [round_binary64_zero] at h
  exact h

/-- With components and weights in `[0,1]`, the sum of the rounded squares computed by
`distance_between_sample_and_neuron` over the first `n` features is finite and in `[0,n]`. -/
theorem binary64_sum_bounds (sample : Sample (Double K)) (neuron : Neuron (Double K)) (n : Nat)
    (hn : (n : Int) < 2 ^ 53)
    (hs : ∀ i : Nat, i < n → ∃ c : K, sample.components i = Double.finite c ∧ 0 ≤ c ∧ c ≤ 1)
    (hw : ∀ i : Nat, i < n → ∃ w : K, neuron.weights i = Double.finite w ∧ 0 ≤ w ∧ w ≤ 1) :
    ∃ A : K, (List.range n).foldl (fun euclidean_distance i =>
        Double.add euclidean_distance
          (Binary64.pow2 (Double.sub (sample.components i) (neuron.weights i))))
        (Double.finite 0) = Double.finite A ∧ 0 ≤ A ∧ A ≤ (n : K) := by
  induction n with
  | zero => exact ⟨0, rfl, le_refl 0, by simp⟩
  | succ n ih =>
    obtain ⟨A, hA, hA0, hA1⟩ := ih (by omega) (fun i hi => hs i (by omega))
      (fun i hi => hw i (by omega))
    obtain ⟨c, hc, hc0, hc1⟩ := hs n (by omega)
    obtain ⟨w, hwn, hw0, hw1⟩ := hw n (by omega)
    rw [List.range_succ, List.foldl_append, hA, List.foldl_cons, List.foldl_nil, hc, hwn]
    have e1 : Double.sub (Double.finite c) (Double.finite w) = Double.round (c + -w) := rfl
    obtain ⟨r1, r2, r3⟩ := double_round_of_bounds (c + -w) (-1) 1 (by norm_num) (by norm_num)
      (by push_cast; linarith) (by push_cast; linarith)
    push_cast at r2 r3
    rw [e1, r1]
    have e2 : Binary64.pow2 (Double.finite (round_binary64 (c + -w))) =
        Double.round (round_binary64 (c + -w) * round_binary64 (c + -w)) := rfl
    obtain ⟨s1, s2, s3⟩ := double_round_of_bounds
      (round_binary64 (c + -w) * round_binary64 (c + -w)) 0 1 (by norm_num) (by norm_num)
      (by push_cast; exact mul_self_nonneg _) (by push_cast; nlinarith)
    push_cast at s2 s3
    rw [e2, s1]
    have e3 : Double.add (Double.finite A) (Double.finite (round_binary64
        (round_binary64 (c + -w) * round_binary64 (c + -w)))) =
        Double.round (A + round_binary64 (round_binary64 (c + -w) *
          round_binary64 (c + -w))) := rfl
    obtain ⟨t1, t2, t3⟩ := double_round_of_bounds
      (A + round_binary64 (round_binary64 (c + -w) * round_binary64 (c + -w))) 0 ((n : Int) + 1)
      (by norm_num) (by rw [abs_lt]; constructor <;> omega)
      (by push_cast; linarith) (by push_cast; linarith)
    push_cast at t2 t3
    rw [e3, t1]
    refine ⟨_, rfl, t2, ?_⟩
    push_cast
    exact t3

/-- When the weights equal the components, the sum of the rounded squares is `0`. -/
theorem binary64_sum_zero (sample : Sample (Double K)) (neuron : Neuron (Double K)) (n : Nat)
    (h : ∀ i : Nat, i < n → ∃ c : K, sample.components i = Double.finite c ∧
      neuron.weights i = Double.finite c) :
    (List.range n).foldl (fun euclidean_distance i =>
        Double.add euclidean_distance
          (Binary64.pow2 (Double.sub (sample.components i) (neuron.weights i))))
        (Double.finite 0) = Double.finite 0 := by
  induction n with
  | zero => rfl
  | succ n ih =>
    obtain ⟨c, hc, hwn⟩ := h n (by omega)
    rw [List.range_succ, List.foldl_append, ih (fun i hi => h i (by omega)), List.foldl_cons,
      List.foldl_nil, hc, hwn]
    have e1 : Double.sub (Double.finite c) (Double.finite c) = Double.round (c + -c) := rfl
    rw [e1, add_neg_cancel, double_round_zero]
    have e2 : Binary64.pow2 (Double.finite (0 : K)) = Double.round ((0 : K) * 0) := rfl
    rw [e2, mul_zero, double_round_zero]
    have e3 : Double.add (Double.finite (0 : K)) (Double.finite 0) =
        Double.round ((0 : K) + 0) := rfl
    rw [e3, add_zero, double_round_zero]

theorem double_sqrt_finite (sqrt : K → K) (a : K) (h : ¬ a < 0) :
    Double.sqrt sqrt (Double.finite a) = Double.finite (round_binary64 (sqrt a)) := by
  show (if a < 0 then Double.nan else Double.finite (sqrt_binary64 sqrt a)) = _
  rw [if_neg h]
  rfl

end Binary64Lemmas

/-- With components and weights in `[0,1]`, the distance computed in binary64 is a finite
value in `[0, 2^27]`, below `DBL_MAX`. -/
theorem binary64_distance_bounds (sample : Sample (Double ℝ)) (neuron : Neuron (Double ℝ))
    (total_components : Int) (hD : total_components ≤ INT_MAX)
    (hs : ∀ i : Nat, (i : Int) < total_components - 1 →
      ∃ c : ℝ, sample.components i = Double.finite c ∧ 0 ≤ c ∧ c ≤ 1)
    (hw : ∀ i : Nat, (i : Int) < total_components - 1 →
      ∃ w : ℝ, neuron.weights i = Double.finite w ∧ 0 ≤ w ∧ w ≤ 1) :
    ∃ d : ℝ, Binary64.distance_between_sample_and_neuron Real.sqrt sample neuron
        total_components = Double.finite d ∧ 0 ≤ d ∧ d < DBL_MAX := by
  have hn : (((total_components - 1).toNat : Nat) : Int) < 2 ^ 53 := by
    unfold INT_MAX at hD
    omega
  obtain ⟨A, hA, hA0, hA1⟩ := binary64_sum_bounds sample neuron (total_components - 1).toNat hn
    (fun i hi => hs i (by omega)) (fun i hi => hw i (by omega))
  unfold Binary64.distance_between_sample_and_neuron
  rw [hA]
  have hlt : ¬ A < 0 := not_lt.mpr hA0
  rw [double_sqrt_finite Real.sqrt A hlt]
  have hA2 : A ≤ 2 ^ 53 := by
    have : (((total_components - 1).toNat : Nat) : ℝ) ≤ 2 ^ 53 := by exact_mod_cast le_of_lt hn
    linarith
  have hsq : Real.sqrt A ≤ 2 ^ 27 := by
    rw [Real.sqrt_le_left (by norm_num)]
    refine le_trans hA2 ?_
    norm_num
  obtain ⟨_, r2, r3⟩ := double_round_of_bounds (Real.sqrt A) 0 (2 ^ 27) (by norm_num)
    (by norm_num) (by push_cast; exact Real.sqrt_nonneg A) (by push_cast; linarith)
  push_cast at r2 r3
  refine ⟨_, rfl, r2, lt_of_le_of_lt r3 ?_⟩
  unfold DBL_MAX
  norm_num

/-- When the weights of the neuron equal the components of the sample, the distance computed
in binary64 is `0`. -/
theorem binary64_distance_zero (sample : Sample (Double ℝ)) (neuron : Neuron (Double ℝ))
    (total_components : Int)
    (h : ∀ i : Nat, (i : Int) < total_components - 1 →
      ∃ c : ℝ, sample.components i = Double.finite c ∧ neuron.weights i = Double.finite c) :
    Binary64.distance_between_sample_and_neuron Real.sqrt sample neuron total_components =
      Double.finite 0 := by
  unfold Binary64.distance_between_sample_and_neuron
  rw [binary64_sum_zero sample neuron (total_components - 1).toNat (fun i hi => h i (by omega))]
  rw [double_sqrt_finite Real.sqrt 0 (lt_irrefl 0), Real.sqrt_zero, round_binary64_zero]

/-! ## Best matching unit search in binary64 -/

section Binary64Scan

variable {K : Type} [LinearOrderedField K] {α β : Type}

/-- A scan `if d c < min then (best, min) := (mk c, d c)` whose keys are all finite `double`
values is the scan over their values. -/
theorem scan_finite (d : α → Double K) (dq : α → K) (mk : α → β) (l : List α) (b : β) (m : K)
    (h : ∀ c ∈ l, d c = Double.finite (dq c)) :
    l.foldl (fun st c => if Double.lt (d c) st.2 then (mk c, d c) else st)
        (b, Double.finite m) =
      ((l.foldl (fun st c => if dq c < st.2 then (mk c, dq c) else st) (b, m)).1,
        Double.finite
          (l.foldl (fun st c => if dq c < st.2 then (mk c, dq c) else st) (b, m)).2) := by
  induction l generalizing b m with
  | nil => rfl
  | cons a l ih =>
    have ha := h a (List.mem_cons_self a l)
    have hl : ∀ c ∈ l, d c = Double.finite (dq c) :=
      fun c hc => h c (List.mem_cons_of_mem a hc)
    rw [List.foldl_cons, List.foldl_cons]
    have hlt : Double.lt (d a) (Double.finite m) = decide (dq a < m) := by
      rw [ha]
      rfl
    by_cases hc : dq a < m
    · have h1 : Double.lt (d a) (Double.finite m) = true := by rw [hlt]; exact decide_eq_true hc
      simp only [h1, hc, if_true]
      rw [ha]
      exact ih (mk a) (dq a) hl
    · have h1 : ¬ (Double.lt (d a) (Double.finite m) = true) := by
        rw [hlt]
        simp only [decide_eq_true_eq]
        exact hc
      simp only [h1, hc, if_false]
      exact ih b m hl

/-- The best element after a scan is the initial one or one of the scanned elements. -/
theorem scan_result_mem (d : α → Double K) (mk : α → β) (l : List α) (b : β) (m : Double K) :
    (l.foldl (fun st c => if Double.lt (d c) st.2 then (mk c, d c) else st) (b, m)).1 = b ∨
      ∃ c ∈ l,
        (l.foldl (fun st c => if Double.lt (d c) st.2 then (mk c, d c) else st) (b, m)).1 =
          mk c := by
  induction l generalizing b m with
  | nil => exact Or.inl rfl
  | cons a l ih =>
    rw [List.foldl_cons]
    by_cases hc : Double.lt (d a) m = true
    · simp only [hc, if_true]
      rcases ih (mk a) (d a) with h | ⟨c, hc1, h⟩
      · exact Or.inr ⟨a, List.mem_cons_self a l, h⟩
      · exact Or.inr ⟨c, List.mem_cons_of_mem a hc1, h⟩
    · simp only [hc, if_false]
      rcases ih b m with h | ⟨c, hc1, h⟩
      · exact Or.inl h
      · exact Or.inr ⟨c, List.mem_cons_of_mem a hc1, h⟩

/-- When some key compares below the initial bound, the best element after the scan is one of
the scanned elements. -/
theorem scan_assigned (d : α → Double K) (mk : α → β) (l : List α) (b : β) (m : Double K)
    (h : ∃ c ∈ l, Double.lt (d c) m = true) :
    ∃ c ∈ l,
      (l.foldl (fun st c => if Double.lt (d c) st.2 then (mk c, d c) else st) (b, m)).1 =
        mk c := by
  induction l generalizing b m with
  | nil =>
    obtain ⟨c, hc, _⟩ := h
    exact absurd hc (List.not_mem_nil c)
  | cons a l ih =>
    rw [List.foldl_cons]
    by_cases hc : Double.lt (d a) m = true
    · simp only [hc, if_true]
      rcases scan_result_mem d mk l (mk a) (d a) with h1 | ⟨c, hc1, h1⟩
      · exact ⟨a, List.mem_cons_self a l, h1⟩
      · exact ⟨c, List.mem_cons_of_mem a hc1, h1⟩
    · simp only [hc, if_false]
      obtain ⟨c, hc1, hc2⟩ := h
      rcases List.mem_cons.mp hc1 with rfl | hin
      · exact absurd hc2 hc
      · obtain ⟨c1, hc3, hc4⟩ := ih b m ⟨c, hin, hc2⟩
        exact ⟨c1, List.mem_cons_of_mem a hc3, hc4⟩

/-- When no key compares below the initial bound, the scan leaves the state untouched. -/
theorem scan_unassigned (d : α → Double K) (mk : α → β) (l : List α) (b : β) (m : Double K)
    (h : ∀ c ∈ l, Double.lt (d c) m = false) :
    l.foldl (fun st c => if Double.lt (d c) st.2 then (mk c, d c) else st) (b, m) = (b, m) := by
  induction l with
  | nil => rfl
  | cons a l ih =>
    rw [List.foldl_cons]
    have ha := h a (List.mem_cons_self a l)
    simp only [ha, Bool.false_eq_true, if_false]
    exact ih (fun c hc => h c (List.mem_cons_of_mem a hc))

end Binary64Scan

section Binary64Search

variable {K : Type} [LinearOrderedField K] [FloorRing K]

theorem binary64_search_bmu_loop_eq_scan (sqrt : K → K) (W H : Int) (map : Grid (Double K))
    (sample : Sample (Double K)) (total_components : Int) (init : BMU × Double K) :
    Binary64.search_bmu_loop sqrt W H map sample total_components init =
      ((int_range 0 W).flatMap (fun x => (int_range 0 H).map (fun y => (x, y)))).foldl
        (fun st c =>
          if Double.lt (Binary64.distance_between_sample_and_neuron sqrt sample
            (map c.1 c.2) total_components) st.2
          then ((⟨c.1, c.2⟩ : BMU),
            Binary64.distance_between_sample_and_neuron sqrt sample (map c.1 c.2)
              total_components)
          else st) init := by
  unfold Binary64.search_bmu_loop
  rw [foldl_flatMap_eq]
  congr 1
  funext st x
  rw [List.foldl_map]

/-- When the distance computed for some neuron compares below `DBL_MAX`, `search_bmu` stores
the coordinate of a cell of the grid. -/
theorem binary64_search_bmu_assigned (sqrt : K → K) (W H : Int) (map : Grid (Double K))
    (sample : Sample (Double K)) (bmu : BMU) (total_components : Int)
    (h : ∃ x y : Int, 0 ≤ x ∧ x < W ∧ 0 ≤ y ∧ y < H ∧
      Double.lt (Binary64.distance_between_sample_and_neuron sqrt sample (map x y)
        total_components) (Double.finite DBL_MAX) = true) :
    (0 ≤ (Binary64.search_bmu sqrt W H map sample bmu total_components).x_coord ∧
        (Binary64.search_bmu sqrt W H map sample bmu total_components).x_coord < W) ∧
      (0 ≤ (Binary64.search_bmu sqrt W H map sample bmu total_components).y_coord ∧
        (Binary64.search_bmu sqrt W H map sample bmu total_components).y_coord < H) := by
  obtain ⟨x0, y0, hx0, hx1, hy0, hy1, hlt⟩ := h
  unfold Binary64.search_bmu
  rw [binary64_search_bmu_loop_eq_scan]
  obtain ⟨c, hc, heq⟩ := scan_assigned
    (fun c : Int × Int =>
      Binary64.distance_between_sample_and_neuron sqrt sample (map c.1 c.2) total_components)
    (fun c : Int × Int => (⟨c.1, c.2⟩ : BMU))
    ((int_range 0 W).flatMap (fun x => (int_range 0 H).map (fun y => (x, y)))) bmu
    (Double.finite DBL_MAX)
    ⟨(x0, y0), (mem_cells W H (x0, y0)).mpr ⟨⟨hx0, hx1⟩, hy0, hy1⟩, hlt⟩
  rw [heq]
  exact (mem_cells W H c).mp hc

/-- When no computed distance compares below `DBL_MAX`, `search_bmu` leaves `*bmu` as it
was. -/
theorem binary64_search_bmu_unassigned (sqrt : K → K) (W H : Int) (map : Grid (Double K))
    (sample : Sample (Double K)) (bmu : BMU) (total_components : Int)
    (h : ∀ x y : Int, 0 ≤ x → x < W → 0 ≤ y → y < H →
      Double.lt (Binary64.distance_between_sample_and_neuron sqrt sample (map x y)
        total_components) (Double.finite DBL_MAX) = false) :
    Binary64.search_bmu sqrt W H map sample bmu total_components = bmu := by
  unfold Binary64.search_bmu
  rw [binary64_search_bmu_loop_eq_scan, scan_unassigned]
  intro c hc
  have hcr := (mem_cells W H c).mp hc
  exact h c.1 c.2 hcr.1.1 hcr.1.2 hcr.2.1 hcr.2.2

/-- When every computed distance is finite and one of them is below `DBL_MAX`, `search_bmu`
stores the first cell, in scan order, among those whose computed distance is least. -/
theorem binary64_search_bmu_first_min (sqrt : K → K) (W H : Int) (map : Grid (Double K))
    (sample : Sample (Double K)) (bmu : BMU) (total_components : Int) (dq : Int → Int → K)
    (hfin : ∀ x y : Int, 0 ≤ x → x < W → 0 ≤ y → y < H →
      Binary64.distance_between_sample_and_neuron sqrt sample (map x y) total_components =
        Double.finite (dq x y))
    (hlt : ∃ x y : Int, 0 ≤ x ∧ x < W ∧ 0 ≤ y ∧ y < H ∧ dq x y < DBL_MAX) :
    ∃ bx bY : Int, (0 ≤ bx ∧ bx < W) ∧ (0 ≤ bY ∧ bY < H) ∧
      Binary64.search_bmu sqrt W H map sample bmu total_components = ⟨bx, bY⟩ ∧
      ∀ x y : Int, 0 ≤ x → x < W → 0 ≤ y → y < H →
        dq bx bY ≤ dq x y ∧ (dq x y = dq bx bY → bx < x ∨ (bx = x ∧ bY ≤ y)) := by
  obtain ⟨x0, y0, hx0, hx1, hy0, hy1, hlt0⟩ := hlt
  unfold Binary64.search_bmu
  rw [binary64_search_bmu_loop_eq_scan]
  rw [scan_finite
    (fun c : Int × Int =>
      Binary64.distance_between_sample_and_neuron sqrt sample (map c.1 c.2) total_components)
    (fun c : Int × Int => dq c.1 c.2)
    (fun c : Int × Int => (⟨c.1, c.2⟩ : BMU)) _ bmu DBL_MAX
    (fun c hc => by
      have hcr := (mem_cells W H c).mp hc
      exact hfin c.1 c.2 hcr.1.1 hcr.1.2 hcr.2.1 hcr.2.2)]
  rcases scan_first_min (fun c : Int × Int => dq c.1 c.2)
      (fun c : Int × Int => (⟨c.1, c.2⟩ : BMU))
      ((int_range 0 W).flatMap (fun x => (int_range 0 H).map (fun y => (x, y)))) bmu
      (DBL_MAX : K) with
    ⟨_, hall⟩ | ⟨l1, c, l2, hl, heq, _, h1, h2⟩
  · exact absurd hlt0 (not_lt.mpr
      (hall (x0, y0) ((mem_cells W H (x0, y0)).mpr ⟨⟨hx0, hx1⟩, hy0, hy1⟩)))
  · have hc : c ∈ (int_range 0 W).flatMap (fun x => (int_range 0 H).map (fun y => (x, y))) := by
      rw [hl]; exact List.mem_append_right _ (List.mem_cons_self _ _)
    have hcr := (mem_cells W H c).mp hc
    have hpw := cells_pairwise W H
    rw [hl, List.pairwise_append, List.pairwise_cons] at hpw
    obtain ⟨_, ⟨hafter, _⟩, _⟩ := hpw
    refine ⟨c.1, c.2, hcr.1, hcr.2, by rw [heq], ?_⟩
    intro x y hx0 hx1 hy0 hy1
    have hmem : (x, y) ∈ l1 ++ c :: l2 := by
      rw [← hl]; exact (mem_cells W H (x, y)).mpr ⟨⟨hx0, hx1⟩, hy0, hy1⟩
    rcases List.mem_append.mp hmem with hin1 | hin2
    · have := h1 (x, y) hin1
      exact ⟨le_of_lt this, fun he => absurd he (ne_of_gt this)⟩
    · rcases List.mem_cons.mp hin2 with heqc | hin2
      · have hx : x = c.1 := congrArg Prod.fst heqc
        have hy : y = c.2 := congrArg Prod.snd heqc
        subst hx; subst hy
        exact ⟨le_refl _, fun _ => Or.inr ⟨rfl, le_refl _⟩⟩
      · refine ⟨h2 (x, y) hin2, fun _ => ?_⟩
        rcases hafter (x, y) hin2 with h | ⟨h, h3⟩
        · exact Or.inl h
        · exact Or.inr ⟨h, le_of_lt h3⟩

end Binary64Search

/-! ## Evaluation of binary64 operations -/

section Binary64Evaluation

variable {K : Type} [LinearOrderedField K] [FloorRing K]

/-- An exact result `m * 2^k` with `|m| < 2^53`, below `2^1024` in magnitude, is a finite
binary64 value and is returned as it is. -/
theorem double_round_exact_mul (x : K) (m : Int) (k : Nat) (hx : x = (m : K) * 2 ^ k)
    (hm : |m| < 2 ^ 53) (hb : |x| < 2 ^ 1024) : Double.round x = Double.finite x := by
  have h := round_binary64_exact (K := K) m (k : Int) hm (by omega)
  rw [zpow_natCast, ← hx] at h
  unfold Double.round
  rw [h, if_neg (not_le.mpr hb)]

/-- An exact result `m / 2^k` with `|m| < 2^53` and `k ≤ 1074` is a finite binary64 value and
is returned as it is. -/
theorem double_round_exact_div (x : K) (m : Int) (k : Nat) (hx : x = (m : K) / 2 ^ k)
    (hm : |m| < 2 ^ 53) (hk : k ≤ 1074) (hb : |x| < 2 ^ 1024) :
    Double.round x = Double.finite x := by
  have h := round_binary64_exact (K := K) m (-(k : Int)) hm (by omega)
  rw [zpow_neg, zpow_natCast, ← div_eq_mul_inv, ← hx] at h
  unfold Double.round
  rw [h, if_neg (not_le.mpr hb)]

/-- In the binade `[1, 2)` the rounding returns the multiple `n / 2^52` of `2^(-52)` nearest
to the exact result. -/
theorem round_binary64_eq_unit (x : K) (n : Int) (h1 : 1 ≤ x) (h2 : x < 2)
    (hn : |x * 2 ^ 52 - (n : K)| < 1 / 2) : round_binary64 x = (n : K) / 2 ^ 52 := by
  have hx : |x| = x := abs_of_nonneg (le_trans zero_le_one h1)
  have h := round_binary64_eq x 0 n (by norm_num) (by rw [hx, zpow_zero]; exact h1)
    (by rw [hx]; norm_num; exact h2)
    (by
      have e : x / 2 ^ ((0 : Int) - 52) = x * 2 ^ 52 := by
        rw [zero_sub, zpow_neg, div_inv_eq_mul]
        norm_cast
      rw [e]
      exact hn)
  rw [h, zero_sub, zpow_neg, ← div_eq_mul_inv]
  norm_cast

theorem double_round_eq_unit (x : K) (n : Int) (h1 : 1 ≤ x) (h2 : x < 2)
    (hn : |x * 2 ^ 52 - (n : K)| < 1 / 2) (hb : |(n : K) / 2 ^ 52| < 2 ^ 1024) :
    Double.round x = Double.finite ((n : K) / 2 ^ 52) := by
  unfold Double.round
  rw [round_binary64_eq_unit x n h1 h2 hn, if_neg (not_le.mpr hb)]

/-- The exact result `2^1024` overflows to `+inf`. -/
theorem double_round_overflow : Double.round ((2 : K) ^ 1024) = Double.infinity false := by
  have h := round_binary64_exact (K := K) (2 ^ 52) 972 (by norm_num) (by norm_num)
  have e : (((2 ^ 52 : Int)) : K) * 2 ^ (972 : Int) = 2 ^ 1024 := by
    have : (972 : Int) = ((972 : Nat) : Int) := rfl
    rw [this, zpow_natCast, Int.cast_pow, Int.cast_ofNat, ← pow_add]
  rw [e] at h
  unfold Double.round
  rw [h, if_pos (le_abs_self _)]
  have : ¬ ((2 : K) ^ 1024 < 0) := not_lt.mpr (le_of_lt (pow_pos (by norm_num) 1024))
  simp only [this, decide_False]

/-- A positive exact result below `2^(-1075)`, half of the least positive binary64 value,
underflows to 0. -/
theorem double_round_underflow (x : K) (hx0 : 0 < x) (hx : x * 2 ^ 1075 < 1) :
    Double.round x = Double.finite 0 := by
  have h2 : (2 : K) ≠ 0 := by norm_num
  have habs : |x| = x := abs_of_pos hx0
  have hlt : x < 2 ^ (-1075 : Int) := by
    rw [zpow_neg, ← one_div, lt_div_iff₀ (zpow_pos (by norm_num) _)]
    exact_mod_cast hx
  have hlog : Int.log 2 |x| < -1022 := by
    rw [habs, ← Int.lt_zpow_iff_log_lt (by norm_num) hx0]
    refine lt_of_lt_of_le hlt ?_
    exact_mod_cast zpow_le_zpow_right₀ (by norm_num : (1 : K) ≤ 2) (by norm_num : (-1075 : Int) ≤ -1022)
  have he : ulp_exponent x = -1074 := by
    unfold ulp_exponent
    rw [max_eq_right (le_of_lt hlog)]
    norm_num
  have hr : round_binary64 x = 0 := by
    unfold round_binary64
    rw [he, round_half_even_eq_of_abs_lt _ 0]
    · simp
    · rw [Int.cast_zero, sub_zero, abs_of_nonneg (div_nonneg (le_of_lt hx0)
        (le_of_lt (zpow_pos (by norm_num) _)))]
      rw [div_lt_iff₀ (zpow_pos (by norm_num) _)]
      have e : (1 / 2 : K) * 2 ^ (-1074 : Int) = 2 ^ (-1075 : Int) := by
        rw [show (-1075 : Int) = -1074 - 1 from by norm_num, zpow_sub₀ h2, zpow_one]
        ring
      rw [e]
      exact hlt
  unfold Double.round
  rw [hr, if_neg]
  rw [abs_zero, not_le]
  exact pow_pos (by norm_num) 1024

end Binary64Evaluation

/-- Evaluation of the correctly rounded square root in the binade `[1, 2)`: the result is
`n / 2^52` when `(n - 1/2)^2 < a * 2^104 < (n + 1/2)^2`. -/
theorem sqrt_binary64_eq_unit (a : ℝ) (n : Int) (hn : 1 ≤ n) (h1 : 1 ≤ a) (h4 : a < 4)
    (hlo : ((n : ℝ) - 1 / 2) ^ 2 < a * 2 ^ 104) (hhi : a * 2 ^ 104 < ((n : ℝ) + 1 / 2) ^ 2) :
    round_binary64 (Real.sqrt a) = (n : ℝ) / 2 ^ 52 := by
  have hn1 : (1 : ℝ) ≤ (n : ℝ) := by exact_mod_cast hn
  have ha0 : (0 : ℝ) ≤ a := le_trans zero_le_one h1
  apply round_binary64_eq_unit
  · rw [Real.one_le_sqrt]; exact h1
  · rw [Real.sqrt_lt' (by norm_num)]
    linarith
  · rw [abs_lt]
    have e : Real.sqrt a * 2 ^ 52 = Real.sqrt (a * 2 ^ 104) := by
      rw [Real.sqrt_mul ha0, show (2 : ℝ) ^ 104 = (2 ^ 52) ^ 2 from by norm_num,
        Real.sqrt_sq (by norm_num)]
    rw [e]
    constructor
    · have : (n : ℝ) - 1 / 2 < Real.sqrt (a * 2 ^ 104) := by
        rw [Real.lt_sqrt (by linarith)]
        exact hlo
      linarith
    · have : Real.sqrt (a * 2 ^ 104) < (n : ℝ) + 1 / 2 := by
        rw [Real.sqrt_lt' (by linarith)]
        exact hhi
      linarith

section Binary64Operations

variable {K : Type} [LinearOrderedField K] [FloorRing K]

theorem double_sub_exact_mul (a b x : K) (m : Int) (k : Nat) (hx : a - b = x)
    (hm : x = (m : K) * 2 ^ k) (hm1 : |m| < 2 ^ 53) (hb : -(2 ^ 1024) < x ∧ x < 2 ^ 1024) :
    Double.sub (Double.finite a) (Double.finite b) = Double.finite x := by
  show Double.round (a + -b) = _
  rw [← sub_eq_add_neg, hx]
  exact double_round_exact_mul x m k hm hm1 (abs_lt.mpr hb)

theorem double_sub_exact_div (a b x : K) (m : Int) (k : Nat) (hx : a - b = x)
    (hm : x = (m : K) / 2 ^ k) (hm1 : |m| < 2 ^ 53) (hk : k ≤ 1074)
    (hb : -(2 ^ 1024) < x ∧ x < 2 ^ 1024) :
    Double.sub (Double.finite a) (Double.finite b) = Double.finite x := by
  show Double.round (a + -b) = _
  rw [← sub_eq_add_neg, hx]
  exact double_round_exact_div x m k hm hm1 hk (abs_lt.mpr hb)

theorem double_mul_exact_mul (a b x : K) (m : Int) (k : Nat) (hx : a * b = x)
    (hm : x = (m : K) * 2 ^ k) (hm1 : |m| < 2 ^ 53) (hb : -(2 ^ 1024) < x ∧ x < 2 ^ 1024) :
    Double.mul (Double.finite a) (Double.finite b) = Double.finite x := by
  show Double.round (a * b) = _
  rw [hx]
  exact double_round_exact_mul x m k hm hm1 (abs_lt.mpr hb)

theorem double_mul_exact_div (a b x : K) (m : Int) (k : Nat) (hx : a * b = x)
    (hm : x = (m : K) / 2 ^ k) (hm1 : |m| < 2 ^ 53) (hk : k ≤ 1074)
    (hb : -(2 ^ 1024) < x ∧ x < 2 ^ 1024) :
    Double.mul (Double.finite a) (Double.finite b) = Double.finite x := by
  show Double.round (a * b) = _
  rw [hx]
  exact double_round_exact_div x m k hm hm1 hk (abs_lt.mpr hb)

theorem double_add_exact_mul (a b x : K) (m : Int) (k : Nat) (hx : a + b = x)
    (hm : x = (m : K) * 2 ^ k) (hm1 : |m| < 2 ^ 53) (hb : -(2 ^ 1024) < x ∧ x < 2 ^ 1024) :
    Double.add (Double.finite a) (Double.finite b) = Double.finite x := by
  show Double.round (a + b) = _
  rw [hx]
  exact double_round_exact_mul x m k hm hm1 (abs_lt.mpr hb)

theorem double_add_exact_div (a b x : K) (m : Int) (k : Nat) (hx : a + b = x)
    (hm : x = (m : K) / 2 ^ k) (hm1 : |m| < 2 ^ 53) (hk : k ≤ 1074)
    (hb : -(2 ^ 1024) < x ∧ x < 2 ^ 1024) :
    Double.add (Double.finite a) (Double.finite b) = Double.finite x := by
  show Double.round (a + b) = _
  rw [hx]
  exact double_round_exact_div x m k hm hm1 hk (abs_lt.mpr hb)

/-- A sum in the binade `[1, 2)` is rounded to the nearest multiple `n / 2^52` of
`2^(-52)`. -/
theorem double_add_eq_unit (a b : K) (n : Int) (h1 : 1 ≤ a + b) (h2 : a + b < 2)
    (hn : -(1 / 2) < (a + b) * 2 ^ 52 - (n : K) ∧ (a + b) * 2 ^ 52 - (n : K) < 1 / 2)
    (hb : -(2 ^ 1024) < (n : K) / 2 ^ 52 ∧ (n : K) / 2 ^ 52 < 2 ^ 1024) :
    Double.add (Double.finite a) (Double.finite b) = Double.finite ((n : K) / 2 ^ 52) :=
  double_round_eq_unit (a + b) n h1 h2 (abs_lt.mpr hn) (abs_lt.mpr hb)

theorem binary64_distance_two (sqrt : K → K) (sample : Sample (Double K))
    (neuron : Neuron (Double K)) :
    Binary64.distance_between_sample_and_neuron sqrt sample neuron 2 =
      Double.sqrt sqrt (Double.add (Double.finite 0)
        (Binary64.pow2 (Double.sub (sample.components 0) (neuron.weights 0)))) := rfl

theorem binary64_distance_three (sqrt : K → K) (sample : Sample (Double K))
    (neuron : Neuron (Double K)) :
    Binary64.distance_between_sample_and_neuron sqrt sample neuron 3 =
      Double.sqrt sqrt (Double.add (Double.add (Double.finite 0)
        (Binary64.pow2 (Double.sub (sample.components 0) (neuron.weights 0))))
        (Binary64.pow2 (Double.sub (sample.components 1) (neuron.weights 1)))) := rfl

theorem binary64_distance_four (sqrt : K → K) (sample : Sample (Double K))
    (neuron : Neuron (Double K)) :
    Binary64.distance_between_sample_and_neuron sqrt sample neuron 4 =
      Double.sqrt sqrt (Double.add (Double.add (Double.add (Double.finite 0)
        (Binary64.pow2 (Double.sub (sample.components 0) (neuron.weights 0))))
        (Binary64.pow2 (Double.sub (sample.components 1) (neuron.weights 1))))
        (Binary64.pow2 (Double.sub (sample.components 2) (neuron.weights 2)))) := rfl

end Binary64Operations

/-! ### The two neurons of `rounding_grid` -/

/-- The neuron with the weights `(1, 2^(-26))`: the sum of the squares is `1 + 2^(-52)`, a
binary64 value, and its square root, just below the midpoint `1 + 2^(-53)`, is rounded to
`1`. -/
theorem rounding_grid_distance_other :
    Binary64.distance_between_sample_and_neuron Real.sqrt (uniform_double_sample 0)
      (⟨fun i => Double.finite (if i = 0 then 1 else if i = 1 then 1 / 2 ^ 26 else 0)⟩ :
        Neuron (Double ℝ)) 3 = Double.finite 1 := by
  rw [binary64_distance_three]
  show Double.sqrt Real.sqrt (Double.add (Double.add (Double.finite 0)
    (Binary64.pow2 (Double.sub (Double.finite 0) (Double.finite 1))))
    (Binary64.pow2 (Double.sub (Double.finite 0) (Double.finite (1 / 2 ^ 26))))) =
    Double.finite 1
  rw [double_sub_exact_mul (0 : ℝ) 1 (-1) (-1) 0 (by norm_num) (by norm_num) (by norm_num)
    (by norm_num)]
  unfold Binary64.pow2
  rw [double_mul_exact_mul (-1 : ℝ) (-1) 1 1 0 (by norm_num) (by norm_num) (by norm_num)
    (by norm_num)]
  rw [double_add_exact_mul (0 : ℝ) 1 1 1 0 (by norm_num) (by norm_num) (by norm_num)
    (by norm_num)]
  rw [double_sub_exact_div (0 : ℝ) (1 / 2 ^ 26) (-(1 / 2 ^ 26)) (-1) 26 (by norm_num)
    (by norm_num) (by norm_num) (by norm_num) (by norm_num)]
  rw [double_mul_exact_div (-(1 / 2 ^ 26) : ℝ) (-(1 / 2 ^ 26)) (1 / 2 ^ 52) 1 52 (by norm_num)
    (by norm_num) (by norm_num) (by norm_num) (by norm_num)]
  rw [double_add_exact_div (1 : ℝ) (1 / 2 ^ 52) (1 + 1 / 2 ^ 52) (2 ^ 52 + 1) 52 rfl
    (by norm_num) (by norm_num) (by norm_num) (by norm_num)]
  rw [double_sqrt_finite Real.sqrt _ (by norm_num)]
  rw [sqrt_binary64_eq_unit (1 + 1 / 2 ^ 52) (2 ^ 52) (by norm_num) (by norm_num) (by norm_num)
    (by norm_num) (by norm_num)]
  norm_num

/-- The neuron with the weights `(1, 0)`: the computed distance is `1`. -/
theorem rounding_grid_distance_best :
    Binary64.distance_between_sample_and_neuron Real.sqrt (uniform_double_sample 0)
      (⟨fun i => Double.finite (if i = 0 then 1 else 0)⟩ : Neuron (Double ℝ)) 3 =
        Double.finite 1 := by
  rw [binary64_distance_three]
  show Double.sqrt Real.sqrt (Double.add (Double.add (Double.finite 0)
    (Binary64.pow2 (Double.sub (Double.finite 0) (Double.finite 1))))
    (Binary64.pow2 (Double.sub (Double.finite 0) (Double.finite 0)))) =
    Double.finite 1
  rw [double_sub_exact_mul (0 : ℝ) 1 (-1) (-1) 0 (by norm_num) (by norm_num) (by norm_num)
    (by norm_num)]
  unfold Binary64.pow2
  rw [double_mul_exact_mul (-1 : ℝ) (-1) 1 1 0 (by norm_num) (by norm_num) (by norm_num)
    (by norm_num)]
  rw [double_add_exact_mul (0 : ℝ) 1 1 1 0 (by norm_num) (by norm_num) (by norm_num)
    (by norm_num)]
  rw [double_sub_exact_mul (0 : ℝ) 0 0 0 0 (by norm_num) (by norm_num) (by norm_num)
    (by norm_num)]
  rw [double_mul_exact_mul (0 : ℝ) 0 0 0 0 (by norm_num) (by norm_num) (by norm_num)
    (by norm_num)]
  rw [double_add_exact_mul (1 : ℝ) 0 1 1 0 (by norm_num) (by norm_num) (by norm_num)
    (by norm_num)]
  rw [double_sqrt_finite Real.sqrt _ (by norm_num)]
  rw [sqrt_binary64_eq_unit 1 (2 ^ 52) (by norm_num) (by norm_num) (by norm_num)
    (by norm_num) (by norm_num)]
  norm_num

/-- With a non-empty grid and all values in `[0,1]`: every distance computed in binary64 is
finite and below `DBL_MAX`, and `search_bmu` returns the first cell, in scan order, among those
whose computed distance is least. -/
theorem binary64_search_bmu_unit_interval (W H : Int) (map : Grid (Double ℝ))
    (sample : Sample (Double ℝ)) (bmu : BMU) (total_components : Int)
    (hW : 1 ≤ W) (hH : 1 ≤ H) (hD : total_components ≤ INT_MAX)
    (hs : ∀ i : Nat, (i : Int) < total_components - 1 →
      ∃ c : ℝ, sample.components i = Double.finite c ∧ 0 ≤ c ∧ c ≤ 1)
    (hw : ∀ x y : Int, 0 ≤ x → x < W → 0 ≤ y → y < H →
      ∀ i : Nat, (i : Int) < total_components - 1 →
        ∃ w : ℝ, (map x y).weights i = Double.finite w ∧ 0 ≤ w ∧ w ≤ 1) :
    ∃ dq : Int → Int → ℝ,
      (∀ x y : Int, 0 ≤ x → x < W → 0 ≤ y → y < H →
        Binary64.distance_between_sample_and_neuron Real.sqrt sample (map x y)
            total_components = Double.finite (dq x y) ∧ 0 ≤ dq x y ∧ dq x y < DBL_MAX) ∧
      ∃ bx bY : Int, (0 ≤ bx ∧ bx < W) ∧ (0 ≤ bY ∧ bY < H) ∧
        Binary64.search_bmu Real.sqrt W H map sample bmu total_components = ⟨bx, bY⟩ ∧
        ∀ x y : Int, 0 ≤ x → x < W → 0 ≤ y → y < H →
          dq bx bY ≤ dq x y ∧ (dq x y = dq bx bY → bx < x ∨ (bx = x ∧ bY ≤ y)) := by
  have hfin : ∀ x y : Int, 0 ≤ x → x < W → 0 ≤ y → y < H →
      Binary64.distance_between_sample_and_neuron Real.sqrt sample (map x y)
          total_components =
        Double.finite (Binary64.distance_between_sample_and_neuron Real.sqrt sample (map x y)
          total_components).value ∧
      0 ≤ (Binary64.distance_between_sample_and_neuron Real.sqrt sample (map x y)
          total_components).value ∧
      (Binary64.distance_between_sample_and_neuron Real.sqrt sample (map x y)
          total_components).value < DBL_MAX := by
    intro x y hx0 hx1 hy0 hy1
    obtain ⟨d, hd, hd0, hd1⟩ := binary64_distance_bounds sample (map x y) total_components hD
      hs (hw x y hx0 hx1 hy0 hy1)
    rw [hd]
    exact ⟨rfl, hd0, hd1⟩
  refine ⟨fun x y => (Binary64.distance_between_sample_and_neuron Real.sqrt sample (map x y)
    total_components).value, hfin, ?_⟩
  exact binary64_search_bmu_first_min Real.sqrt W H map sample bmu total_components _
    (fun x y hx0 hx1 hy0 hy1 => (hfin x y hx0 hx1 hy0 hy1).1)
    ⟨0, 0, le_refl 0, by omega, le_refl 0, by omega,
      (hfin 0 0 (le_refl 0) (by omega) (le_refl 0) (by omega)).2.2⟩

theorem double_le_finite {K : Type} [LinearOrderedField K] (a b : K) :
    Double.le (Double.finite a) (Double.finite b) = true ↔ a ≤ b := by
  show decide (a ≤ b) = true ↔ a ≤ b
  exact decide_eq_true_iff

theorem double_lt_finite {K : Type} [LinearOrderedField K] (a b : K) :
    Double.lt (Double.finite a) (Double.finite b) = true ↔ a < b := by
  show decide (a < b) = true ↔ a < b
  exact decide_eq_true_iff

/-! ### Minimality of the best matching unit -/

/-- The neuron with the weight `2^(-600)`: the difference is `-2^(-600)`, its square
`2^(-1200)` underflows to 0, and the computed distance is 0. -/
theorem underflow_grid_distance_first :
    Binary64.distance_between_sample_and_neuron Real.sqrt (uniform_double_sample 0)
      (⟨fun _ => Double.finite (1 / 2 ^ 600)⟩ : Neuron (Double ℝ)) 2 = Double.finite 0 := by
  rw [binary64_distance_two]
  show Double.sqrt Real.sqrt (Double.add (Double.finite 0)
    (Binary64.pow2 (Double.sub (Double.finite 0) (Double.finite (1 / 2 ^ 600))))) =
    Double.finite 0
  rw [double_sub_exact_div (0 : ℝ) (1 / 2 ^ 600) (-(1 / 2 ^ 600)) (-1) 600 (by norm_num)
    (by norm_num) (by norm_num) (by norm_num) (by norm_num)]
  have e : Binary64.pow2 (Double.finite (-(1 / 2 ^ 600) : ℝ)) = Double.finite 0 := by
    show Double.round ((-(1 / 2 ^ 600) : ℝ) * (-(1 / 2 ^ 600))) = _
    exact double_round_underflow _ (by norm_num) (by norm_num)
  rw [e]
  rw [double_add_exact_mul (0 : ℝ) 0 0 0 0 (by norm_num) (by norm_num) (by norm_num)
    (by norm_num)]
  rw [double_sqrt_finite Real.sqrt 0 (lt_irrefl 0), Real.sqrt_zero, round_binary64_zero]

/-- C2 (as stated, refuted), for both parts of the claim.
(1) On the 300 × 300 grid `rounding_grid` (weights `(1, 2^(-26))`, except `(1, 0)` at the cell
`(0,1)`; all binary64 values in `[0,1]`) and the sample `(0, 0)`, the neuron at `(0,1)` is at
the Euclidean distance `1` and the neuron at `(0,0)` at the strictly larger Euclidean distance
`sqrt(1 + 2^(-52))`; in binary64 both distances are computed as `1.0`, the test
`dist < min_dist` fails at `(0,1)`, and `search_bmu` returns `(0,0)`, which is not a neuron at
the least Euclidean distance.
(2) On the 300 × 300 grid `underflow_grid` (weight `2^(-600)` at `(0,0)`, weight 0 elsewhere)
and the sample `(0)`, the sample equals the weight vector of the neuron at `(0,1)`; the square
of the difference at `(0,0)` underflows to 0, the distance computed there is 0 and
`search_bmu` returns `(0,0)`, a neuron whose Euclidean distance from the sample is not 0. -/
theorem search_bmu_not_minimal_example :
    (Binary64.search_bmu Real.sqrt MAP_WIDTH MAP_HEIGHT rounding_grid (uniform_double_sample 0)
        ⟨-1, -1⟩ 3 = ⟨0, 0⟩ ∧
      distance_between_sample_and_neuron Real.sqrt (uniform_sample 0)
          (exact_neuron (rounding_grid 0 1)) 3 <
        distance_between_sample_and_neuron Real.sqrt (uniform_sample 0)
          (exact_neuron (rounding_grid 0 0)) 3 ∧
      Binary64.distance_between_sample_and_neuron Real.sqrt (uniform_double_sample 0)
          (rounding_grid 0 0) 3 = Double.finite 1 ∧
      Binary64.distance_between_sample_and_neuron Real.sqrt (uniform_double_sample 0)
          (rounding_grid 0 1) 3 = Double.finite 1) ∧
    (Binary64.search_bmu Real.sqrt MAP_WIDTH MAP_HEIGHT underflow_grid (uniform_double_sample 0)
        ⟨-1, -1⟩ 2 = ⟨0, 0⟩ ∧
      (∀ i : Nat, (underflow_grid 0 1 : Neuron (Double ℝ)).weights i =
        (uniform_double_sample 0).components i) ∧
      Binary64.distance_between_sample_and_neuron Real.sqrt (uniform_double_sample 0)
          (underflow_grid 0 0) 2 = Double.finite 0 ∧
      0 < distance_between_sample_and_neuron Real.sqrt (uniform_sample 0)
          (exact_neuron (underflow_grid 0 0)) 2) := by
  have hall : ∀ x y : Int, Binary64.distance_between_sample_and_neuron Real.sqrt
      (uniform_double_sample 0) (rounding_grid x y) 3 = Double.finite ((fun _ _ => (1 : ℝ)) x y)
      := by
    intro x y
    unfold rounding_grid
    split_ifs
    · exact rounding_grid_distance_best
    · exact rounding_grid_distance_other
  have hund : ∀ x y : Int, Binary64.distance_between_sample_and_neuron Real.sqrt
      (uniform_double_sample 0) (underflow_grid x y) 2 = Double.finite ((fun _ _ => (0 : ℝ)) x y)
      := by
    intro x y
    unfold underflow_grid
    split_ifs
    · exact underflow_grid_distance_first
    · exact binary64_distance_zero _ _ _ (fun _ _ => ⟨0, rfl, rfl⟩)
  refine ⟨⟨?_, ?_, hall 0 0, hall 0 1⟩, ⟨?_, fun _ => rfl, hund 0 0, ?_⟩⟩
  · obtain ⟨bx, bY, hbx, hby, heq, hmin⟩ := binary64_search_bmu_first_min Real.sqrt MAP_WIDTH
      MAP_HEIGHT rounding_grid (uniform_double_sample 0) ⟨-1, -1⟩ 3 (fun _ _ => (1 : ℝ))
      (fun x y _ _ _ _ => hall x y)
      ⟨0, 0, by decide, by decide, by decide, by decide, by unfold DBL_MAX; norm_num⟩
    rw [heq]
    have h0 := (hmin 0 0 (by decide) (by decide) (by decide) (by decide)).2 rfl
    have e1 : bx = 0 := by omega
    have e2 : bY = 0 := by omega
    rw [e1, e2]
  · have h2 : ((3 : Int) - 1).toNat = 2 := by decide
    unfold distance_between_sample_and_neuron
    rw [h2]
    simp only [List.range_succ, List.range_zero, List.nil_append, List.singleton_append,
      List.foldl_cons, List.foldl_nil, uniform_sample, exact_neuron, rounding_grid, pow2,
      Double.value]
    apply Real.sqrt_lt_sqrt
    · norm_num
    · norm_num
  · obtain ⟨bx, bY, hbx, hby, heq, hmin⟩ := binary64_search_bmu_first_min Real.sqrt MAP_WIDTH
      MAP_HEIGHT underflow_grid (uniform_double_sample 0) ⟨-1, -1⟩ 2 (fun _ _ => (0 : ℝ))
      (fun x y _ _ _ _ => hund x y)
      ⟨0, 0, by decide, by decide, by decide, by decide, by unfold DBL_MAX; norm_num⟩
    rw [heq]
    have h0 := (hmin 0 0 (by decide) (by decide) (by decide) (by decide)).2 rfl
    have e1 : bx = 0 := by omega
    have e2 : bY = 0 := by omega
    rw [e1, e2]
  · have h1 : ((2 : Int) - 1).toNat = 1 := by decide
    unfold distance_between_sample_and_neuron
    rw [h1]
    simp only [List.range_succ, List.range_zero, List.nil_append, List.foldl_cons,
      List.foldl_nil, uniform_sample, exact_neuron, underflow_grid, pow2, Double.value]
    apply Real.sqrt_pos.mpr
    norm_num

/-- C2 (amended): on a non-empty grid whose weights, like the components of the sample, are
finite `double` values in `[0,1]`, `search_bmu` returns an in-range coordinate whose neuron is
at a distance from the sample, as computed in binary64 by
`distance_between_sample_and_neuron` (every subtraction, square, sum and the square root
rounded to the nearest binary64 value), not larger than the computed distance of any neuron of
the grid; when some neuron's weight vector equals the sample's component vector, the computed
distance of the returned neuron is 0. -/
theorem search_bmu_minimal_computed (W H : Int) (map : Grid (Double ℝ))
    (sample : Sample (Double ℝ)) (bmu : BMU) (total_components : Int)
    (hW : 1 ≤ W) (hH : 1 ≤ H) (hD : total_components ≤ INT_MAX)
    (hs : ∀ i : Nat, (i : Int) < total_components - 1 →
      ∃ c : ℝ, sample.components i = Double.finite c ∧ 0 ≤ c ∧ c ≤ 1)
    (hw : ∀ x y : Int, 0 ≤ x → x < W → 0 ≤ y → y < H →
      ∀ i : Nat, (i : Int) < total_components - 1 →
        ∃ w : ℝ, (map x y).weights i = Double.finite w ∧ 0 ≤ w ∧ w ≤ 1) :
    ((0 ≤ (Binary64.search_bmu Real.sqrt W H map sample bmu total_components).x_coord ∧
        (Binary64.search_bmu Real.sqrt W H map sample bmu total_components).x_coord < W) ∧
      (0 ≤ (Binary64.search_bmu Real.sqrt W H map sample bmu total_components).y_coord ∧
        (Binary64.search_bmu Real.sqrt W H map sample bmu total_components).y_coord < H)) ∧
    (∀ x y : Int, 0 ≤ x → x < W → 0 ≤ y → y < H →
      Double.le
        (Binary64.distance_between_sample_and_neuron Real.sqrt sample
          (map (Binary64.search_bmu Real.sqrt W H map sample bmu total_components).x_coord
            (Binary64.search_bmu Real.sqrt W H map sample bmu total_components).y_coord)
          total_components)
        (Binary64.distance_between_sample_and_neuron Real.sqrt sample (map x y)
          total_components) = true) ∧
    ((∃ x y : Int, 0 ≤ x ∧ x < W ∧ 0 ≤ y ∧ y < H ∧
        ∀ i : Nat, (i : Int) < total_components - 1 →
          (map x y).weights i = sample.components i) →
      Binary64.distance_between_sample_and_neuron Real.sqrt sample
          (map (Binary64.search_bmu Real.sqrt W H map sample bmu total_components).x_coord
            (Binary64.search_bmu Real.sqrt W H map sample bmu total_components).y_coord)
          total_components = Double.finite 0) := by
  obtain ⟨dq, hfin, bx, bY, hbx, hby, heq, hmin⟩ :=
    binary64_search_bmu_unit_interval W H map sample bmu total_components hW hH hD hs hw
  rw [heq]
  have hb := hfin bx bY hbx.1 hbx.2 hby.1 hby.2
  refine ⟨⟨hbx, hby⟩, ?_, ?_⟩
  · intro x y hx0 hx1 hy0 hy1
    show Double.le (Binary64.distance_between_sample_and_neuron Real.sqrt sample (map bx bY)
      total_components) _ = true
    rw [hb.1, (hfin x y hx0 hx1 hy0 hy1).1, double_le_finite]
    exact (hmin x y hx0 hx1 hy0 hy1).1
  · rintro ⟨x, y, hx0, hx1, hy0, hy1, hsame⟩
    show Binary64.distance_between_sample_and_neuron Real.sqrt sample (map bx bY)
      total_components = Double.finite 0
    have hz : Binary64.distance_between_sample_and_neuron Real.sqrt sample (map x y)
        total_components = Double.finite 0 := by
      apply binary64_distance_zero
      intro i hi
      obtain ⟨c, hc, _, _⟩ := hs i hi
      exact ⟨c, hc, by rw [hsame i hi, hc]⟩
    have hxy := (hfin x y hx0 hx1 hy0 hy1).1
    rw [hz] at hxy
    have hd0 : dq x y = 0 := (Double.finite.inj hxy).symm
    have h1 := (hmin x y hx0 hx1 hy0 hy1).1
    rw [hd0] at h1
    rw [hb.1, le_antisymm h1 hb.2.1]

/-- Witness of `search_bmu_minimal_computed`: a 2 × 2 grid with every weight 1/2, a sample
with every component 1/2, three columns (two features); the sample equals the neuron at
`(1,1)`, so the computed distance of the returned neuron is 0. -/
theorem search_bmu_minimal_computed_witness :
    Binary64.distance_between_sample_and_neuron Real.sqrt (uniform_double_sample (1 / 2))
        (uniform_double_grid (1 / 2 : ℝ)
          (Binary64.search_bmu Real.sqrt 2 2 (uniform_double_grid (1 / 2))
            (uniform_double_sample (1 / 2)) ⟨-1, -1⟩ 3).x_coord
          (Binary64.search_bmu Real.sqrt 2 2 (uniform_double_grid (1 / 2))
            (uniform_double_sample (1 / 2)) ⟨-1, -1⟩ 3).y_coord) 3 = Double.finite 0 :=
  (search_bmu_minimal_computed 2 2 (uniform_double_grid (1 / 2))
    (uniform_double_sample (1 / 2)) ⟨-1, -1⟩ 3 (by decide) (by decide) (by decide)
    (fun _ _ => ⟨1 / 2, rfl, by norm_num, by norm_num⟩)
    (fun _ _ _ _ _ _ _ _ => ⟨1 / 2, rfl, by norm_num, by norm_num⟩)).2.2
    ⟨1, 1, by decide, by decide, by decide, by decide, fun _ _ => rfl⟩

/-! ### The two neurons of `summation_grid` -/

/-- The neuron with the weights `(1, b, b)`, `b = 3 * 2^(-28)`: the squares are `1`,
`9 * 2^(-56)` and `9 * 2^(-56)`; `1 + 9 * 2^(-56)` is rounded up to `1 + 2^(-52)`, adding
`9 * 2^(-56)` again gives `1 + 2^(-51)` after rounding, and the square root is rounded to
`1 + 2^(-52)`. -/
theorem summation_grid_distance_other :
    Binary64.distance_between_sample_and_neuron Real.sqrt (uniform_double_sample 0)
      (⟨fun i => Double.finite (if i = 0 then 1 else 3 / 2 ^ 28)⟩ : Neuron (Double ℝ)) 4 =
        Double.finite (1 + 1 / 2 ^ 52) := by
  rw [binary64_distance_four]
  show Double.sqrt Real.sqrt (Double.add (Double.add (Double.add (Double.finite 0)
    (Binary64.pow2 (Double.sub (Double.finite 0) (Double.finite 1))))
    (Binary64.pow2 (Double.sub (Double.finite 0) (Double.finite (3 / 2 ^ 28)))))
    (Binary64.pow2 (Double.sub (Double.finite 0) (Double.finite (3 / 2 ^ 28))))) =
    Double.finite (1 + 1 / 2 ^ 52)
  rw [double_sub_exact_mul (0 : ℝ) 1 (-1) (-1) 0 (by norm_num) (by norm_num) (by norm_num)
    (by norm_num)]
  rw [double_sub_exact_div (0 : ℝ) (3 / 2 ^ 28) (-(3 / 2 ^ 28)) (-3) 28 (by norm_num)
    (by norm_num) (by norm_num) (by norm_num) (by norm_num)]
  unfold Binary64.pow2
  rw [double_mul_exact_mul (-1 : ℝ) (-1) 1 1 0 (by norm_num) (by norm_num) (by norm_num)
    (by norm_num)]
  rw [double_mul_exact_div (-(3 / 2 ^ 28) : ℝ) (-(3 / 2 ^ 28)) (9 / 2 ^ 56) 9 56 (by norm_num)
    (by norm_num) (by norm_num) (by norm_num) (by norm_num)]
  rw [double_add_exact_mul (0 : ℝ) 1 1 1 0 (by norm_num) (by norm_num) (by norm_num)
    (by norm_num)]
  rw [double_add_eq_unit (1 : ℝ) (9 / 2 ^ 56) (2 ^ 52 + 1) (by norm_num) (by norm_num)
    (by norm_num) (by norm_num)]
  rw [double_add_eq_unit (((2 ^ 52 + 1 : Int) : ℝ) / 2 ^ 52) (9 / 2 ^ 56) (2 ^ 52 + 2)
    (by norm_num) (by norm_num) (by norm_num) (by norm_num)]
  rw [double_sqrt_finite Real.sqrt _ (by norm_num)]
  rw [sqrt_binary64_eq_unit (((2 ^ 52 + 2 : Int) : ℝ) / 2 ^ 52) (2 ^ 52 + 1) (by norm_num)
    (by norm_num) (by norm_num) (by norm_num) (by norm_num)]
  norm_num

/-- The neuron with the weights `(b, b, 1)`, `b = 3 * 2^(-28)`: the same three squares in the
other order; `9 * 2^(-56) + 9 * 2^(-56) = 18 * 2^(-56)` is exact, adding `1` gives
`1 + 2^(-52)` after rounding, and the square root is rounded to `1`. -/
theorem summation_grid_distance_best :
    Binary64.distance_between_sample_and_neuron Real.sqrt (uniform_double_sample 0)
      (⟨fun i => Double.finite (if i = 2 then 1 else 3 / 2 ^ 28)⟩ : Neuron (Double ℝ)) 4 =
        Double.finite 1 := by
  rw [binary64_distance_four]
  show Double.sqrt Real.sqrt (Double.add (Double.add (Double.add (Double.finite 0)
    (Binary64.pow2 (Double.sub (Double.finite 0) (Double.finite (3 / 2 ^ 28)))))
    (Binary64.pow2 (Double.sub (Double.finite 0) (Double.finite (3 / 2 ^ 28)))))
    (Binary64.pow2 (Double.sub (Double.finite 0) (Double.finite 1)))) =
    Double.finite 1
  rw [double_sub_exact_mul (0 : ℝ) 1 (-1) (-1) 0 (by norm_num) (by norm_num) (by norm_num)
    (by norm_num)]
  rw [double_sub_exact_div (0 : ℝ) (3 / 2 ^ 28) (-(3 / 2 ^ 28)) (-3) 28 (by norm_num)
    (by norm_num) (by norm_num) (by norm_num) (by norm_num)]
  unfold Binary64.pow2
  rw [double_mul_exact_mul (-1 : ℝ) (-1) 1 1 0 (by norm_num) (by norm_num) (by norm_num)
    (by norm_num)]
  rw [double_mul_exact_div (-(3 / 2 ^ 28) : ℝ) (-(3 / 2 ^ 28)) (9 / 2 ^ 56) 9 56 (by norm_num)
    (by norm_num) (by norm_num) (by norm_num) (by norm_num)]
  rw [double_add_exact_div (0 : ℝ) (9 / 2 ^ 56) (9 / 2 ^ 56) 9 56 (by norm_num) (by norm_num)
    (by norm_num) (by norm_num) (by norm_num)]
  rw [double_add_exact_div (9 / 2 ^ 56 : ℝ) (9 / 2 ^ 56) (18 / 2 ^ 56) 18 56 (by norm_num)
    (by norm_num) (by norm_num) (by norm_num) (by norm_num)]
  rw [double_add_eq_unit (18 / 2 ^ 56 : ℝ) 1 (2 ^ 52 + 1) (by norm_num) (by norm_num)
    (by norm_num) (by norm_num)]
  rw [double_sqrt_finite Real.sqrt _ (by norm_num)]
  rw [sqrt_binary64_eq_unit (((2 ^ 52 + 1 : Int) : ℝ) / 2 ^ 52) (2 ^ 52) (by norm_num)
    (by norm_num) (by norm_num) (by norm_num) (by norm_num)]
  norm_num

/-! ### Tie-break of the best matching unit -/

/-- C3 (as stated, refuted): on the 300 × 300 grid `summation_grid` (weights `(1, b, b)`,
except `(b, b, 1)` at the cell `(0,1)`, `b = 3 * 2^(-28)`; all in `[0,1]`) and the sample
`(0, 0, 0)`, every neuron is at the same Euclidean distance from the sample, so all of them are
at the minimal distance and the lexicographically smallest coordinate among them is `(0,0)`.
In binary64 the three squares are summed in a different order at `(0,1)`: the distance
computed there is `1.0`, everywhere else `1 + 2^(-52)`, and `search_bmu` returns `(0,1)`. -/
theorem search_bmu_tie_break_example :
    Binary64.search_bmu Real.sqrt MAP_WIDTH MAP_HEIGHT summation_grid (uniform_double_sample 0)
        ⟨-1, -1⟩ 4 = ⟨0, 1⟩ ∧
      (∀ x y : Int,
        distance_between_sample_and_neuron Real.sqrt (uniform_sample 0)
            (exact_neuron (summation_grid x y)) 4 =
          distance_between_sample_and_neuron Real.sqrt (uniform_sample 0)
            (exact_neuron (summation_grid 0 0)) 4) ∧
      Binary64.distance_between_sample_and_neuron Real.sqrt (uniform_double_sample 0)
          (summation_grid 0 0) 4 = Double.finite (1 + 1 / 2 ^ 52) ∧
      Binary64.distance_between_sample_and_neuron Real.sqrt (uniform_double_sample 0)
          (summation_grid 0 1) 4 = Double.finite 1 := by
  have hall : ∀ x y : Int, Binary64.distance_between_sample_and_neuron Real.sqrt
      (uniform_double_sample 0) (summation_grid x y) 4 =
        Double.finite (if x = 0 ∧ y = 1 then (1 : ℝ) else 1 + 1 / 2 ^ 52) := by
    intro x y
    unfold summation_grid
    by_cases h : x = 0 ∧ y = 1
    · rw [if_pos h, if_pos h]
      exact summation_grid_distance_best
    · rw [if_neg h, if_neg h]
      exact summation_grid_distance_other
  have h01 : ((0 : Int) = 0 ∧ (1 : Int) = 1) := ⟨rfl, rfl⟩
  have h00 : ¬ ((0 : Int) = 0 ∧ (0 : Int) = 1) := by decide
  refine ⟨?_, ?_, ?_, ?_⟩
  · obtain ⟨bx, bY, hbx, hby, heq, hmin⟩ := binary64_search_bmu_first_min Real.sqrt MAP_WIDTH
      MAP_HEIGHT summation_grid (uniform_double_sample 0) ⟨-1, -1⟩ 4
      (fun x y => if x = 0 ∧ y = 1 then (1 : ℝ) else 1 + 1 / 2 ^ 52)
      (fun x y _ _ _ _ => hall x y)
      ⟨0, 1, by decide, by decide, by decide, by decide, by
        show (if (0 : Int) = 0 ∧ (1 : Int) = 1 then (1 : ℝ) else 1 + 1 / 2 ^ 52) < DBL_MAX
        rw [if_pos h01]; unfold DBL_MAX; norm_num⟩
    rw [heq]
    have h0 : (if bx = 0 ∧ bY = 1 then (1 : ℝ) else 1 + 1 / 2 ^ 52) ≤
        (if (0 : Int) = 0 ∧ (1 : Int) = 1 then (1 : ℝ) else 1 + 1 / 2 ^ 52) :=
      (hmin 0 1 (by decide) (by decide) (by decide) (by decide)).1
    by_cases hc : bx = 0 ∧ bY = 1
    · rw [hc.1, hc.2]
    · exfalso
      rw [if_neg hc, if_pos h01] at h0
      norm_num at h0
  rotate_left
  · have := hall 0 0
    rw [if_neg h00] at this
    exact this
  · have := hall 0 1
    rw [if_pos h01] at this
    exact this
  · intro x y
    have h3 : ((4 : Int) - 1).toNat = 3 := by decide
    have h00 : summation_grid (K := ℝ) 0 0 =
        ⟨fun i => Double.finite (if i = 0 then 1 else 3 / 2 ^ 28)⟩ := rfl
    unfold distance_between_sample_and_neuron
    rw [h3, h00]
    congr 1
    unfold summation_grid
    by_cases h : x = 0 ∧ y = 1
    · rw [if_pos h]
      simp only [List.range_succ, List.range_zero, List.nil_append, List.singleton_append,
        List.cons_append, List.foldl_cons, List.foldl_nil, uniform_sample, exact_neuron, pow2,
        Double.value]
      norm_num
    · rw [if_neg h]

/-- C3 (amended): on a non-empty grid whose weights, like the components of the sample, are
finite `double` values in `[0,1]`, `search_bmu` returns an in-range cell whose distance from
the sample, as computed in binary64 by `distance_between_sample_and_neuron`, is minimal, and
every cell whose computed distance is minimal has a coordinate that is lexicographically not
smaller (first `x`, then `y`): among the neurons at the minimal computed distance the first one
of the x-outer, y-inner scan is returned. -/
theorem search_bmu_tie_break_computed (W H : Int) (map : Grid (Double ℝ))
    (sample : Sample (Double ℝ)) (bmu : BMU) (total_components : Int)
    (hW : 1 ≤ W) (hH : 1 ≤ H) (hD : total_components ≤ INT_MAX)
    (hs : ∀ i : Nat, (i : Int) < total_components - 1 →
      ∃ c : ℝ, sample.components i = Double.finite c ∧ 0 ≤ c ∧ c ≤ 1)
    (hw : ∀ x y : Int, 0 ≤ x → x < W → 0 ≤ y → y < H →
      ∀ i : Nat, (i : Int) < total_components - 1 →
        ∃ w : ℝ, (map x y).weights i = Double.finite w ∧ 0 ≤ w ∧ w ≤ 1) :
    ((0 ≤ (Binary64.search_bmu Real.sqrt W H map sample bmu total_components).x_coord ∧
        (Binary64.search_bmu Real.sqrt W H map sample bmu total_components).x_coord < W) ∧
      (0 ≤ (Binary64.search_bmu Real.sqrt W H map sample bmu total_components).y_coord ∧
        (Binary64.search_bmu Real.sqrt W H map sample bmu total_components).y_coord < H)) ∧
    (∀ x1 y1 : Int, 0 ≤ x1 → x1 < W → 0 ≤ y1 → y1 < H →
      Double.le
        (Binary64.distance_between_sample_and_neuron Real.sqrt sample
          (map (Binary64.search_bmu Real.sqrt W H map sample bmu total_components).x_coord
            (Binary64.search_bmu Real.sqrt W H map sample bmu total_components).y_coord)
          total_components)
        (Binary64.distance_between_sample_and_neuron Real.sqrt sample (map x1 y1)
          total_components) = true) ∧
    ∀ x y : Int, 0 ≤ x → x < W → 0 ≤ y → y < H →
      (∀ x1 y1 : Int, 0 ≤ x1 → x1 < W → 0 ≤ y1 → y1 < H →
        Double.le
          (Binary64.distance_between_sample_and_neuron Real.sqrt sample (map x y)
            total_components)
          (Binary64.distance_between_sample_and_neuron Real.sqrt sample (map x1 y1)
            total_components) = true) →
      (Binary64.search_bmu Real.sqrt W H map sample bmu total_components).x_coord < x ∨
        ((Binary64.search_bmu Real.sqrt W H map sample bmu total_components).x_coord = x ∧
          (Binary64.search_bmu Real.sqrt W H map sample bmu total_components).y_coord ≤ y) := by
  obtain ⟨dq, hfin, bx, bY, hbx, hby, heq, hb⟩ :=
    binary64_search_bmu_unit_interval W H map sample bmu total_components hW hH hD hs hw
  rw [heq]
  have hbf := hfin bx bY hbx.1 hbx.2 hby.1 hby.2
  refine ⟨⟨hbx, hby⟩, ?_, ?_⟩
  · intro x y hx0 hx1 hy0 hy1
    show Double.le (Binary64.distance_between_sample_and_neuron Real.sqrt sample (map bx bY)
      total_components) _ = true
    rw [hbf.1, (hfin x y hx0 hx1 hy0 hy1).1, double_le_finite]
    exact (hb x y hx0 hx1 hy0 hy1).1
  · intro x y hx0 hx1 hy0 hy1 hmin
    show bx < x ∨ (bx = x ∧ bY ≤ y)
    have h1 := hb x y hx0 hx1 hy0 hy1
    have h2 := hmin bx bY hbx.1 hbx.2 hby.1 hby.2
    rw [hbf.1, (hfin x y hx0 hx1 hy0 hy1).1, double_le_finite] at h2
    exact h1.2 (le_antisymm h2 h1.1)

/-- Witness of `search_bmu_tie_break_computed`: on a 2 × 2 grid whose four neurons are all at
the same computed distance from the sample, the cell `(1,1)` is at the minimal computed
distance and the returned coordinate is lexicographically not larger. -/
theorem search_bmu_tie_break_computed_witness :
    (Binary64.search_bmu Real.sqrt 2 2 (uniform_double_grid (1 / 4))
        (uniform_double_sample (3 / 4)) ⟨-1, -1⟩ 2).x_coord < 1 ∨
      ((Binary64.search_bmu Real.sqrt 2 2 (uniform_double_grid (1 / 4))
          (uniform_double_sample (3 / 4)) ⟨-1, -1⟩ 2).x_coord = 1 ∧
        (Binary64.search_bmu Real.sqrt 2 2 (uniform_double_grid (1 / 4))
          (uniform_double_sample (3 / 4)) ⟨-1, -1⟩ 2).y_coord ≤ 1) :=
  (search_bmu_tie_break_computed 2 2 (uniform_double_grid (1 / 4))
    (uniform_double_sample (3 / 4)) ⟨-1, -1⟩ 2 (by decide) (by decide) (by decide)
    (fun _ _ => ⟨3 / 4, rfl, by norm_num, by norm_num⟩)
    (fun _ _ _ _ _ _ _ _ => ⟨1 / 4, rfl, by norm_num, by norm_num⟩)).2.2 1 1
    (by decide) (by decide) (by decide) (by decide)
    (fun x1 y1 _ _ _ _ => by
      obtain ⟨d, hd, _, _⟩ := binary64_distance_bounds (uniform_double_sample (3 / 4 : ℝ))
        (uniform_double_grid (1 / 4 : ℝ) 1 1) 2 (by decide)
        (fun _ _ => ⟨3 / 4, rfl, by norm_num, by norm_num⟩)
        (fun _ _ => ⟨1 / 4, rfl, by norm_num, by norm_num⟩)
      show Double.le (Binary64.distance_between_sample_and_neuron Real.sqrt
        (uniform_double_sample (3 / 4 : ℝ)) (uniform_double_grid (1 / 4 : ℝ) 1 1) 2)
        (Binary64.distance_between_sample_and_neuron Real.sqrt
        (uniform_double_sample (3 / 4 : ℝ)) (uniform_double_grid (1 / 4 : ℝ) 1 1) 2) = true
      rw [hd, double_le_finite])

/-! ### Range of the coordinate returned by `search_bmu` -/

/-- With the weight 0 and the component `2^512`, a binary64 value, the difference is `2^512`,
its square `2^1024` overflows to `+inf`, and so do the sum and the square root. -/
theorem overflow_distance :
    Binary64.distance_between_sample_and_neuron Real.sqrt (uniform_double_sample (2 ^ 512))
      (⟨fun _ => Double.finite 0⟩ : Neuron (Double ℝ)) 2 = Double.infinity false := by
  rw [binary64_distance_two]
  show Double.sqrt Real.sqrt (Double.add (Double.finite 0)
    (Binary64.pow2 (Double.sub (Double.finite (2 ^ 512)) (Double.finite 0)))) =
    Double.infinity false
  rw [double_sub_exact_mul (2 ^ 512 : ℝ) 0 (2 ^ 512) 1 512 (by norm_num) (by norm_num)
    (by norm_num) (by norm_num)]
  have e : Binary64.pow2 (Double.finite (2 ^ 512 : ℝ)) = Double.round ((2 : ℝ) ^ 1024) := by
    show Double.round ((2 : ℝ) ^ 512 * 2 ^ 512) = _
    rw [← pow_add]
  rw [e, double_round_overflow]
  rfl

/-- C8 (as stated, refuted): on the 300 × 300 grid with every weight 0, for a sample whose
single feature is the binary64 value `2^512`, the Euclidean distance of every neuron is
`2^512`, below `DBL_MAX`, but the square computed in binary64 overflows: every computed
distance is `+inf`, the test `dist < min_dist` never succeeds and `search_bmu` returns the
content `(-1,-1)` that `*bmu` had on entry, which is outside the grid. -/
theorem search_bmu_overflow_example :
    Binary64.search_bmu Real.sqrt MAP_WIDTH MAP_HEIGHT (uniform_double_grid 0)
        (uniform_double_sample (2 ^ 512)) ⟨-1, -1⟩ 2 = ⟨-1, -1⟩ ∧
      ¬ (0 ≤ (Binary64.search_bmu Real.sqrt MAP_WIDTH MAP_HEIGHT (uniform_double_grid 0)
          (uniform_double_sample (2 ^ 512)) ⟨-1, -1⟩ 2).x_coord) ∧
      Binary64.distance_between_sample_and_neuron Real.sqrt (uniform_double_sample (2 ^ 512))
          (uniform_double_grid 0 0 0) 2 = Double.infinity false ∧
      distance_between_sample_and_neuron Real.sqrt (uniform_sample (2 ^ 512))
          (exact_neuron (uniform_double_grid 0 0 0)) 2 < DBL_MAX := by
  have h : Binary64.search_bmu Real.sqrt MAP_WIDTH MAP_HEIGHT (uniform_double_grid 0)
      (uniform_double_sample (2 ^ 512)) ⟨-1, -1⟩ 2 = ⟨-1, -1⟩ := by
    apply binary64_search_bmu_unassigned
    intro x y _ _ _ _
    show Double.lt (Binary64.distance_between_sample_and_neuron Real.sqrt
      (uniform_double_sample (2 ^ 512)) (⟨fun _ => Double.finite 0⟩ : Neuron (Double ℝ)) 2)
      (Double.finite DBL_MAX) = false
    rw [overflow_distance]
    rfl
  rw [h]
  refine ⟨rfl, by decide, overflow_distance, ?_⟩
  have h1 : ((2 : Int) - 1).toNat = 1 := by decide
  unfold distance_between_sample_and_neuron
  rw [h1]
  simp only [List.range_succ, List.range_zero, List.nil_append, List.foldl_cons,
    List.foldl_nil, uniform_sample, exact_neuron, uniform_double_grid, pow2, Double.value,
    zero_add, sub_zero]
  rw [Real.sqrt_mul_self (by norm_num)]
  unfold DBL_MAX
  norm_num

/-- C8 (amended): the coordinate produced by `search_bmu` satisfies `0 ≤ x < W` and
`0 ≤ y < H` when the distance computed in binary64 for at least one neuron of the grid compares
below `DBL_MAX`, which is the case on every grid with `W, H ≥ 1` whose weights, like the
components of the sample, are finite `double` values in `[0,1]`; when no computed distance
compares below `DBL_MAX` (an overflow to `+inf`, a NaN), `search_bmu` does not assign its
output. -/
theorem search_bmu_coordinate_range_computed (W H : Int) (map : Grid (Double ℝ))
    (sample : Sample (Double ℝ)) (bmu : BMU) (total_components : Int) :
    ((∃ x y : Int, 0 ≤ x ∧ x < W ∧ 0 ≤ y ∧ y < H ∧
        Double.lt (Binary64.distance_between_sample_and_neuron Real.sqrt sample (map x y)
          total_components) (Double.finite DBL_MAX) = true) →
      (0 ≤ (Binary64.search_bmu Real.sqrt W H map sample bmu total_components).x_coord ∧
        (Binary64.search_bmu Real.sqrt W H map sample bmu total_components).x_coord < W) ∧
      (0 ≤ (Binary64.search_bmu Real.sqrt W H map sample bmu total_components).y_coord ∧
        (Binary64.search_bmu Real.sqrt W H map sample bmu total_components).y_coord < H)) ∧
    (1 ≤ W → 1 ≤ H → total_components ≤ INT_MAX →
      (∀ i : Nat, (i : Int) < total_components - 1 →
        ∃ c : ℝ, sample.components i = Double.finite c ∧ 0 ≤ c ∧ c ≤ 1) →
      (∀ x y : Int, 0 ≤ x → x < W → 0 ≤ y → y < H →
        ∀ i : Nat, (i : Int) < total_components - 1 →
          ∃ w : ℝ, (map x y).weights i = Double.finite w ∧ 0 ≤ w ∧ w ≤ 1) →
      (0 ≤ (Binary64.search_bmu Real.sqrt W H map sample bmu total_components).x_coord ∧
        (Binary64.search_bmu Real.sqrt W H map sample bmu total_components).x_coord < W) ∧
      (0 ≤ (Binary64.search_bmu Real.sqrt W H map sample bmu total_components).y_coord ∧
        (Binary64.search_bmu Real.sqrt W H map sample bmu total_components).y_coord < H)) ∧
    ((∀ x y : Int, 0 ≤ x → x < W → 0 ≤ y → y < H →
        Double.lt (Binary64.distance_between_sample_and_neuron Real.sqrt sample (map x y)
          total_components) (Double.finite DBL_MAX) = false) →
      Binary64.search_bmu Real.sqrt W H map sample bmu total_components = bmu) := by
  refine ⟨binary64_search_bmu_assigned Real.sqrt W H map sample bmu total_components, ?_,
    binary64_search_bmu_unassigned Real.sqrt W H map sample bmu total_components⟩
  intro hW hH hD hs hw
  apply binary64_search_bmu_assigned
  obtain ⟨d, hd, _, hd1⟩ := binary64_distance_bounds sample (map 0 0) total_components hD hs
    (hw 0 0 (le_refl 0) (by omega) (le_refl 0) (by omega))
  refine ⟨0, 0, le_refl 0, by omega, le_refl 0, by omega, ?_⟩
  rw [hd, double_lt_finite]
  exact hd1

/-- Witness of `search_bmu_coordinate_range_computed`: a 2 × 2 grid with every weight 1/4 and a
sample with every component 3/4, all in `[0,1]`. -/
theorem search_bmu_coordinate_range_computed_witness :
    (0 ≤ (Binary64.search_bmu Real.sqrt 2 2 (uniform_double_grid (1 / 4))
          (uniform_double_sample (3 / 4)) ⟨-1, -1⟩ 2).x_coord ∧
        (Binary64.search_bmu Real.sqrt 2 2 (uniform_double_grid (1 / 4))
          (uniform_double_sample (3 / 4)) ⟨-1, -1⟩ 2).x_coord < 2) ∧
      (0 ≤ (Binary64.search_bmu Real.sqrt 2 2 (uniform_double_grid (1 / 4))
          (uniform_double_sample (3 / 4)) ⟨-1, -1⟩ 2).y_coord ∧
        (Binary64.search_bmu Real.sqrt 2 2 (uniform_double_grid (1 / 4))
          (uniform_double_sample (3 / 4)) ⟨-1, -1⟩ 2).y_coord < 2) :=
  (search_bmu_coordinate_range_computed 2 2 (uniform_double_grid (1 / 4))
    (uniform_double_sample (3 / 4)) ⟨-1, -1⟩ 2).2.1 (by decide) (by decide) (by decide)
    (fun _ _ => ⟨3 / 4, rfl, by norm_num, by norm_num⟩)
    (fun _ _ _ _ _ _ _ _ => ⟨1 / 4, rfl, by norm_num, by norm_num⟩)

/-! ## Neighborhood update with the computed offset distance -/

section ComputedReference

variable {K : Type} [LinearOrderedField K] [FloorRing K]

theorem mem_neighborhood_offsets_computed (sqrt : K → K) (r : K) (o : Int × Int) :
    o ∈ neighborhood_offsets_computed sqrt r ↔
      (-⌊r⌋ ≤ o.1 ∧ o.1 < ⌊r⌋) ∧ (-⌊r⌋ ≤ o.2 ∧ o.2 < ⌊r⌋) ∧
        sqrt ((o.1 : K) ^ 2 + (o.2 : K) ^ 2) < r := by
  unfold neighborhood_offsets_computed
  simp only [List.mem_flatMap, List.mem_map, List.mem_filter, mem_int_range, decide_eq_true_eq]
  constructor
  · rintro ⟨dy, hdy, dx, ⟨hdx, hlt⟩, rfl⟩
    exact ⟨hdx, hdy, hlt⟩
  · rintro ⟨hdx, hdy, hlt⟩
    exact ⟨o.2, hdy, o.1, ⟨hdx, hlt⟩, rfl⟩

/-- Under the side conditions of the neighborhood update (in-range BMU and
`1 ≤ floor r ≤ min(W,H)`) the calls made by `scale_neighbors` are, for any function `sqrt`, the
blends at the cells `((bx+dx) mod W, (by+dy) mod H)` of the offsets whose distance returned by
`sqrt` is below `r`, in the same order. -/
theorem scale_neighbors_calls_eq_computed (sqrt exp : K → K) (W H : Int) (bmu : BMU) (r a : K)
    (hbx : 0 ≤ bmu.x_coord ∧ bmu.x_coord < W) (hby : 0 ≤ bmu.y_coord ∧ bmu.y_coord < H)
    (hr : 1 ≤ ⌊r⌋) (hrW : ⌊r⌋ ≤ W) (hrH : ⌊r⌋ ≤ H) :
    scale_neighbors_calls sqrt exp W H bmu r a =
      (neighborhood_offsets_computed sqrt r).map (fun o =>
        ((bmu.x_coord + o.1) % W, (bmu.y_coord + o.2) % H,
          gaussian_scale_computed sqrt exp r a o)) := by
  unfold scale_neighbors_calls neighborhood_offsets_computed
  simp only []
  rw [c_trunc_eq_floor r hr, List.map_flatMap]
  apply List.flatMap_congr
  intro y hy
  rw [List.map_map, map_filter_eq_filterMap_ite]
  apply List.filterMap_congr
  intro x hx
  rw [mem_int_range] at hx hy
  have hsq : ((x : K) - 0) * ((x : K) - 0) + ((y : K) - 0) * ((y : K) - 0) =
      (x : K) ^ 2 + (y : K) ^ 2 := by ring
  have hdist : get_coordinate_distance sqrt ⟨(x : K), (y : K)⟩ ⟨0, 0⟩ =
      sqrt ((x : K) ^ 2 + (y : K) ^ 2) := by
    unfold get_coordinate_distance
    simp only []
    rw [hsq]
  have hwx := wrap_coord_emod W (x + bmu.x_coord) (by omega) (by omega)
  have hwy := wrap_coord_emod H (y + bmu.y_coord) (by omega) (by omega)
  rw [hdist]
  by_cases hc : sqrt ((x : K) ^ 2 + (y : K) ^ 2) < r
  · rw [if_pos hc]
    simp only [Function.comp, hc, if_true]
    rw [hwx, hwy, add_comm x, add_comm y]
    rfl
  · rw [if_neg hc]
    simp only [Function.comp, hc, if_false]

/-- Under the side conditions, `scale_neighbors` succeeds and its result is the fold of the
blends of its calls. -/
theorem scale_neighbors_eq_foldl_calls (sqrt exp : K → K) (W H : Int) (map : Grid K) (bmu : BMU)
    (sample : Sample K) (r a : K) (D : Int)
    (hbx : 0 ≤ bmu.x_coord ∧ bmu.x_coord < W) (hby : 0 ≤ bmu.y_coord ∧ bmu.y_coord < H)
    (hr : 1 ≤ ⌊r⌋) (hrW : ⌊r⌋ ≤ W) (hrH : ⌊r⌋ ≤ H) :
    scale_neighbors sqrt exp W H map bmu sample r a D =
      some ((scale_neighbors_calls sqrt exp W H bmu r a).foldl
        (fun g t => blend_at g t.1 t.2.1 sample t.2.2 D) map) := by
  rw [scale_neighbors_eq_calls]
  apply foldlM_eq_some_foldl
  intro m c hc
  rw [scale_neighbors_calls_eq_computed sqrt exp W H bmu r a hbx hby hr hrW hrH,
    List.mem_map] at hc
  obtain ⟨o, _, rfl⟩ := hc
  rw [scale_neuron_at_position_eq]
  have hW : 0 < W := by omega
  have hH : 0 < H := by omega
  rw [if_pos ⟨Int.emod_nonneg _ (by omega), Int.emod_lt_of_pos _ hW,
    Int.emod_nonneg _ (by omega), Int.emod_lt_of_pos _ hH⟩]

/-- Under the side conditions, `scale_neighbors` succeeds and computes the grid of
`scale_neighbors_reference_computed`. -/
theorem scale_neighbors_eq_reference_computed (sqrt exp : K → K) (W H : Int) (map : Grid K)
    (bmu : BMU) (sample : Sample K) (r a : K) (D : Int)
    (hbx : 0 ≤ bmu.x_coord ∧ bmu.x_coord < W) (hby : 0 ≤ bmu.y_coord ∧ bmu.y_coord < H)
    (hr : 1 ≤ ⌊r⌋) (hrW : ⌊r⌋ ≤ W) (hrH : ⌊r⌋ ≤ H) :
    scale_neighbors sqrt exp W H map bmu sample r a D =
      some (scale_neighbors_reference_computed sqrt exp W H map bmu sample r a D) := by
  rw [scale_neighbors_eq_foldl_calls sqrt exp W H map bmu sample r a D hbx hby hr hrW hrH,
    scale_neighbors_calls_eq_computed sqrt exp W H bmu r a hbx hby hr hrW hrH, List.foldl_map]
  rfl

theorem scale_neighbors_reference_computed_frame (sqrt exp : K → K) (W H : Int) (map : Grid K)
    (bmu : BMU) (sample : Sample K) (r a : K) (D : Int) (x y : Int)
    (h : ∀ o ∈ neighborhood_offsets_computed sqrt r,
      ¬ (x = (bmu.x_coord + o.1) % W ∧ y = (bmu.y_coord + o.2) % H)) :
    scale_neighbors_reference_computed sqrt exp W H map bmu sample r a D x y = map x y := by
  unfold scale_neighbors_reference_computed
  apply foldl_invariant (fun g : Grid K => g x y = map x y)
  · rfl
  · intro g o ho hg
    show blend_at g _ _ sample _ D x y = map x y
    rw [blend_at_other _ _ _ _ _ _ _ _ (h o ho)]
    exact hg

end ComputedReference

theorem mem_cell_scales {K : Type} (l : List (Int × Int × K)) (x y : Int) (s : K) :
    s ∈ cell_scales l x y ↔ (x, y, s) ∈ l := by
  unfold cell_scales
  simp only [List.mem_map, List.mem_filter, decide_eq_true_eq]
  constructor
  · rintro ⟨c, ⟨hc, h1, h2⟩, rfl⟩
    rw [← h1, ← h2]
    exact hc
  · intro h
    exact ⟨(x, y, s), ⟨h, rfl, rfl⟩, rfl⟩

section CellLemmas

variable {K : Type} [LinearOrderedField K]

/-- The weights of a neuron after a sequence of blends are the weights it had, blended with
the scale factors of the calls that target it, in order. -/
theorem foldl_blend_at_cell (l : List (Int × Int × K)) (g : Grid K) (sample : Sample K)
    (D : Int) (x y : Int) :
    ((l.foldl (fun g t => blend_at g t.1 t.2.1 sample t.2.2 D) g) x y).weights =
      (cell_scales l x y).foldl (fun w s => blend_weights w sample s D) (g x y).weights := by
  induction l generalizing g with
  | nil => rfl
  | cons t l ih =>
    rw [List.foldl_cons, ih]
    unfold cell_scales
    by_cases hc : t.1 = x ∧ t.2.1 = y
    · rw [List.filter_cons_of_pos (by simpa using hc), List.map_cons, List.foldl_cons]
      congr 1
      unfold blend_at
      rw [if_pos ⟨hc.1.symm, hc.2.symm⟩, hc.1, hc.2]
    · rw [List.filter_cons_of_neg (by simpa using hc)]
      congr 1
      rw [blend_at_other _ _ _ _ _ _ _ _ (fun h => hc ⟨h.1.symm, h.2.symm⟩)]

theorem blend_weights_sub (w : Nat → K) (sample : Sample K) (s : K) (D : Int) (i : Nat)
    (hi : (i : Int) < D - 1) :
    blend_weights w sample s D i - sample.components i =
      (1 - s) * (w i - sample.components i) := by
  unfold blend_weights
  rw [if_pos hi]
  ring

/-- Blending with scale factors in `[0,1]` never moves a weight away from the component of the
sample. -/
theorem blend_fold_nonexpanding (L : List K) (sample : Sample K) (D : Int) (i : Nat)
    (hi : (i : Int) < D - 1) (hL : ∀ s ∈ L, 0 ≤ s ∧ s ≤ 1) (w : Nat → K) :
    |(L.foldl (fun w s => blend_weights w sample s D) w) i - sample.components i| ≤
      |w i - sample.components i| := by
  induction L generalizing w with
  | nil => exact le_refl _
  | cons s L ih =>
    rw [List.foldl_cons]
    refine le_trans (ih (fun s1 h1 => hL s1 (List.mem_cons_of_mem s h1)) _) ?_
    obtain ⟨h0, h1⟩ := hL s (List.mem_cons_self s L)
    rw [blend_weights_sub w sample s D i hi, abs_mul, abs_of_nonneg (sub_nonneg.mpr h1)]
    have := abs_nonneg (w i - sample.components i)
    nlinarith

/-- Blending with scale factors in `[0,1]`, one of which is `s0`, brings a weight to within
`(1 - s0)` times its former distance from the component of the sample. -/
theorem blend_fold_contracts (L : List K) (sample : Sample K) (D : Int) (i : Nat)
    (hi : (i : Int) < D - 1) (hL : ∀ s ∈ L, 0 ≤ s ∧ s ≤ 1) (s0 : K) (hs0 : s0 ∈ L)
    (w : Nat → K) :
    |(L.foldl (fun w s => blend_weights w sample s D) w) i - sample.components i| ≤
      (1 - s0) * |w i - sample.components i| := by
  induction L generalizing w with
  | nil => exact absurd hs0 (List.not_mem_nil s0)
  | cons s L ih =>
    rw [List.foldl_cons]
    have hL1 : ∀ s1 ∈ L, 0 ≤ s1 ∧ s1 ≤ 1 := fun s1 h1 => hL s1 (List.mem_cons_of_mem s h1)
    obtain ⟨h0, h1⟩ := hL s (List.mem_cons_self s L)
    have hstep : |blend_weights w sample s D i - sample.components i| =
        (1 - s) * |w i - sample.components i| := by
      rw [blend_weights_sub w sample s D i hi, abs_mul, abs_of_nonneg (sub_nonneg.mpr h1)]
    rcases List.mem_cons.mp hs0 with rfl | hin
    · refine le_trans (blend_fold_nonexpanding L sample D i hi hL1 _) ?_
      rw [hstep]
    · refine le_trans (ih hL1 hin _) ?_
      rw [hstep]
      obtain ⟨g0, g1⟩ := hL1 s0 hin
      have := abs_nonneg (w i - sample.components i)
      have h2 : (1 - s) * |w i - sample.components i| ≤ |w i - sample.components i| := by
        nlinarith
      exact mul_le_mul_of_nonneg_left h2 (sub_nonneg.mpr g1)

end CellLemmas

theorem gaussian_scale_computed_bounds (sqrt : ℝ → ℝ) (r a : ℝ) (o : Int × Int) (ha0 : 0 < a) :
    0 < gaussian_scale_computed sqrt Real.exp r a o ∧
      gaussian_scale_computed sqrt Real.exp r a o ≤ a := by
  unfold gaussian_scale_computed
  have hpos := Real.exp_pos (-10 * (sqrt ((o.1 : ℝ) ^ 2 + (o.2 : ℝ) ^ 2) *
    sqrt ((o.1 : ℝ) ^ 2 + (o.2 : ℝ) ^ 2)) / (r * r))
  have hle : Real.exp (-10 * (sqrt ((o.1 : ℝ) ^ 2 + (o.2 : ℝ) ^ 2) *
      sqrt ((o.1 : ℝ) ^ 2 + (o.2 : ℝ) ^ 2)) / (r * r)) ≤ 1 := by
    rw [Real.exp_le_one_iff, mul_div_assoc]
    have : 0 ≤ (sqrt ((o.1 : ℝ) ^ 2 + (o.2 : ℝ) ^ 2) * sqrt ((o.1 : ℝ) ^ 2 + (o.2 : ℝ) ^ 2)) /
        (r * r) := div_nonneg (mul_self_nonneg _) (mul_self_nonneg _)
    linarith
  constructor
  · exact mul_pos ha0 hpos
  · nlinarith

/-! ### The binary64 square root at the offsets next to the BMU -/

theorem sqrt_binary64_zero : sqrt_binary64 Real.sqrt 0 = 0 := by
  unfold sqrt_binary64
  rw [Real.sqrt_zero, round_binary64_zero]

theorem sqrt_binary64_one : sqrt_binary64 Real.sqrt 1 = 1 := by
  unfold sqrt_binary64
  rw [Real.sqrt_one]
  have h := round_binary64_exact (K := ℝ) 1 0 (by norm_num) (by norm_num)
  simpa using h

/-- The square root of 2 is rounded to `SQRT2_BINARY64`, which is larger than the square root
of 2. -/
theorem sqrt_binary64_two : sqrt_binary64 Real.sqrt 2 = SQRT2_BINARY64 := by
  unfold sqrt_binary64 SQRT2_BINARY64
  have h := sqrt_binary64_eq_unit 2 6369051672525773 (by norm_num) (by norm_num) (by norm_num)
    (by norm_num) (by norm_num)
  rw [h]
  norm_num

/-- The rounded square root of a value in `[0, 4]` is at most 2. -/
theorem sqrt_binary64_le_two (x : ℝ) (hx : x ≤ 4) : sqrt_binary64 Real.sqrt x ≤ 2 := by
  unfold sqrt_binary64
  have h4 : Real.sqrt x ≤ 2 := by
    rw [Real.sqrt_le_left (by norm_num)]
    norm_num
    exact hx
  have h := round_binary64_le (Real.sqrt x) 2 0 (by norm_num) (by norm_num)
    (by simpa using h4)
  simpa using h

theorem floor_sqrt2_binary64 : ⌊(SQRT2_BINARY64 : ℝ)⌋ = 1 := by
  unfold SQRT2_BINARY64
  rw [Int.floor_eq_iff]
  constructor <;> norm_num

/-! ### Refinement -/

/-- C4 (as stated, refuted): the radius `r = 1.4142135623730951`, the binary64 value nearest
to the square root of 2, is slightly larger than the square root of 2, so the offset
`(-1,-1)` satisfies `dx^2 + dy^2 = 2 < r^2` and belongs to the offsets of the claim.  The
distance that `scale_neighbors` computes for it is `sqrt(2.0)`, which is rounded to `r` itself,
and the test `distance < r` fails: on the 300 × 300 grid with BMU `(150,150)`, all weights 0 and
the sample component 1, the neuron at `(149,149)` is not blended (its weight is still 0), while
the blend of the claim, with its positive scale factor, moves that weight away from 0. -/
theorem scale_neighbors_rounded_distance_example :
    ((-1 : Int), (-1 : Int)) ∈ neighborhood_offsets (SQRT2_BINARY64 : ℝ) ∧
      sqrt_binary64 Real.sqrt (((-1 : Int) : ℝ) ^ 2 + ((-1 : Int) : ℝ) ^ 2) = SQRT2_BINARY64 ∧
      (∃ map1, scale_neighbors (sqrt_binary64 Real.sqrt) Real.exp MAP_WIDTH MAP_HEIGHT
          (uniform_grid 0) ⟨150, 150⟩ (uniform_sample 1) SQRT2_BINARY64 (1 / 2) 2 = some map1 ∧
        (map1 149 149).weights 0 = 0) ∧
      (scale_neighbors_reference Real.exp MAP_WIDTH MAP_HEIGHT (uniform_grid 0) ⟨150, 150⟩
        (uniform_sample 1) SQRT2_BINARY64 (1 / 2) 2 149 149).weights 0 ≠ 0 := by
  have hfl := floor_sqrt2_binary64
  have hmem : ((-1 : Int), (-1 : Int)) ∈ neighborhood_offsets (SQRT2_BINARY64 : ℝ) := by
    rw [mem_neighborhood_offsets, hfl]
    refine ⟨by decide, by decide, ?_⟩
    unfold SQRT2_BINARY64
    norm_num
  have hsq : sqrt_binary64 Real.sqrt (((-1 : Int) : ℝ) ^ 2 + ((-1 : Int) : ℝ) ^ 2) =
      SQRT2_BINARY64 := by
    rw [← sqrt_binary64_two]
    norm_num
  refine ⟨hmem, hsq, ?_, ?_⟩
  · refine ⟨_, scale_neighbors_eq_reference_computed (sqrt_binary64 Real.sqrt) Real.exp
      MAP_WIDTH MAP_HEIGHT (uniform_grid 0) ⟨150, 150⟩ (uniform_sample 1) SQRT2_BINARY64
      (1 / 2) 2 ⟨by decide, by decide⟩ ⟨by decide, by decide⟩ (by rw [hfl])
      (by rw [hfl]; decide) (by rw [hfl]; decide), ?_⟩
    rw [scale_neighbors_reference_computed_frame]
    · rfl
    · intro o ho
      rw [mem_neighborhood_offsets_computed, hfl] at ho
      obtain ⟨⟨h1, h2⟩, ⟨h3, h4⟩, hlt⟩ := ho
      unfold MAP_WIDTH MAP_HEIGHT
      show ¬ ((149 : Int) = (150 + o.1) % 300 ∧ (149 : Int) = (150 + o.2) % 300)
      rintro ⟨e1, e2⟩
      have o1 : o.1 = -1 := by omega
      have o2 : o.2 = -1 := by omega
      rw [o1, o2, hsq] at hlt
      exact lt_irrefl _ hlt
  · have hcell : ((⟨150, 150⟩ : BMU).x_coord + (-1 : Int)) % MAP_WIDTH = 149 ∧
        ((⟨150, 150⟩ : BMU).y_coord + (-1 : Int)) % MAP_HEIGHT = 149 := by
      constructor <;> decide
    have hfold : (scale_neighbors_reference Real.exp MAP_WIDTH MAP_HEIGHT (uniform_grid 0)
        ⟨150, 150⟩ (uniform_sample 1) SQRT2_BINARY64 (1 / 2) 2 149 149).weights =
        (cell_scales ((neighborhood_offsets (SQRT2_BINARY64 : ℝ)).map (fun o =>
          (((⟨150, 150⟩ : BMU).x_coord + o.1) % MAP_WIDTH,
            ((⟨150, 150⟩ : BMU).y_coord + o.2) % MAP_HEIGHT,
            gaussian_scale Real.exp SQRT2_BINARY64 (1 / 2) o))) 149 149).foldl
          (fun w s => blend_weights w (uniform_sample 1) s 2)
          ((uniform_grid (0 : ℝ)) 149 149).weights := by
      rw [← foldl_blend_at_cell, List.foldl_map]
      rfl
    have hin : gaussian_scale Real.exp SQRT2_BINARY64 (1 / 2) ((-1 : Int), (-1 : Int)) ∈
        cell_scales ((neighborhood_offsets (SQRT2_BINARY64 : ℝ)).map (fun o =>
          (((⟨150, 150⟩ : BMU).x_coord + o.1) % MAP_WIDTH,
            ((⟨150, 150⟩ : BMU).y_coord + o.2) % MAP_HEIGHT,
            gaussian_scale Real.exp SQRT2_BINARY64 (1 / 2) o))) 149 149 := by
      rw [mem_cell_scales, List.mem_map]
      exact ⟨((-1 : Int), (-1 : Int)), hmem, by rw [hcell.1, hcell.2]⟩
    have hall : ∀ s ∈ cell_scales ((neighborhood_offsets (SQRT2_BINARY64 : ℝ)).map (fun o =>
          (((⟨150, 150⟩ : BMU).x_coord + o.1) % MAP_WIDTH,
            ((⟨150, 150⟩ : BMU).y_coord + o.2) % MAP_HEIGHT,
            gaussian_scale Real.exp SQRT2_BINARY64 (1 / 2) o))) 149 149, 0 ≤ s ∧ s ≤ 1 := by
      intro s hs
      rw [mem_cell_scales, List.mem_map] at hs
      obtain ⟨o, _, heq⟩ := hs
      have hs2 : gaussian_scale Real.exp SQRT2_BINARY64 (1 / 2) o = s :=
        congrArg (fun c => c.2.2) heq
      have hb := gaussian_scale_bounds SQRT2_BINARY64 (1 / 2) o (by norm_num)
      rw [hs2] at hb
      exact ⟨le_of_lt hb.1, by linarith [hb.2]⟩
    have hc := blend_fold_contracts _ (uniform_sample (1 : ℝ)) 2 0 (by decide) hall _ hin
      ((uniform_grid (0 : ℝ)) 149 149).weights
    rw [← hfold] at hc
    have hpos := (gaussian_scale_bounds SQRT2_BINARY64 (1 / 2) ((-1 : Int), (-1 : Int))
      (by norm_num)).1
    intro h0
    rw [h0] at hc
    simp only [uniform_sample, uniform_grid, zero_sub, abs_neg, abs_one, mul_one] at hc
    linarith

/-- C4 (amended): for an in-range BMU and a radius with `1 ≤ floor r ≤ min(W,H)`, whatever
value `sqrt` returns for the sum of squares of an offset, `scale_neighbors` succeeds and its
result is the grid of `scale_neighbors_reference_computed`: the blend
`weight[i] := weight[i]*(1-s) + sample.component[i]*s`, `s = a*exp(-10 (d*d)/(r*r))`, applied
at the wrapped cell `((bx+dx) mod W, (by+dy) mod H)` for the offsets of
`neighborhood_offsets_computed` (`dy` outer, `dx` inner, ascending), which are exactly the
integer offsets with `-floor r ≤ dx < floor r`, `-floor r ≤ dy < floor r` whose distance
`d = sqrt(dx^2 + dy^2)`, as returned by `sqrt`, satisfies `d < r`; a neuron that is the target
of no such offset is unchanged. -/
theorem scale_neighbors_refinement_computed {K : Type} [LinearOrderedField K] [FloorRing K]
    (sqrt exp : K → K) (W H : Int) (map : Grid K) (bmu : BMU) (sample : Sample K)
    (r a : K) (D : Int)
    (hbx : 0 ≤ bmu.x_coord ∧ bmu.x_coord < W) (hby : 0 ≤ bmu.y_coord ∧ bmu.y_coord < H)
    (hr : 1 ≤ ⌊r⌋) (hrm : ⌊r⌋ ≤ min W H) :
    scale_neighbors sqrt exp W H map bmu sample r a D =
        some (scale_neighbors_reference_computed sqrt exp W H map bmu sample r a D) ∧
      (∀ o : Int × Int, o ∈ neighborhood_offsets_computed sqrt r ↔
        (-⌊r⌋ ≤ o.1 ∧ o.1 < ⌊r⌋) ∧ (-⌊r⌋ ≤ o.2 ∧ o.2 < ⌊r⌋) ∧
          sqrt ((o.1 : K) ^ 2 + (o.2 : K) ^ 2) < r) ∧
      ∀ x y : Int,
        (∀ o ∈ neighborhood_offsets_computed sqrt r,
          ¬ (x = (bmu.x_coord + o.1) % W ∧ y = (bmu.y_coord + o.2) % H)) →
        ∀ map1, scale_neighbors sqrt exp W H map bmu sample r a D = some map1 →
          map1 x y = map x y := by
  have hrW : ⌊r⌋ ≤ W := le_trans hrm (min_le_left _ _)
  have hrH : ⌊r⌋ ≤ H := le_trans hrm (min_le_right _ _)
  have heq := scale_neighbors_eq_reference_computed sqrt exp W H map bmu sample r a D hbx hby hr
    hrW hrH
  refine ⟨heq, mem_neighborhood_offsets_computed sqrt r, ?_⟩
  intro x y hxy map1 hmap1
  rw [heq] at hmap1
  have h1 : scale_neighbors_reference_computed sqrt exp W H map bmu sample r a D = map1 :=
    Option.some.inj hmap1
  rw [← h1]
  exact scale_neighbors_reference_computed_frame sqrt exp W H map bmu sample r a D x y hxy

theorem floor_five_halves : ⌊(5 / 2 : ℝ)⌋ = 2 := by
  rw [Int.floor_eq_iff]
  constructor <;> norm_num

/-- Witness of `scale_neighbors_refinement_computed`: an 8 × 8 grid with every weight 1/2, a
sample with every component 1/4, BMU `(0,0)`, radius 2.5 (16 scanned offsets, wrapping to the
opposite edges), learning rate 1/2, and the binary64 square root. -/
theorem scale_neighbors_refinement_computed_witness :
    scale_neighbors (sqrt_binary64 Real.sqrt) Real.exp 8 8 (uniform_grid (1 / 2)) ⟨0, 0⟩
        (uniform_sample (1 / 4)) (5 / 2) (1 / 2) 2 =
      some (scale_neighbors_reference_computed (sqrt_binary64 Real.sqrt) Real.exp 8 8
        (uniform_grid (1 / 2)) ⟨0, 0⟩ (uniform_sample (1 / 4)) (5 / 2) (1 / 2) 2) :=
  (scale_neighbors_refinement_computed (sqrt_binary64 Real.sqrt) Real.exp 8 8
    (uniform_grid (1 / 2)) ⟨0, 0⟩ (uniform_sample (1 / 4)) (5 / 2) (1 / 2) 2
    ⟨by decide, by decide⟩ ⟨by decide, by decide⟩
    (by rw [floor_five_halves]; decide) (by rw [floor_five_halves]; decide)).1

/-! ### Coverage -/

theorem floor_scan_radius : ⌊(267 / 2 : ℝ)⌋ = 133 := by
  rw [Int.floor_eq_iff]
  constructor <;> norm_num

/-- The binary64 square root of the square of an integer below `2^53` is that integer. -/
theorem sqrt_binary64_sq (n : Nat) (hn : (n : Int) < 2 ^ 53) :
    sqrt_binary64 Real.sqrt ((n : ℝ) * (n : ℝ)) = (n : ℝ) := by
  unfold sqrt_binary64
  rw [Real.sqrt_mul_self (Nat.cast_nonneg n)]
  have h := round_binary64_exact (K := ℝ) (n : Int) 0
    (by rw [abs_of_nonneg (Int.natCast_nonneg n)]; exact hn) (by norm_num)
  simpa using h

/-- On the 300 × 300 grid with BMU `(0,0)` and radius 301.5, when the distance returned by
`sqrt` for the offset `(0, -301)` is below the radius, `scale_neighbors` calls
`scale_neuron_at_position` with the row `wrap(-301) = -1`, outside the grid. -/
theorem scale_neighbors_out_of_grid_computed (sqrt exp : ℝ → ℝ) (map : Grid ℝ)
    (sample : Sample ℝ) (a : ℝ) (D : Int)
    (hd : get_coordinate_distance sqrt ⟨((0 : Int) : ℝ), ((-301 : Int) : ℝ)⟩ ⟨0, 0⟩ < 603 / 2) :
    scale_neighbors sqrt exp MAP_WIDTH MAP_HEIGHT map ⟨0, 0⟩ sample (603 / 2) a D = none := by
  rw [scale_neighbors_eq_calls]
  have hfl : c_trunc (603 / 2 : ℝ) = 301 := by
    unfold c_trunc
    rw [if_pos (by norm_num)]
    rw [Int.floor_eq_iff]
    constructor <;> norm_num
  apply foldlM_eq_none_of_mem _ _ _
    (wrap_coord MAP_WIDTH (0 + 0), wrap_coord MAP_HEIGHT (-301 + 0),
      a * exp (-10 *
        (get_coordinate_distance sqrt ⟨((0 : Int) : ℝ), ((-301 : Int) : ℝ)⟩ ⟨0, 0⟩ *
          get_coordinate_distance sqrt ⟨((0 : Int) : ℝ), ((-301 : Int) : ℝ)⟩ ⟨0, 0⟩) /
        (603 / 2 * (603 / 2))))
  · unfold scale_neighbors_calls
    simp only []
    rw [hfl, List.mem_flatMap]
    refine ⟨-301, (mem_int_range _ _ _).mpr (by decide), ?_⟩
    rw [List.mem_filterMap]
    refine ⟨0, (mem_int_range _ _ _).mpr (by decide), ?_⟩
    rw [if_pos hd]
  · intro m
    rw [scale_neuron_at_position_eq]
    apply if_neg
    rintro ⟨_, _, h, _⟩
    have hrow : ¬ (0 ≤ wrap_coord MAP_HEIGHT (-301 + 0)) := by decide
    exact hrow h

/-- C5 (as stated, refuted), in the three ways the amended claim excludes, with the binary64
square root.
(1) On the 300 × 300 grid with BMU `(150,150)` and the radius 133.5, the offset `(133, 0)` has
length `133 < 133.5`, exactly and as computed, but the scan stops at `dx = 132`: no call
targets the cell `(283, 150)`, and its weight, 0 before the update, is still 0 afterwards
although the sample component is 1 and the learning rate is positive.
(2) With the radius `1/2 > 0` the loops run over the empty range `[0, 0)`: no call is made and
the grid is returned as it was, the BMU cell included (offset `(0,0)`, length `0 < 1/2`).
(3) With the radius `301.5` and BMU `(0,0)` the update indexes `map` outside the grid. -/
theorem scale_neighbors_misses_scanned_range :
    (Real.sqrt ((133 : ℝ) ^ 2 + (0 : ℝ) ^ 2) < 267 / 2 ∧
      sqrt_binary64 Real.sqrt ((133 : ℝ) ^ 2 + (0 : ℝ) ^ 2) < 267 / 2 ∧
      (∀ s : ℝ, (283, 150, s) ∉
        scale_neighbors_calls (sqrt_binary64 Real.sqrt) Real.exp MAP_WIDTH MAP_HEIGHT
          ⟨150, 150⟩ (267 / 2) (1 / 2)) ∧
      ∃ map1, scale_neighbors (sqrt_binary64 Real.sqrt) Real.exp MAP_WIDTH MAP_HEIGHT
          (uniform_grid 0) ⟨150, 150⟩ (uniform_sample 1) (267 / 2) (1 / 2) 2 = some map1 ∧
        (map1 283 150).weights 0 = 0 ∧ (uniform_sample (1 : ℝ)).components 0 = 1) ∧
    (sqrt_binary64 Real.sqrt ((0 : ℝ) ^ 2 + (0 : ℝ) ^ 2) < 1 / 2 ∧
      scale_neighbors_calls (sqrt_binary64 Real.sqrt) Real.exp MAP_WIDTH MAP_HEIGHT
        ⟨150, 150⟩ (1 / 2) (1 / 2) = [] ∧
      scale_neighbors (sqrt_binary64 Real.sqrt) Real.exp MAP_WIDTH MAP_HEIGHT (uniform_grid 0)
        ⟨150, 150⟩ (uniform_sample 1) (1 / 2) (1 / 2) 2 = some (uniform_grid 0)) ∧
    scale_neighbors (sqrt_binary64 Real.sqrt) Real.exp MAP_WIDTH MAP_HEIGHT (uniform_grid 0)
      ⟨0, 0⟩ (uniform_sample 1) (603 / 2) (1 / 2) 2 = none := by
  have hfl := floor_scan_radius
  have hmiss : ∀ o ∈ neighborhood_offsets_computed (sqrt_binary64 Real.sqrt) (267 / 2 : ℝ),
      ¬ ((283 : Int) = ((⟨150, 150⟩ : BMU).x_coord + o.1) % MAP_WIDTH ∧
        (150 : Int) = ((⟨150, 150⟩ : BMU).y_coord + o.2) % MAP_HEIGHT) := by
    intro o ho
    rw [mem_neighborhood_offsets_computed, hfl] at ho
    obtain ⟨⟨h1, h2⟩, _, _⟩ := ho
    unfold MAP_WIDTH MAP_HEIGHT
    show ¬ ((283 : Int) = (150 + o.1) % 300 ∧ (150 : Int) = (150 + o.2) % 300)
    omega
  have hcalls : scale_neighbors_calls (sqrt_binary64 Real.sqrt) Real.exp MAP_WIDTH MAP_HEIGHT
      ⟨150, 150⟩ (1 / 2) (1 / 2) = [] :=
    scale_neighbors_calls_eq_nil _ _ _ _ _ _ _ (by
      rw [Int.floor_le_iff]
      norm_num)
  refine ⟨⟨?_, ?_, ?_, ?_⟩, ⟨?_, hcalls, ?_⟩, ?_⟩
  · rw [Real.sqrt_lt' (by norm_num)]
    norm_num
  · have h := sqrt_binary64_sq 133 (by norm_num)
    have e : ((133 : ℝ) ^ 2 + (0 : ℝ) ^ 2) = ((133 : Nat) : ℝ) * ((133 : Nat) : ℝ) := by
      norm_num
    rw [e, h]
    norm_num
  · intro s hs
    rw [scale_neighbors_calls_eq_computed (sqrt_binary64 Real.sqrt) Real.exp MAP_WIDTH
      MAP_HEIGHT ⟨150, 150⟩ (267 / 2) (1 / 2)
      ⟨by decide, by decide⟩ ⟨by decide, by decide⟩ (by rw [hfl]; decide)
      (by rw [hfl]; decide) (by rw [hfl]; decide), List.mem_map] at hs
    obtain ⟨o, ho, heq⟩ := hs
    have h1 : ((⟨150, 150⟩ : BMU).x_coord + o.1) % MAP_WIDTH = 283 := congrArg Prod.fst heq
    have h2 : ((⟨150, 150⟩ : BMU).y_coord + o.2) % MAP_HEIGHT = 150 :=
      congrArg (fun c => c.2.1) heq
    exact hmiss o ho ⟨h1.symm, h2.symm⟩
  · refine ⟨_, scale_neighbors_eq_reference_computed (sqrt_binary64 Real.sqrt) Real.exp
      MAP_WIDTH MAP_HEIGHT (uniform_grid 0) ⟨150, 150⟩
      (uniform_sample 1) (267 / 2) (1 / 2) 2 ⟨by decide, by decide⟩ ⟨by decide, by decide⟩
      (by rw [hfl]; decide) (by rw [hfl]; decide) (by rw [hfl]; decide), ?_, rfl⟩
    rw [scale_neighbors_reference_computed_frame (sqrt_binary64 Real.sqrt) Real.exp MAP_WIDTH
      MAP_HEIGHT (uniform_grid 0) ⟨150, 150⟩ (uniform_sample 1) (267 / 2) (1 / 2) 2 283 150
      hmiss]
    rfl
  · have e : ((0 : ℝ) ^ 2 + (0 : ℝ) ^ 2) = 0 := by norm_num
    rw [e, sqrt_binary64_zero]
    norm_num
  · rw [scale_neighbors_eq_calls, hcalls]
    rfl
  · apply scale_neighbors_out_of_grid_computed
    unfold get_coordinate_distance
    simp only []
    have h := sqrt_binary64_sq 301 (by norm_num)
    have e : ((((0 : Int) : ℝ) - 0) * (((0 : Int) : ℝ) - 0) +
        (((-301 : Int) : ℝ) - 0) * (((-301 : Int) : ℝ) - 0)) =
        ((301 : Nat) : ℝ) * ((301 : Nat) : ℝ) := by
      norm_num
    rw [e, h]
    norm_num

/-- C5 (amended): for an in-range BMU, a radius with `1 ≤ floor r ≤ min(W,H)` and a learning
rate `a > 0`, whatever value `sqrt` returns for the sum of squares of an offset,
`scale_neighbors` succeeds and the weights of every neuron of the resulting grid are its
former weights blended, in order, with the scale factors of the calls that target it; for every
integer offset `(dx,dy)` inside the scanned range `-floor r ≤ dx, dy < floor r` whose distance
`d = sqrt(dx^2+dy^2)`, as returned by `sqrt`, is below `r`, the neuron at the wrapped cell is
blended with the positive scale `s = a*exp(-10 (d*d)/(r*r))`, and when `a ≤ 1` every weight of
that neuron ends within `(1 - s)` times its former distance from the component of the sample;
in particular, when `sqrt(0) = 0`, the BMU cell itself is blended with scale `a`. -/
theorem scale_neighbors_coverage_computed (sqrt : ℝ → ℝ) (W H : Int) (map : Grid ℝ) (bmu : BMU)
    (sample : Sample ℝ) (r a : ℝ) (D : Int)
    (hbx : 0 ≤ bmu.x_coord ∧ bmu.x_coord < W) (hby : 0 ≤ bmu.y_coord ∧ bmu.y_coord < H)
    (hr : 1 ≤ ⌊r⌋) (hrm : ⌊r⌋ ≤ min W H) (ha : 0 < a) :
    ∃ map1, scale_neighbors sqrt Real.exp W H map bmu sample r a D = some map1 ∧
      (∀ x y : Int, (map1 x y).weights =
        (cell_scales (scale_neighbors_calls sqrt Real.exp W H bmu r a) x y).foldl
          (fun w s => blend_weights w sample s D) (map x y).weights) ∧
      (∀ dx dy : Int, (-⌊r⌋ ≤ dx ∧ dx < ⌊r⌋) → (-⌊r⌋ ≤ dy ∧ dy < ⌊r⌋) →
        sqrt ((dx : ℝ) ^ 2 + (dy : ℝ) ^ 2) < r →
        gaussian_scale_computed sqrt Real.exp r a (dx, dy) ∈
            cell_scales (scale_neighbors_calls sqrt Real.exp W H bmu r a)
              ((bmu.x_coord + dx) % W) ((bmu.y_coord + dy) % H) ∧
          0 < gaussian_scale_computed sqrt Real.exp r a (dx, dy) ∧
          (a ≤ 1 → ∀ i : Nat, (i : Int) < D - 1 →
            |(map1 ((bmu.x_coord + dx) % W) ((bmu.y_coord + dy) % H)).weights i -
                sample.components i| ≤
              (1 - gaussian_scale_computed sqrt Real.exp r a (dx, dy)) *
                |(map ((bmu.x_coord + dx) % W) ((bmu.y_coord + dy) % H)).weights i -
                  sample.components i|)) ∧
      (sqrt 0 = 0 →
        a ∈ cell_scales (scale_neighbors_calls sqrt Real.exp W H bmu r a)
            bmu.x_coord bmu.y_coord ∧
          (a ≤ 1 → ∀ i : Nat, (i : Int) < D - 1 →
            |(map1 bmu.x_coord bmu.y_coord).weights i - sample.components i| ≤
              (1 - a) * |(map bmu.x_coord bmu.y_coord).weights i - sample.components i|)) := by
  have hrW : ⌊r⌋ ≤ W := le_trans hrm (min_le_left _ _)
  have hrH : ⌊r⌋ ≤ H := le_trans hrm (min_le_right _ _)
  have hrpos := radius_pos_of_floor r hr
  have hcalls := scale_neighbors_calls_eq_computed sqrt Real.exp W H bmu r a hbx hby hr hrW hrH
  have hw : ∀ x y : Int,
      (((scale_neighbors_calls sqrt Real.exp W H bmu r a).foldl
        (fun g t => blend_at g t.1 t.2.1 sample t.2.2 D) map) x y).weights =
      (cell_scales (scale_neighbors_calls sqrt Real.exp W H bmu r a) x y).foldl
          (fun w s => blend_weights w sample s D) (map x y).weights :=
    fun x y => foldl_blend_at_cell _ map sample D x y
  have hall : ∀ x y : Int, a ≤ 1 →
      ∀ s ∈ cell_scales (scale_neighbors_calls sqrt Real.exp W H bmu r a) x y,
        0 ≤ s ∧ s ≤ 1 := by
    intro x y ha1 s hs
    rw [mem_cell_scales, hcalls, List.mem_map] at hs
    obtain ⟨o, _, heq⟩ := hs
    have hs2 : gaussian_scale_computed sqrt Real.exp r a o = s := congrArg (fun c => c.2.2) heq
    have hb := gaussian_scale_computed_bounds sqrt r a o ha
    rw [hs2] at hb
    exact ⟨le_of_lt hb.1, le_trans hb.2 ha1⟩
  have key : ∀ dx dy : Int, (-⌊r⌋ ≤ dx ∧ dx < ⌊r⌋) → (-⌊r⌋ ≤ dy ∧ dy < ⌊r⌋) →
      sqrt ((dx : ℝ) ^ 2 + (dy : ℝ) ^ 2) < r →
      gaussian_scale_computed sqrt Real.exp r a (dx, dy) ∈
          cell_scales (scale_neighbors_calls sqrt Real.exp W H bmu r a)
            ((bmu.x_coord + dx) % W) ((bmu.y_coord + dy) % H) ∧
        0 < gaussian_scale_computed sqrt Real.exp r a (dx, dy) ∧
        (a ≤ 1 → ∀ i : Nat, (i : Int) < D - 1 →
          |(((scale_neighbors_calls sqrt Real.exp W H bmu r a).foldl
              (fun g t => blend_at g t.1 t.2.1 sample t.2.2 D) map)
              ((bmu.x_coord + dx) % W) ((bmu.y_coord + dy) % H)).weights i -
              sample.components i| ≤
            (1 - gaussian_scale_computed sqrt Real.exp r a (dx, dy)) *
              |(map ((bmu.x_coord + dx) % W) ((bmu.y_coord + dy) % H)).weights i -
                sample.components i|) := by
    intro dx dy hdx hdy hd
    have hin : gaussian_scale_computed sqrt Real.exp r a (dx, dy) ∈
        cell_scales (scale_neighbors_calls sqrt Real.exp W H bmu r a)
          ((bmu.x_coord + dx) % W) ((bmu.y_coord + dy) % H) := by
      rw [mem_cell_scales, hcalls, List.mem_map]
      exact ⟨(dx, dy), (mem_neighborhood_offsets_computed sqrt r (dx, dy)).mpr ⟨hdx, hdy, hd⟩,
        rfl⟩
    refine ⟨hin, (gaussian_scale_computed_bounds sqrt r a (dx, dy) ha).1, ?_⟩
    intro ha1 i hi
    rw [hw]
    exact blend_fold_contracts _ sample D i hi (hall _ _ ha1) _ hin _
  refine ⟨_, scale_neighbors_eq_foldl_calls sqrt Real.exp W H map bmu sample r a D hbx hby hr
    hrW hrH, hw, key, ?_⟩
  intro h0
  have k0 := key 0 0 (by omega) (by omega) (by
    simp only [Int.cast_zero]
    rw [show ((0 : ℝ) ^ 2 + (0 : ℝ) ^ 2) = 0 from by norm_num, h0]
    exact hrpos)
  have e1 : (bmu.x_coord + 0) % W = bmu.x_coord := by
    rw [add_zero]; exact Int.emod_eq_of_lt hbx.1 hbx.2
  have e2 : (bmu.y_coord + 0) % H = bmu.y_coord := by
    rw [add_zero]; exact Int.emod_eq_of_lt hby.1 hby.2
  have e3 : gaussian_scale_computed sqrt Real.exp r a ((0 : Int), (0 : Int)) = a := by
    unfold gaussian_scale_computed
    simp only [Int.cast_zero]
    rw [show ((0 : ℝ) ^ 2 + (0 : ℝ) ^ 2) = 0 from by norm_num, h0]
    simp
  rw [e1, e2, e3] at k0
  exact ⟨k0.1, k0.2.2⟩

/-- Witness of `scale_neighbors_coverage_computed`: an 8 × 8 grid with every weight 0, a sample
with every component 1, BMU `(4,4)`, radius 2.5, learning rate 1/2 and the binary64 square
root; for the offset `(1,1)`, whose computed length `1.4142135623730951` is below 2.5, the
weight of the neuron at `(5,5)` ends within `1 - s` of the component 1, for the positive scale
`s` of that offset: it is no longer 0. -/
theorem scale_neighbors_coverage_computed_witness :
    ∃ map1, scale_neighbors (sqrt_binary64 Real.sqrt) Real.exp 8 8 (uniform_grid 0) ⟨4, 4⟩
        (uniform_sample 1) (5 / 2) (1 / 2) 2 = some map1 ∧
      0 < gaussian_scale_computed (sqrt_binary64 Real.sqrt) Real.exp (5 / 2) (1 / 2)
        ((1 : Int), (1 : Int)) ∧
      |(map1 5 5).weights 0 - 1| ≤
        (1 - gaussian_scale_computed (sqrt_binary64 Real.sqrt) Real.exp (5 / 2) (1 / 2)
          ((1 : Int), (1 : Int))) * |(0 : ℝ) - 1| := by
  obtain ⟨map1, h1, _, h3, _⟩ := scale_neighbors_coverage_computed (sqrt_binary64 Real.sqrt)
    8 8 (uniform_grid 0) ⟨4, 4⟩ (uniform_sample 1) (5 / 2) (1 / 2) 2
    ⟨by decide, by decide⟩ ⟨by decide, by decide⟩
    (by rw [floor_five_halves]; decide) (by rw [floor_five_halves]; decide) (by norm_num)
  have h := h3 1 1 (by rw [floor_five_halves]; decide) (by rw [floor_five_halves]; decide) (by
    exact lt_of_le_of_lt
      (sqrt_binary64_le_two (((1 : Int) : ℝ) ^ 2 + ((1 : Int) : ℝ) ^ 2) (by norm_num))
      (by norm_num))
  exact ⟨map1, h1, h.2.1, h.2.2 (by norm_num) 0 (by decide)⟩

/-! ### Toroidal wraparound -/

theorem floor_five : ⌊(5 : ℝ)⌋ = 5 := by
  rw [Int.floor_eq_iff]
  constructor <;> norm_num

theorem emod_neg_one (W : Int) (hW : 1 ≤ W) : (0 + (-1 : Int)) % W = W - 1 := by
  have h3 : (-1 + W) % W = (-1) % W := Int.add_emod_self
  have h4 : (-1 + W) % W = -1 + W := Int.emod_eq_of_lt (by omega) (by omega)
  rw [zero_add, ← h3, h4]
  omega

/-- C6: for an in-range BMU and a radius with `1 ≤ floor r ≤ min(W,H)`, whatever value `sqrt`
returns for the sum of squares of an offset, the cell computed for every scanned offset
`(dx,dy)` is `((bx+dx) mod W, (by+dy) mod H)` and lies in `[0,W) × [0,H)`; every call of
`scale_neighbors` targets a cell of the grid, so the update succeeds, and the weights of every
neuron of the resulting grid are its former weights blended, in order, with the scale factors
of the calls that target it.  With BMU `(0,0)`, radius 5 and computed lengths `sqrt(1)` and
`sqrt(2)` below 5 (as in binary64), the neurons at `(W-1,0)`, `(0,H-1)` and `(W-1,H-1)` are
targets of the calls for the offsets `(-1,0)`, `(0,-1)` and `(-1,-1)`; for a learning rate in
`(0,1]` the scale factors `s` of these calls are positive and the neurons are blended toward
the sample: each of their weights ends within `(1 - s)` times its former distance from the
component of the sample. -/
theorem scale_neighbors_toroidal_blend (sqrt : ℝ → ℝ) (W H : Int) (map : Grid ℝ) (bmu : BMU)
    (sample : Sample ℝ) (r a : ℝ) (D : Int)
    (hbx : 0 ≤ bmu.x_coord ∧ bmu.x_coord < W) (hby : 0 ≤ bmu.y_coord ∧ bmu.y_coord < H)
    (hr : 1 ≤ ⌊r⌋) (hrm : ⌊r⌋ ≤ min W H) :
    (∀ dx dy : Int, (-c_trunc r ≤ dx ∧ dx < c_trunc r) → (-c_trunc r ≤ dy ∧ dy < c_trunc r) →
      (wrap_coord W (dx + bmu.x_coord) = (bmu.x_coord + dx) % W ∧
        0 ≤ wrap_coord W (dx + bmu.x_coord) ∧ wrap_coord W (dx + bmu.x_coord) < W) ∧
      (wrap_coord H (dy + bmu.y_coord) = (bmu.y_coord + dy) % H ∧
        0 ≤ wrap_coord H (dy + bmu.y_coord) ∧ wrap_coord H (dy + bmu.y_coord) < H)) ∧
    (∀ c ∈ scale_neighbors_calls sqrt Real.exp W H bmu r a,
      (0 ≤ c.1 ∧ c.1 < W) ∧ (0 ≤ c.2.1 ∧ c.2.1 < H)) ∧
    ∃ map1, scale_neighbors sqrt Real.exp W H map bmu sample r a D = some map1 ∧
      (∀ x y : Int, (map1 x y).weights =
        (cell_scales (scale_neighbors_calls sqrt Real.exp W H bmu r a) x y).foldl
          (fun w s => blend_weights w sample s D) (map x y).weights) ∧
      (bmu = ⟨0, 0⟩ → r = 5 → sqrt 1 < 5 → sqrt 2 < 5 →
        (gaussian_scale_computed sqrt Real.exp 5 a (-1, 0) ∈
            cell_scales (scale_neighbors_calls sqrt Real.exp W H bmu r a) (W - 1) 0 ∧
          gaussian_scale_computed sqrt Real.exp 5 a (0, -1) ∈
            cell_scales (scale_neighbors_calls sqrt Real.exp W H bmu r a) 0 (H - 1) ∧
          gaussian_scale_computed sqrt Real.exp 5 a (-1, -1) ∈
            cell_scales (scale_neighbors_calls sqrt Real.exp W H bmu r a) (W - 1) (H - 1)) ∧
        (0 < a → a ≤ 1 →
          (0 < gaussian_scale_computed sqrt Real.exp 5 a (-1, 0) ∧
            0 < gaussian_scale_computed sqrt Real.exp 5 a (0, -1) ∧
            0 < gaussian_scale_computed sqrt Real.exp 5 a (-1, -1)) ∧
          ∀ i : Nat, (i : Int) < D - 1 →
            |(map1 (W - 1) 0).weights i - sample.components i| ≤
                (1 - gaussian_scale_computed sqrt Real.exp 5 a (-1, 0)) *
                  |(map (W - 1) 0).weights i - sample.components i| ∧
              |(map1 0 (H - 1)).weights i - sample.components i| ≤
                (1 - gaussian_scale_computed sqrt Real.exp 5 a (0, -1)) *
                  |(map 0 (H - 1)).weights i - sample.components i| ∧
              |(map1 (W - 1) (H - 1)).weights i - sample.components i| ≤
                (1 - gaussian_scale_computed sqrt Real.exp 5 a (-1, -1)) *
                  |(map (W - 1) (H - 1)).weights i - sample.components i|)) := by
  have hrW : ⌊r⌋ ≤ W := le_trans hrm (min_le_left _ _)
  have hrH : ⌊r⌋ ≤ H := le_trans hrm (min_le_right _ _)
  have hW : 0 < W := by omega
  have hH : 0 < H := by omega
  have hcalls := scale_neighbors_calls_eq_computed sqrt Real.exp W H bmu r a hbx hby hr hrW hrH
  have hw : ∀ x y : Int,
      (((scale_neighbors_calls sqrt Real.exp W H bmu r a).foldl
        (fun g t => blend_at g t.1 t.2.1 sample t.2.2 D) map) x y).weights =
      (cell_scales (scale_neighbors_calls sqrt Real.exp W H bmu r a) x y).foldl
          (fun w s => blend_weights w sample s D) (map x y).weights :=
    fun x y => foldl_blend_at_cell _ map sample D x y
  refine ⟨?_, ?_, _, scale_neighbors_eq_foldl_calls sqrt Real.exp W H map bmu sample r a D hbx
    hby hr hrW hrH, hw, ?_⟩
  · intro dx dy hdx hdy
    rw [c_trunc_eq_floor r hr] at hdx hdy
    have hx := wrap_coord_emod W (dx + bmu.x_coord) (by omega) (by omega)
    have hy := wrap_coord_emod H (dy + bmu.y_coord) (by omega) (by omega)
    rw [hx, hy, add_comm dx, add_comm dy]
    exact ⟨⟨rfl, Int.emod_nonneg _ (by omega), Int.emod_lt_of_pos _ hW⟩,
      ⟨rfl, Int.emod_nonneg _ (by omega), Int.emod_lt_of_pos _ hH⟩⟩
  · intro c hc
    rw [hcalls, List.mem_map] at hc
    obtain ⟨o, _, rfl⟩ := hc
    exact ⟨⟨Int.emod_nonneg _ (by omega), Int.emod_lt_of_pos _ hW⟩,
      ⟨Int.emod_nonneg _ (by omega), Int.emod_lt_of_pos _ hH⟩⟩
  · intro hb h5 hs1 hs2
    subst h5
    subst hb
    rw [floor_five] at hr hrW hrH
    have hin : ∀ dx dy : Int, (-5 ≤ dx ∧ dx < 5) → (-5 ≤ dy ∧ dy < 5) →
        sqrt ((dx : ℝ) ^ 2 + (dy : ℝ) ^ 2) < 5 →
        gaussian_scale_computed sqrt Real.exp 5 a (dx, dy) ∈
          cell_scales (scale_neighbors_calls sqrt Real.exp W H ⟨0, 0⟩ 5 a)
            ((0 + dx) % W) ((0 + dy) % H) := by
      intro dx dy hdx hdy hd
      rw [mem_cell_scales, hcalls, List.mem_map]
      exact ⟨(dx, dy), (mem_neighborhood_offsets_computed sqrt 5 (dx, dy)).mpr
        ⟨by rw [floor_five]; exact hdx, by rw [floor_five]; exact hdy, hd⟩, rfl⟩
    have e0W : (0 + (0 : Int)) % W = 0 := by simp
    have e0H : (0 + (0 : Int)) % H = 0 := by simp
    have d1 : sqrt ((((-1 : Int)) : ℝ) ^ 2 + (((0 : Int)) : ℝ) ^ 2) < 5 := by
      rw [show ((((-1 : Int)) : ℝ) ^ 2 + (((0 : Int)) : ℝ) ^ 2) = 1 from by norm_num]
      exact hs1
    have d2 : sqrt ((((0 : Int)) : ℝ) ^ 2 + (((-1 : Int)) : ℝ) ^ 2) < 5 := by
      rw [show ((((0 : Int)) : ℝ) ^ 2 + (((-1 : Int)) : ℝ) ^ 2) = 1 from by norm_num]
      exact hs1
    have d3 : sqrt ((((-1 : Int)) : ℝ) ^ 2 + (((-1 : Int)) : ℝ) ^ 2) < 5 := by
      rw [show ((((-1 : Int)) : ℝ) ^ 2 + (((-1 : Int)) : ℝ) ^ 2) = 2 from by norm_num]
      exact hs2
    have m1 := hin (-1) 0 (by omega) (by omega) d1
    have m2 := hin 0 (-1) (by omega) (by omega) d2
    have m3 := hin (-1) (-1) (by omega) (by omega) d3
    rw [emod_neg_one W (by omega), e0H] at m1
    rw [e0W, emod_neg_one H (by omega)] at m2
    rw [emod_neg_one W (by omega), emod_neg_one H (by omega)] at m3
    refine ⟨⟨m1, m2, m3⟩, ?_⟩
    intro ha0 ha1
    have hall : ∀ x y : Int,
        ∀ s ∈ cell_scales (scale_neighbors_calls sqrt Real.exp W H ⟨0, 0⟩ 5 a) x y,
          0 ≤ s ∧ s ≤ 1 := by
      intro x y s hs
      rw [mem_cell_scales, hcalls, List.mem_map] at hs
      obtain ⟨o, _, heq⟩ := hs
      have hs2 : gaussian_scale_computed sqrt Real.exp 5 a o = s :=
        congrArg (fun c => c.2.2) heq
      have hb := gaussian_scale_computed_bounds sqrt 5 a o ha0
      rw [hs2] at hb
      exact ⟨le_of_lt hb.1, le_trans hb.2 ha1⟩
    refine ⟨⟨(gaussian_scale_computed_bounds sqrt 5 a _ ha0).1,
      (gaussian_scale_computed_bounds sqrt 5 a _ ha0).1,
      (gaussian_scale_computed_bounds sqrt 5 a _ ha0).1⟩, ?_⟩
    intro i hi
    refine ⟨?_, ?_, ?_⟩
    · rw [hw]
      exact blend_fold_contracts _ sample D i hi (hall _ _) _ m1 _
    · rw [hw]
      exact blend_fold_contracts _ sample D i hi (hall _ _) _ m2 _
    · rw [hw]
      exact blend_fold_contracts _ sample D i hi (hall _ _) _ m3 _

/-- Witness of `scale_neighbors_toroidal_blend`: an 8 × 8 grid with every weight 0, a sample
with every component 1, BMU `(0,0)`, radius 5, learning rate 1/2 and the binary64 square root
(`sqrt(1) = 1`, `sqrt(2) = 1.4142135623730951`); the weights of the neurons at `(7,0)`, `(0,7)`
and `(7,7)` end within `1 - s` of the component 1, for the positive scale `s` of their offset:
they are no longer 0. -/
theorem scale_neighbors_toroidal_blend_witness :
    ∃ map1, scale_neighbors (sqrt_binary64 Real.sqrt) Real.exp 8 8 (uniform_grid 0) ⟨0, 0⟩
        (uniform_sample 1) 5 (1 / 2) 2 = some map1 ∧
      (0 < gaussian_scale_computed (sqrt_binary64 Real.sqrt) Real.exp 5 (1 / 2) (-1, 0) ∧
        0 < gaussian_scale_computed (sqrt_binary64 Real.sqrt) Real.exp 5 (1 / 2) (0, -1) ∧
        0 < gaussian_scale_computed (sqrt_binary64 Real.sqrt) Real.exp 5 (1 / 2) (-1, -1)) ∧
      |(map1 (8 - 1) 0).weights 0 - 1| ≤
          (1 - gaussian_scale_computed (sqrt_binary64 Real.sqrt) Real.exp 5 (1 / 2) (-1, 0)) *
            |(0 : ℝ) - 1| ∧
        |(map1 0 (8 - 1)).weights 0 - 1| ≤
          (1 - gaussian_scale_computed (sqrt_binary64 Real.sqrt) Real.exp 5 (1 / 2) (0, -1)) *
            |(0 : ℝ) - 1| ∧
        |(map1 (8 - 1) (8 - 1)).weights 0 - 1| ≤
          (1 - gaussian_scale_computed (sqrt_binary64 Real.sqrt) Real.exp 5 (1 / 2) (-1, -1)) *
            |(0 : ℝ) - 1| := by
  obtain ⟨_, _, map1, h1, _, h3⟩ := scale_neighbors_toroidal_blend (sqrt_binary64 Real.sqrt)
    8 8 (uniform_grid 0) ⟨0, 0⟩ (uniform_sample 1) 5 (1 / 2) 2
    ⟨by decide, by decide⟩ ⟨by decide, by decide⟩
    (by rw [floor_five]; decide) (by rw [floor_five]; decide)
  have h := (h3 rfl rfl (by rw [sqrt_binary64_one]; norm_num)
    (lt_of_le_of_lt (sqrt_binary64_le_two 2 (by norm_num)) (by norm_num))).2 (by norm_num)
    (by norm_num)
  exact ⟨map1, h1, h.1, h.2 0 (by decide)⟩

end Som
